import Mathlib

/-!
# Line of sight, action points and the move action of `glop/example/game`

A shallow embedding of `src/example/game/entity.go` and
`src/example/game/action_move.go`.

Conventions of the embedding.

* Go `int` is `Int`.  Every integer in these functions is a grid coordinate,
  a vertex id or a small game statistic, so no arithmetic here comes near the
  machine word size.
* Go `float32`/`float64` values (continuous positions, path costs) are `ℚ`,
  that is, the values are exact; `goInt` is the conversion `int(f)`.
* `map[int]bool` in which only `true` is ever stored (`Entity.visible`) is a
  `Finset Int` of its keys.  `map[Terrain]int` is `Terrain → Option Int`; a
  missing key is `none`.
* An index out of range is a run-time panic; functions that index the grid
  return `Option`, with `none` for the panic.
-/

namespace Glop

/-! ## Data model -/

/-- A grid cell coordinate `[2]int`. -/
abbrev Point := Int × Int

/-- Terrain classification.  Its declaration is not in `src/`; only equality
of terrains and their use as map keys matter here. -/
abbrev Terrain := Nat

/-- A grid cell: its terrain and its highlight bitmask. -/
structure Cell where
  Terrain : Terrain
  highlight : Nat

/-- The per-unit-type terrain modifier tables that the code reads
(`Base.attributes`). -/
structure Attributes where
  MoveMods : Terrain → Option Int
  LosMods : Terrain → Option Int
  LosDistance : Int

/-- The level: `grid[x][y]` is the cell at column `x`, row `y`.  The method
`Level.toVertex` is called by the code but defined outside `src/`; it is a
field here, so every general theorem holds for every vertex encoding. -/
structure Level where
  grid : List (List Cell)
  toVertex : Int → Int → Int

/-- Reading `l.grid[x][y]`: `none` is the index-out-of-range panic. -/
def Level.cellAt (l : Level) (x y : Int) : Option Cell :=
  if x < 0 ∨ y < 0 then none
  else
    match l.grid.get? x.toNat with
    | none => none
    | some col => col.get? y.toNat

/-- A rectangular grid of `w` columns, each of `h` cells. -/
def Level.Rect (l : Level) (w h : Nat) : Prop :=
  l.grid.length = w ∧ ∀ col ∈ l.grid, col.length = h

/-! ## `bresenham` -/

/-- The two `append` sites of `bresenham`: `{cx, cy}` when the line is not
steep, `{cy, cx}` when it is. -/
def appendCell (steep : Bool) (ret : List Point) (cx cy : Int) : List Point :=
  if !steep then ret ++ [(cx, cy)] else ret ++ [(cy, cx)]

/-- The loop `for cx := x; cx != x2; cx += xstep` of `bresenham`, from the
state `(cx, cy, err, ret)`.  It returns the final `cy` and `ret`.  The first
argument bounds the number of iterations; `none` means the bound was reached
before `cx = x2`. -/
def bresenhamLoop (steep : Bool) (dx dy x2 xstep ystep : Int) :
    Nat → Int → Int → Int → List Point → Option (Int × List Point)
  | fuel, cx, cy, err, ret =>
    if cx = x2 then some (cy, ret)
    else
      match fuel with
      | 0 => none
      | fuel + 1 =>
        let ret := appendCell steep ret cx cy
        let err := err - dy
        if err < 0 then
          bresenhamLoop steep dx dy x2 xstep ystep fuel (cx + xstep) (cy + ystep) (err + dx) ret
        else
          bresenhamLoop steep dx dy x2 xstep ystep fuel (cx + xstep) cy err ret

/-- The part of `bresenham` after the `if steep` swap: `x, y, x2, y2, dx, dy`
are the values the variables hold from line 237 on. -/
def bresenhamBody (steep : Bool) (x y x2 y2 dx dy : Int) : List Point :=
  let err := dx >>> (1 : Nat)
  let cy := y
  let xstep : Int := if x2 < x then -1 else 1
  let ystep : Int := if y2 < y then -1 else 1
  match bresenhamLoop steep dx dy x2 xstep ystep dx.toNat x cy err [] with
  | some (cy, ret) => appendCell steep ret x2 cy
  | none => []

/-- The function `bresenham(x, y, x2, y2)`. -/
def bresenham (x y x2 y2 : Int) : List Point :=
  let dx := x2 - x
  let dx := if dx < 0 then -dx else dx
  let dy := y2 - y
  let dy := if dy < 0 then -dy else dy
  let steep := decide (dy > dx)
  if steep then bresenhamBody steep y x y2 x2 dy dx
  else bresenhamBody steep x y x2 y2 dx dy

/-! ## `addVisibleAlongLine` and `figureVisibility` -/

/-- The method `Entity.addVisibleAlongLine(vision, line)`, on the visible set. -/
def addVisibleAlongLine (att : Attributes) (l : Level) :
    Int → List Point → Finset Int → Option (Finset Int)
  | _, [], visible => some visible
  | vision, v :: line, visible =>
    let visible := insert (l.toVertex v.1 v.2) visible
    match l.cellAt v.1 v.2 with
    | none => none
    | some cell =>
      match att.LosMods cell.Terrain with
      | none => some visible
      | some concealment =>
        if concealment < 0 then some visible
        else
          let vision := vision - (concealment + 1)
          if vision ≤ 0 then some visible
          else addVisibleAlongLine att l vision line visible

/-- The slice expression `s[1:]`; it panics on an empty slice. -/
def sliceFrom1 {α : Type} : List α → Option (List α)
  | [] => none
  | _ :: rest => some rest

/-- A counted loop `for c := lo; c <= hi; c++ { body }` over a state. -/
def forRange {σ : Type} (lo hi : Int) (body : Int → σ → Option σ) (init : σ) : Option σ :=
  (List.range (hi + 1 - lo).toNat).foldlM (fun s (i : Nat) => body (lo + (i : Int)) s) init

/-- The statement `e.addVisibleAlongLine(vision, bresenham(ex, ey, tx, ty)[1:])`. -/
def castRay (att : Attributes) (l : Level) (vision ex ey tx ty : Int)
    (visible : Finset Int) : Option (Finset Int) :=
  match sliceFrom1 (bresenham ex ey tx ty) with
  | none => none
  | some line => addVisibleAlongLine att l vision line visible

/-- The bounding box `(x, y, x2, y2)` computed at the start of
`figureVisibility`; `none` when `grid[0]` does not exist. -/
def visionBox (l : Level) (vision ex ey : Int) : Option (Int × Int × Int × Int) :=
  let x := ex - vision
  let x := if x < 0 then 0 else x
  let y := ey - vision
  let y := if y < 0 then 0 else y
  let x2 := ex + vision
  let x2 := if x2 ≥ (l.grid.length : Int) then (l.grid.length : Int) - 1 else x2
  let y2 := ey + vision
  match l.grid.get? 0 with
  | none => none
  | some col0 =>
    let y2 := if y2 ≥ (col0.length : Int) then (col0.length : Int) - 1 else y2
    some (x, y, x2, y2)

/-- The method `Entity.figureVisibility`, for an entity whose attributes are
`att` and whose integer cell `(int(pos.X), int(pos.Y))` is `(ex, ey)`.  It
returns the new visible set; the statements are sequenced with `Option.bind`,
so a panic in one of them is a panic of the whole. -/
def figureVisibilityAt (att : Attributes) (l : Level) (ex ey : Int) :
    Option (Finset Int) :=
  let vision := att.LosDistance
  (visionBox l vision ex ey).bind fun box =>
    let x := box.1
    let y := box.2.1
    let x2 := box.2.2.1
    let y2 := box.2.2.2
    let visible : Finset Int := {l.toVertex ex ey}
    (forRange x x2 (fun cx visible =>
      (castRay att l vision ex ey cx y visible).bind fun visible =>
        castRay att l vision ex ey cx y2 visible) visible).bind fun visible =>
    forRange y y2 (fun cy visible =>
      (castRay att l vision ex ey x cy visible).bind fun visible =>
        castRay att l vision ex ey x2 cy visible) visible

/-! ## The entity: action points and the checkpoint -/

/-- The conversion `int(f)` of a float to an integer: truncation toward zero. -/
def goInt (q : ℚ) : Int := if 0 ≤ q then ⌊q⌋ else ⌈q⌉

/-- The fields of `UnitType` that the modelled code reads. -/
structure UnitType where
  Health : Int
  AP : Int
  attributes : Attributes

/-- The fields of `Entity` that the modelled code reads or writes.  The level
pointer is passed to each method instead of being stored. -/
structure Entity where
  Base : UnitType
  Health : Int
  AP : Int
  pos : ℚ × ℚ
  prev_pos : ℚ × ℚ
  path : List Point
  visible : Finset Int

/-- The method `unitGraph.costToMove(src, dst)` of the graph
`unitGraph{level, MoveMods}`.  It is defined outside `src/` and is a parameter
of everything that charges action points. -/
abbrev CostToMove := Level → (Terrain → Option Int) → Int → Int → ℚ

/-- The method `Entity.figureVisibility`, on the entity. -/
def Entity.figureVisibility (l : Level) (e : Entity) : Option Entity :=
  match figureVisibilityAt e.Base.attributes l (goInt e.pos.1) (goInt e.pos.2) with
  | none => none
  | some visible => some { e with visible := visible }

/-- The method `Entity.OnSetup`. -/
def Entity.OnSetup (l : Level) (e : Entity) : Option Entity :=
  let e := { e with Health := e.Base.Health }
  let e := { e with AP := e.Base.AP }
  let e := { e with prev_pos := e.pos }
  e.figureVisibility l

/-- The method `Entity.OnRound`. -/
def Entity.OnRound (e : Entity) : Entity :=
  { e with AP := e.Base.AP }

/-- The method `Entity.enterCell(x, y)`. -/
def Entity.enterCell (costToMove : CostToMove) (l : Level) (e : Entity) (x y : Int) :
    Option Entity :=
  let src := l.toVertex (goInt e.prev_pos.1) (goInt e.prev_pos.2)
  let dst := l.toVertex x y
  let e := { e with AP := e.AP - goInt (costToMove l e.Base.attributes.MoveMods src dst) }
  let e := { e with prev_pos := ((x : ℚ), (y : ℚ)) }
  let e := if e.AP < 0 then { e with AP := 0 } else e
  e.figureVisibility l

/-- One call on an entity, as it appears in a history of calls. -/
inductive EntityCall where
  | OnSetup : EntityCall
  | OnRound : EntityCall
  | enterCell : Int → Int → EntityCall

/-- Performing one call. -/
def Entity.call (costToMove : CostToMove) (l : Level) (e : Entity) :
    EntityCall → Option Entity
  | EntityCall.OnSetup => e.OnSetup l
  | EntityCall.OnRound => some e.OnRound
  | EntityCall.enterCell x y => e.enterCell costToMove l x y

/-- Performing a finite sequence of calls, in order. -/
def Entity.run (costToMove : CostToMove) (l : Level) (e : Entity)
    (calls : List EntityCall) : Option Entity :=
  calls.foldlM (fun e c => e.call costToMove l c) e

/-! ## The move action -/

/-- A board position.  The declaration of `BoardPos` is not in `src/`; the
callers build it from two coordinates and compare it by integer cell. -/
abbrev BoardPos := ℚ × ℚ

/-- Modelled from the spec: `MakeBoardPos(x, y)`, missing from `src/`, is the
board position of the integer cell `(x, y)`. -/
def MakeBoardPos (x y : Int) : BoardPos := ((x : ℚ), (y : ℚ))

/-- Modelled from the spec: `BoardPos.IntEquals`, missing from `src/`, holds
when both positions lie in the same integer cell ("destination is a member of
the last computed reachable set"). -/
def BoardPos.IntEquals (p q : BoardPos) : Bool :=
  decide (goInt p.1 = goInt q.1) && decide (goInt p.2 = goInt q.2)

/-- Modelled from the spec: `BoardPos.Vertex(level)`, missing from `src/`, is
the vertex of the position's integer cell. -/
def BoardPos.Vertex (p : BoardPos) (l : Level) : Int :=
  l.toVertex (goInt p.1) (goInt p.2)

/-- Modelled from the spec: `Entity.CurAp()`, missing from `src/`, is the
entity's current AP. -/
def Entity.CurAp (e : Entity) : Int := e.AP

/-- Modelled from the spec: `Level.clearCache(mask)`, missing from `src/`,
clears the flags of `mask` in the highlight of every cell of the level. -/
def Level.clearCache (l : Level) (mask : Nat) : Level :=
  { l with grid := l.grid.map fun col =>
      col.map fun c => { c with highlight := c.highlight ^^^ (c.highlight &&& mask) } }

/-- Modelled from the spec: the statement
`level.GetCellAtPos(v).highlight |= mask`; `GetCellAtPos`, missing from
`src/`, is the cell at the integer cell of `v`, and `none` is the
index-out-of-range panic. -/
def Level.orHighlight (l : Level) (v : BoardPos) (mask : Nat) : Option Level :=
  match l.cellAt (goInt v.1) (goInt v.2) with
  | none => none
  | some c =>
    let marked : Cell := { c with highlight := c.highlight ||| mask }
    let grid := List.modify (fun col => col.set (goInt v.2).toNat marked) (goInt v.1).toNat l.grid
    some { l with grid := grid }

/-- What `MouseClick` calls from outside `src/`: the flag `Reachable`, the
shortest-path routine `algorithm.Dijkstra` on `unitGraph{level, ent}` (total
cost and vertex sequence), `payForMove` (whether the entity could pay, and the
entity afterwards) and `Level.MakeBoardPosFromVertex`. -/
structure MoveEnv where
  Reachable : Nat
  Dijkstra : Level → Entity → List Int → List Int → ℚ × List Int
  payForMove : Level → Entity → BoardPos → Bool × Entity
  MakeBoardPosFromVertex : Level → Int → BoardPos

/-- The result type `ActionCommit` of a click. -/
inductive ActionCommit where
  | NoAction : ActionCommit
  | StandardAction : ActionCommit
  deriving DecidableEq

/-- The state of an `ActionMove`. -/
structure ActionMove where
  Ent : Entity
  reachable : List BoardPos
  path : List BoardPos

/-- The method `ActionMove.MouseClick(bx, by)`: the signal returned, the level
(cell highlights) and the action afterwards. -/
def ActionMove.MouseClick (env : MoveEnv) (l : Level) (a : ActionMove) (bx «by» : ℚ) :
    Option (ActionCommit × Level × ActionMove) :=
  let dst := MakeBoardPos (goInt bx) (goInt «by»)
  let found := a.reachable.any fun v => BoardPos.IntEquals dst v
  if !found then some (ActionCommit.NoAction, l, a)
  else
    let (ap, path) := env.Dijkstra l a.Ent [BoardPos.Vertex a.Ent.pos l] [BoardPos.Vertex dst l]
    if path.length ≤ 1 ∨ goInt ap > a.Ent.CurAp then some (ActionCommit.NoAction, l, a)
    else
      let a := { a with path := (path.drop 1).map (env.MakeBoardPosFromVertex l) }
      let a := { a with reachable := [] }
      let l := l.clearCache env.Reachable
      match a.path.foldlM (fun l v => l.orHighlight v env.Reachable) l with
      | none => none
      | some l =>
        match a.path with
        | [] => none
        | first :: _ =>
          let (paid, ent) := env.payForMove l a.Ent first
          let a := { a with Ent := ent }
          if !paid then some (ActionCommit.NoAction, l, { a with path := [] })
          else some (ActionCommit.StandardAction, l, a)

/-- The method `ActionMove.Cancel`: the level and the action afterwards. -/
def ActionMove.Cancel (env : MoveEnv) (l : Level) (a : ActionMove) : Level × ActionMove :=
  let a := { a with reachable := [] }
  let a := { a with path := [] }
  (l.clearCache env.Reachable, a)

/-- The routine `algorithm.ReachableWithinLimit` on `unitGraph{level, ent}`,
from a list of source vertices, within a cost limit.  It is defined outside
`src/` and is a parameter of `Prep`. -/
abbrev ReachableWithinLimit := Level → Entity → List Int → ℚ → List Int

/-- The method `ActionMove.Prep`: the boolean returned, the level (cell
highlights) and the action afterwards. -/
def ActionMove.Prep (reachableWithinLimit : ReachableWithinLimit) (env : MoveEnv)
    (l : Level) (a : ActionMove) : Option (Bool × Level × ActionMove) :=
  let bx := goInt a.Ent.pos.1
  let «by» := goInt a.Ent.pos.2
  let reachable := reachableWithinLimit l a.Ent [l.toVertex bx «by»] (a.Ent.CurAp : ℚ)
  if reachable.length = 0 then some (false, l, a)
  else
    let a := { a with reachable := reachable.map (env.MakeBoardPosFromVertex l) }
    match a.reachable.foldlM (fun l v => l.orHighlight v env.Reachable) l with
    | none => none
    | some l => some (true, l, a)

/-- The result type `MaintenanceStatus` of `Maintain`. -/
inductive MaintenanceStatus where
  | Complete : MaintenanceStatus
  | CheckForInterrupts : MaintenanceStatus
  | InProgress : MaintenanceStatus
  deriving DecidableEq

/-- The movement driver `AdvanceEntity(ent, &path, dt)`: whether the path is
finished, the entity and the path afterwards.  It is defined outside `src/`
and is a parameter of `Maintain`. -/
abbrev AdvanceEntity := Level → Entity → List BoardPos → Int → Bool × Entity × List BoardPos

/-- The method `ActionMove.Maintain(dt)`: the status returned, the level and
the action afterwards. -/
def ActionMove.Maintain (advanceEntity : AdvanceEntity) (env : MoveEnv) (l : Level)
    (a : ActionMove) (dt : Int) : MaintenanceStatus × Level × ActionMove :=
  let plen := a.path.length
  let (finished, ent, path) := advanceEntity l a.Ent a.path dt
  let a := { a with Ent := ent, path := path }
  if finished then
    let (l, a) := a.Cancel env l
    (MaintenanceStatus.Complete, l, a)
  else if a.path.length < plen then (MaintenanceStatus.CheckForInterrupts, l, a)
  else (MaintenanceStatus.InProgress, l, a)

/-- Whether a cell carries at least one flag of `mask` in its highlight. -/
def Cell.hasFlag (c : Cell) (mask : Nat) : Prop := c.highlight &&& mask ≠ 0

/-- Whether the integer cell `(x, y)` is the cell of one of the positions. -/
def onCells (ps : List BoardPos) (x y : Int) : Prop :=
  ∃ p ∈ ps, (goInt p.1, goInt p.2) = (x, y)

/-! ## The movement driver (`Entity.advance`) -/

/-- What `advance` and `turnToFace` call from outside `src/`: the sprite
(`glop/sprite`: its current state and animation, its facing, and the effect of
a command on it), the vector length `mathgl.Vec2.Length`, and the angle
`math.Atan2(y, x) / (2 * math.Pi) * 360.0` in degrees.  The other vector
operations (`Subtract`, `Normalize`, `Scale`, `Add`) are written out. -/
structure Driver (S : Type) where
  CurState : S → String
  CurAnim : S → String
  StateFacing : S → Int
  Command : S → String → S
  Length : ℚ × ℚ → ℚ
  Atan2Degrees : ℚ → ℚ → ℚ

/-- How a bounded run of a recursive method ends: the bound on the number of
calls was reached, a call panicked, or the method returned. -/
inductive Run (α : Type) where
  | outOfFuel : Run α
  | panicked : Run α
  | returned : α → Run α

/-- Adding a distance to the distance reported by a run. -/
def Run.plus {α : Type} (d : ℚ) : Run (α × ℚ) → Run (α × ℚ)
  | Run.outOfFuel => Run.outOfFuel
  | Run.panicked => Run.panicked
  | Run.returned (a, m) => Run.returned (a, d + m)

/-- The board position of an integer waypoint, `Vec2{float32(x), float32(y)}`. -/
def waypoint (w : Point) : ℚ × ℚ := ((w.1 : ℚ), (w.2 : ℚ))

/-- The method `Entity.turnToFace(target)`, on the sprite. -/
def Entity.turnToFace {S : Type} (drv : Driver S) (s : S) (e : Entity) (target : ℚ × ℚ) : S :=
  let target := (target.1 - e.pos.1, target.2 - e.pos.2)
  let facing := drv.Atan2Degrees target.2 target.1
  let face : Int := if facing ≥ 45 / 2 ∨ facing < -(315 / 2) then 0 else 1
  if face ≠ drv.StateFacing s then drv.Command s "turn_left" else s

/-- The method `Entity.advance(dist)`, on the sprite and the entity.  The first
argument bounds the number of calls (this call and its recursive calls).  The
rational returned next to the state is not in the code: it is the sum of
`final_dist` over the calls, the distance advanced. -/
def Entity.advance {S : Type} (drv : Driver S) (costToMove : CostToMove) (l : Level) :
    Nat → S → Entity → ℚ → Run ((S × Entity) × ℚ)
  | 0, _, _, _ => Run.outOfFuel
  | fuel + 1, s, e, dist =>
    match e.path with
    | [] =>
      let s := if drv.CurState s ≠ "ready" then drv.Command s "stop" else s
      Run.returned ((s, e), 0)
    | w :: _ =>
      let s := if drv.CurState s ≠ "walk" then drv.Command s "move" else s
      if drv.CurAnim s ≠ "walk" then Run.returned ((s, e), 0)
      else if dist ≤ 0 then Run.returned ((s, e), 0)
      else
        let b := e.pos
        let t := waypoint w
        let t := (t.1 - b.1, t.2 - b.2)
        let moved := drv.Length t
        if moved ≤ 1 / 100000 then
          match e.enterCell costToMove l w.1 w.2 with
          | none => Run.panicked
          | some e =>
            let e := { e with path := e.path.drop 1 }
            Entity.advance drv costToMove l fuel s e (dist - moved)
        else
          let final_dist := if dist > moved then moved else dist
          let t := (t.1 / moved, t.2 / moved)
          let t := (t.1 * final_dist, t.2 * final_dist)
          let b := (b.1 + t.1, b.2 + t.2)
          let e := { e with pos := b }
          let s := if moved > dist then e.turnToFace drv s (waypoint w) else s
          (Entity.advance drv costToMove l fuel s e (dist - final_dist)).plus final_dist

/-- The distance from a position to a waypoint, as `advance` computes it
(`moved`). -/
def distTo (len : ℚ × ℚ → ℚ) (pos : ℚ × ℚ) (w : Point) : ℚ :=
  len ((waypoint w).1 - pos.1, (waypoint w).2 - pos.2)

/-- The position that `advance` assigns when it moves by `final_dist` toward a
waypoint at distance `moved`. -/
def moveToward (pos : ℚ × ℚ) (w : Point) (moved final_dist : ℚ) : ℚ × ℚ :=
  (pos.1 + ((waypoint w).1 - pos.1) / moved * final_dist,
   pos.2 + ((waypoint w).2 - pos.2) / moved * final_dist)

/-- The sprite after the first two statements of `advance` on a non-empty
path: commanded to move unless it is walking. -/
def Driver.wake {S : Type} (drv : Driver S) (s : S) : S :=
  if drv.CurState s ≠ "walk" then drv.Command s "move" else s

/-- The entity after `advance` has moved it toward the waypoint `w` with the
budget `dist`: by the smaller of the budget and the distance. -/
def Entity.stepToward {S : Type} (drv : Driver S) (e : Entity) (w : Point) (dist : ℚ) : Entity :=
  let moved := distTo drv.Length e.pos w
  { e with pos := moveToward e.pos w moved (min dist moved) }

/-- Every waypoint of the path is a cell of a `W` by `H` grid. -/
def InGrid (W H : Nat) (path : List Point) : Prop :=
  ∀ p ∈ path, (0 ≤ p.1 ∧ p.1 < W) ∧ (0 ≤ p.2 ∧ p.2 < H)

/-! ## Derived keys (`src/gin/derived_key.go`) -/

/-- A key identifier `KeyId`. -/
abbrev KeyId := Int

/-- The press amount `key_map[id].CurPressAmt()` of every key.  The map
`key_map` and the interface `Key` are declared outside `src/`. -/
abbrev KeyMap := KeyId → ℚ

/-- The struct `binding`. -/
structure binding where
  PrimaryKey : KeyId
  Modifiers : List KeyId
  Down : List Bool

/-- The loop `for i := range b.Modifiers` of `binding.CurPressAmt`, from index
`i` with the modifiers from `i` on: `some true` when it returns 0 early,
`some false` when it runs to its end, `none` when `b.Down[i]` is out of range. -/
def binding.loop (key_map : KeyMap) (Down : List Bool) : List KeyId → Nat → Option Bool
  | [], _ => some false
  | m :: rest, i =>
    match Down.get? i with
    | none => none
    | some d =>
      if (decide (key_map m ≠ 0)) != d then some true
      else binding.loop key_map Down rest (i + 1)

/-- The method `binding.CurPressAmt`. -/
def binding.CurPressAmt (key_map : KeyMap) (b : binding) : Option ℚ :=
  match binding.loop key_map b.Down b.Modifiers 0 with
  | none => none
  | some true => some 0
  | some false => some (key_map b.PrimaryKey)

/-- The struct `derivedKey`; the embedded `keyState` (id and name) plays no
part in `CurPressAmt`. -/
structure derivedKey where
  Bindings : List binding

/-- The method `derivedKey.CurPressAmt`. -/
def derivedKey.CurPressAmt (key_map : KeyMap) (dk : derivedKey) : Option ℚ :=
  dk.Bindings.foldlM (fun sum b => (b.CurPressAmt key_map).map fun amt => sum + amt) 0

/-! ## Concrete levels for the end-to-end checks -/

/-- Modelled from the spec: the vertex codec `id = y * width + x`; the method
`Level.toVertex` itself is not in `src/`. -/
def rowMajor (width : Int) (x y : Int) : Int := y * width + x

/-- A `w` by `h` level whose cell `(x, y)` has terrain `terrainOf x y`, with
the row-major vertex codec. -/
def terrainLevel (w h : Nat) (terrainOf : Nat → Nat → Terrain) : Level where
  grid := (List.range w).map fun x => (List.range h).map fun y =>
    { Terrain := terrainOf x y, highlight := 0 }
  toVertex := rowMajor w

/-- Attributes with vision budget `vision`, concealment 0 on terrain 0 and the
entry `other` (possibly none) on every other terrain. -/
def sightAttributes (vision : Int) (other : Option Int) : Attributes where
  MoveMods := fun _ => none
  LosMods := fun t => if t = 0 then some 0 else other
  LosDistance := vision

/-- The vertices of all cells of a `w` by `h` level under the row-major codec. -/
def allVertices (w h : Nat) : Finset Int :=
  (Finset.range w ×ˢ Finset.range h).image fun p => rowMajor w p.1 p.2

/-- An entity with 3 base AP and vision 3, standing on the cell (2,2). -/
def sampleEntity : Entity where
  Base := { Health := 10, AP := 3, attributes := sightAttributes 3 none }
  Health := 10
  AP := 3
  pos := (2, 2)
  prev_pos := (2, 2)
  path := []
  visible := ∅

/-- A cost table in which every move costs 5, more than `sampleEntity` has. -/
def sampleCost : CostToMove := fun _ _ _ _ => 5

/-- Collaborators of the move action that find no path and always accept the
payment. -/
def sampleEnv : MoveEnv where
  Reachable := 1
  Dijkstra := fun _ _ _ _ => (0, [])
  payForMove := fun _ e _ => (true, e)
  MakeBoardPosFromVertex := fun _ v => ((v : ℚ), 0)

/-- A move action of `sampleEntity` whose reachable set is the cells (2,3)
and (3,2). -/
def sampleAction : ActionMove where
  Ent := sampleEntity
  reachable := [MakeBoardPos 2 3, MakeBoardPos 3 2]
  path := []

/-- Collaborators of the move action on a 5 wide level: the shortest path from
vertex 12 (cell (2,2)) to vertex 13 (cell (3,2)) costs 3.5, and the payment is
accepted. -/
def fractionalEnv : MoveEnv where
  Reachable := 1
  Dijkstra := fun _ _ _ _ => (7 / 2, [12, 13])
  payForMove := fun _ e _ => (true, e)
  MakeBoardPosFromVertex := fun _ v => MakeBoardPos (v % 5) (v / 5)

/-- Collaborators of the move action on a 5 wide level: the shortest path from
vertex 12 to vertex 13 costs 1, and the payment of the first step is refused. -/
def refusingEnv : MoveEnv where
  Reachable := 1
  Dijkstra := fun _ _ _ _ => (1, [12, 13])
  payForMove := fun _ e _ => (false, e)
  MakeBoardPosFromVertex := fun _ v => MakeBoardPos (v % 5) (v / 5)

/-- Collaborators of the move action on a 5 wide level: the shortest path from
vertex 12 to vertex 13 costs 1, and the payment is accepted. -/
def payingEnv : MoveEnv where
  Reachable := 1
  Dijkstra := fun _ _ _ _ => (1, [12, 13])
  payForMove := fun _ e _ => (true, e)
  MakeBoardPosFromVertex := fun _ v => MakeBoardPos (v % 5) (v / 5)

/-- A key state in which key 1 is pressed by 1, key 2 by -1 (an axis moved the
other way), and every other key is at rest. -/
def opposedKeys : KeyMap := fun k => if k = 1 then 1 else if k = 2 then -1 else 0

/-- A derived key with two bindings without modifiers, on key 1 and on key 2. -/
def twoBindings : derivedKey where
  Bindings := [{ PrimaryKey := 1, Modifiers := [], Down := [] },
    { PrimaryKey := 2, Modifiers := [], Down := [] }]

/-- A binding on key 1 that asks for key 2 to be pressed and key 3 not to be. -/
def chordBinding : binding where
  PrimaryKey := 1
  Modifiers := [2, 3]
  Down := [true, false]

/-! ## Vocabulary for the statements about rays -/

/-- The vertices of a list of cells. -/
def vertices (l : Level) (cells : List Point) : Finset Int :=
  (cells.map fun c => l.toVertex c.1 c.2).toFinset

/-- A cell is opaque when its terrain has no `LosMods` entry or a negative one. -/
def Opaque (att : Attributes) (l : Level) (c : Point) : Prop :=
  ∃ cell, l.cellAt c.1 c.2 = some cell ∧ ∀ k, att.LosMods cell.Terrain = some k → k < 0

/-- A cell is clear when its terrain has a `LosMods` entry that is not negative. -/
def Clear (att : Attributes) (l : Level) (c : Point) : Prop :=
  ∃ cell k, l.cellAt c.1 c.2 = some cell ∧ att.LosMods cell.Terrain = some k ∧ 0 ≤ k

/-- The concealment of the cell `c`: the value `concealment` that the map read
in `addVisibleAlongLine` yields there (0 for a missing entry). -/
def concealment (att : Attributes) (l : Level) (c : Point) : Int :=
  match l.cellAt c.1 c.2 with
  | none => 0
  | some cell => (att.LosMods cell.Terrain).getD 0

/-- The accumulated sum of `concealment + 1` over the first `n` cells of a line. -/
def spent (att : Attributes) (l : Level) (line : List Point) (n : Nat) : Int :=
  ((line.take n).map fun c => concealment att l c + 1).sum

/-! ## The cells that `figureVisibility` marks and reads -/

/-- The Chebyshev distance of two cells. -/
def chebyshev (p q : Point) : Int := max |p.1 - q.1| |p.2 - q.2|

/-- The method `Entity.addVisibleAlongLine(vision, line)` with a record of the
cells it works on: next to the visible set the state holds the list of the
cells `v` for which the loop body has run, each of which the body marks
(`e.visible[toVertex(v)] = true`) and then reads (`grid[v[0]][v[1]]`).  The
record is written when the cell is marked, before the read that may panic. -/
def addVisibleAlongLineTraced (att : Attributes) (l : Level) :
    Int → List Point → Finset Int × List Point → Option (Finset Int × List Point)
  | _, [], st => some st
  | vision, v :: line, st =>
    let st := (insert (l.toVertex v.1 v.2) st.1, st.2 ++ [v])
    match l.cellAt v.1 v.2 with
    | none => none
    | some cell =>
      match att.LosMods cell.Terrain with
      | none => some st
      | some concealment =>
        if concealment < 0 then some st
        else
          let vision := vision - (concealment + 1)
          if vision ≤ 0 then some st
          else addVisibleAlongLineTraced att l vision line st

/-- The statement `e.addVisibleAlongLine(vision, bresenham(ex, ey, tx, ty)[1:])`,
with the record of cells. -/
def castRayTraced (att : Attributes) (l : Level) (vision ex ey tx ty : Int)
    (st : Finset Int × List Point) : Option (Finset Int × List Point) :=
  match sliceFrom1 (bresenham ex ey tx ty) with
  | none => none
  | some line => addVisibleAlongLineTraced att l vision line st

/-- The method `Entity.figureVisibility` with the record of cells: it starts
with the origin, which `figureVisibility` marks itself. -/
def figureVisibilityTraced (att : Attributes) (l : Level) (ex ey : Int) :
    Option (Finset Int × List Point) :=
  let vision := att.LosDistance
  (visionBox l vision ex ey).bind fun box =>
    let x := box.1
    let y := box.2.1
    let x2 := box.2.2.1
    let y2 := box.2.2.2
    let st : Finset Int × List Point := ({l.toVertex ex ey}, [(ex, ey)])
    (forRange x x2 (fun cx st =>
      (castRayTraced att l vision ex ey cx y st).bind fun st =>
        castRayTraced att l vision ex ey cx y2 st) st).bind fun st =>
    forRange y y2 (fun cy st =>
      (castRayTraced att l vision ex ey x cy st).bind fun st =>
        castRayTraced att l vision ex ey x2 cy st) st

/-! ## The cells of a rasterized line, as a function of the loop state -/

/-- The cell appended for the loop state `(cx, cy)`: swapped when steep. -/
def orient (steep : Bool) (p : Point) : Point := if steep then (p.2, p.1) else p

/-- The cells that `bresenham` produces from the loop state `(cx, cy, err)`
when `n` iterations remain, in loop coordinates (major, minor), the closing
cell included. -/
def lineCells (dx dy xstep ystep : Int) : Nat → Int → Int → Int → List Point
  | 0, cx, cy, _ => [(cx, cy)]
  | n + 1, cx, cy, err =>
    (cx, cy) ::
      (if err - dy < 0 then lineCells dx dy xstep ystep n (cx + xstep) (cy + ystep) (err - dy + dx)
       else lineCells dx dy xstep ystep n (cx + xstep) cy (err - dy))

/-- A sprite that is always walking, with the taxicab length, which is the
Euclidean length on segments parallel to an axis. -/
def walkingDriver : Driver Unit where
  CurState := fun _ => "walk"
  CurAnim := fun _ => "walk"
  StateFacing := fun _ => 0
  Command := fun s _ => s
  Length := fun v => |v.1| + |v.2|
  Atan2Degrees := fun _ _ => 0

/-- The entity `sampleEntity` with the cells (3,2) and (3,3) still to walk. -/
def walkingEntity : Entity :=
  { sampleEntity with path := [(3, 2), (3, 3)] }

/-! ## The movement driver in exact arithmetic over an ordered field

The distance advanced is a matter of exact arithmetic with the Euclidean
length, which is not rational.  The methods that `advance` runs are therefore
given again with positions and distances in an arbitrary ordered field `K`
with a floor: the rationals, on which they can be evaluated, and the reals, on
which `mathgl.Vec2.Length` is the Euclidean length. -/

/-- The conversion `int(f)` of a float to an integer, in `K`: truncation
toward zero. -/
def goIntIn {K : Type} [LinearOrderedField K] [FloorRing K] (q : K) : Int :=
  if 0 ≤ q then ⌊q⌋ else ⌈q⌉

/-- The fields of `Entity` that the modelled code reads or writes, with
positions in `K`. -/
structure EntityIn (K : Type) where
  Base : UnitType
  Health : Int
  AP : Int
  pos : K × K
  prev_pos : K × K
  path : List Point
  visible : Finset Int

/-- The method `Entity.figureVisibility`, on an entity with positions in `K`. -/
def EntityIn.figureVisibility {K : Type} [LinearOrderedField K] [FloorRing K] (l : Level)
    (e : EntityIn K) : Option (EntityIn K) :=
  match figureVisibilityAt e.Base.attributes l (goIntIn e.pos.1) (goIntIn e.pos.2) with
  | none => none
  | some visible => some { e with visible := visible }

/-- The method `Entity.enterCell(x, y)`, on an entity with positions in `K`. -/
def EntityIn.enterCell {K : Type} [LinearOrderedField K] [FloorRing K]
    (costToMove : CostToMove) (l : Level) (e : EntityIn K) (x y : Int) : Option (EntityIn K) :=
  let src := l.toVertex (goIntIn e.prev_pos.1) (goIntIn e.prev_pos.2)
  let dst := l.toVertex x y
  let e := { e with AP := e.AP - goInt (costToMove l e.Base.attributes.MoveMods src dst) }
  let e := { e with prev_pos := ((x : K), (y : K)) }
  let e := if e.AP < 0 then { e with AP := 0 } else e
  e.figureVisibility l

/-- What `advance` and `turnToFace` call from outside `src/`, as in `Driver`,
with the vector length and the angle in `K`. -/
structure DriverIn (K : Type) (S : Type) where
  CurState : S → String
  CurAnim : S → String
  StateFacing : S → Int
  Command : S → String → S
  Length : K × K → K
  Atan2Degrees : K → K → K

/-- The board position of an integer waypoint, `Vec2{float32(x), float32(y)}`,
in `K`. -/
def waypointIn {K : Type} [LinearOrderedField K] (w : Point) : K × K := ((w.1 : K), (w.2 : K))

/-- The method `Entity.turnToFace(target)`, on the sprite, in `K`. -/
def EntityIn.turnToFace {K : Type} [LinearOrderedField K] {S : Type} (drv : DriverIn K S)
    (s : S) (e : EntityIn K) (target : K × K) : S :=
  let target := (target.1 - e.pos.1, target.2 - e.pos.2)
  let facing := drv.Atan2Degrees target.2 target.1
  let face : Int := if facing ≥ 45 / 2 ∨ facing < -(315 / 2) then 0 else 1
  if face ≠ drv.StateFacing s then drv.Command s "turn_left" else s

/-- The method `Entity.advance(dist)`, on the sprite and the entity, with
positions and distances in `K`.  The first argument bounds the number of calls
(this call and its recursive calls).  It returns the sprite and the entity and
nothing else. -/
def EntityIn.advance {K : Type} [LinearOrderedField K] [FloorRing K] {S : Type}
    (drv : DriverIn K S) (costToMove : CostToMove) (l : Level) :
    Nat → S → EntityIn K → K → Run (S × EntityIn K)
  | 0, _, _, _ => Run.outOfFuel
  | fuel + 1, s, e, dist =>
    match e.path with
    | [] =>
      let s := if drv.CurState s ≠ "ready" then drv.Command s "stop" else s
      Run.returned (s, e)
    | w :: _ =>
      let s := if drv.CurState s ≠ "walk" then drv.Command s "move" else s
      if drv.CurAnim s ≠ "walk" then Run.returned (s, e)
      else if dist ≤ 0 then Run.returned (s, e)
      else
        let b := e.pos
        let t : K × K := waypointIn w
        let t := (t.1 - b.1, t.2 - b.2)
        let moved := drv.Length t
        if moved ≤ 1 / 100000 then
          match e.enterCell costToMove l w.1 w.2 with
          | none => Run.panicked
          | some e =>
            let e := { e with path := e.path.drop 1 }
            EntityIn.advance drv costToMove l fuel s e (dist - moved)
        else
          let final_dist := if dist > moved then moved else dist
          let t := (t.1 / moved, t.2 / moved)
          let t := (t.1 * final_dist, t.2 * final_dist)
          let b := (b.1 + t.1, b.2 + t.2)
          let e := { e with pos := b }
          let s := if moved > dist then e.turnToFace drv s (waypointIn w) else s
          EntityIn.advance drv costToMove l fuel s e (dist - final_dist)

/-- The entity `e` with its rational positions read in the field of the
rationals. -/
def Entity.toIn (e : Entity) : EntityIn ℚ where
  Base := e.Base
  Health := e.Health
  AP := e.AP
  pos := e.pos
  prev_pos := e.prev_pos
  path := e.path
  visible := e.visible

/-- The collaborators `drv` as collaborators over the field of the rationals. -/
def Driver.toIn {S : Type} (drv : Driver S) : DriverIn ℚ S where
  CurState := drv.CurState
  CurAnim := drv.CurAnim
  StateFacing := drv.StateFacing
  Command := drv.Command
  Length := drv.Length
  Atan2Degrees := drv.Atan2Degrees

/-- The run of `Entity.advance` without the distance it reports, the entity
read over the field of the rationals. -/
def Run.state {S : Type} : Run ((S × Entity) × ℚ) → Run (S × EntityIn ℚ)
  | Run.outOfFuel => Run.outOfFuel
  | Run.panicked => Run.panicked
  | Run.returned ((s, e), _) => Run.returned (s, e.toIn)

/-- The distance from a position to a waypoint, as `advance` computes it
(`moved`). -/
def distToIn {K : Type} [LinearOrderedField K] (len : K × K → K) (pos : K × K) (w : Point) : K :=
  len ((waypointIn w : K × K).1 - pos.1, (waypointIn w : K × K).2 - pos.2)

/-- The position that `advance` assigns when it moves by `final_dist` toward a
waypoint at distance `moved`. -/
def moveTowardIn {K : Type} [LinearOrderedField K] (pos : K × K) (w : Point)
    (moved final_dist : K) : K × K :=
  (pos.1 + ((waypointIn w : K × K).1 - pos.1) / moved * final_dist,
   pos.2 + ((waypointIn w : K × K).2 - pos.2) / moved * final_dist)

/-- The sprite after the first two statements of `advance` on a non-empty
path: commanded to move unless it is walking. -/
def DriverIn.wake {K : Type} {S : Type} (drv : DriverIn K S) (s : S) : S :=
  if drv.CurState s ≠ "walk" then drv.Command s "move" else s

/-- The entity after `advance` has moved it toward the waypoint `w` with the
budget `dist`: by the smaller of the budget and the distance. -/
def EntityIn.stepToward {K : Type} [LinearOrderedField K] {S : Type} (drv : DriverIn K S)
    (e : EntityIn K) (w : Point) (dist : K) : EntityIn K :=
  let moved := distToIn drv.Length e.pos w
  { e with pos := moveTowardIn e.pos w moved (min dist moved) }

/-- What holds of the Euclidean length of the plane and is used of
`DriverIn.Length`: the triangle inequality, absolute homogeneity, and that a
vector is at least as long as each of its coordinates. -/
structure LengthLawsIn {K : Type} [LinearOrderedField K] (len : K × K → K) : Prop where
  triangle : ∀ u v : K × K, len (u.1 + v.1, u.2 + v.2) ≤ len u + len v
  scale : ∀ (c : K) (v : K × K), len (c * v.1, c * v.2) = |c| * len v
  coord : ∀ v : K × K, |v.1| ≤ len v ∧ |v.2| ≤ len v

/-- The length of the polyline from `pos` through the waypoints of a path. -/
def pathLengthIn {K : Type} [LinearOrderedField K] (len : K × K → K) : K × K → List Point → K
  | _, [] => 0
  | pos, w :: rest => distToIn len pos w + pathLengthIn len (waypointIn w) rest

/-- The sprite is in its walking state and in its walking animation. -/
def DriverIn.Walking {K : Type} {S : Type} (drv : DriverIn K S) (s : S) : Prop :=
  drv.CurState s = "walk" ∧ drv.CurAnim s = "walk"

/-- Moving along the straight segments to the successive waypoints, in the
words of the specification.  `MovesAlong len p path p' path' M k` says that from
the position `p` with the waypoints `path` ahead, the position `p'` with the
waypoints `path'` ahead is reached by moves, each from the current position
straight toward the first waypoint ahead by a length `d` that is at most the
distance to it, and by pops of a first waypoint that is within the snap
distance 1e-5; `M` is the sum of the lengths `d` of the moves and `k` the
number of waypoints popped. -/
inductive MovesAlong {K : Type} [LinearOrderedField K] (len : K × K → K) :
    K × K → List Point → K × K → List Point → K → Nat → Prop where
  | stay (p : K × K) (path : List Point) : MovesAlong len p path p path 0 0
  | move (p : K × K) (w : Point) (rest : List Point) (d : K) (p' : K × K)
      (path' : List Point) (M : K) (k : Nat) :
      0 ≤ d → d ≤ distToIn len p w → distToIn len p w ≠ 0 →
      MovesAlong len (moveTowardIn p w (distToIn len p w) d) (w :: rest) p' path' M k →
      MovesAlong len p (w :: rest) p' path' (d + M) k
  | pop (p : K × K) (w : Point) (rest : List Point) (p' : K × K) (path' : List Point)
      (M : K) (k : Nat) :
      distToIn len p w ≤ 1 / 100000 →
      MovesAlong len p rest p' path' M k →
      MovesAlong len p (w :: rest) p' path' M (k + 1)

/-- A sprite that is always walking, with the length `len`. -/
def walkingDriverIn {K : Type} [LinearOrderedField K] (len : K × K → K) : DriverIn K Unit where
  CurState := fun _ => "walk"
  CurAnim := fun _ => "walk"
  StateFacing := fun _ => 0
  Command := fun s _ => s
  Length := len
  Atan2Degrees := fun _ _ => 0

/-- The entity `sampleEntity` on the cell (2,2) with the diagonal step to the
cell (3,3) still to walk. -/
def diagonalEntity {K : Type} [LinearOrderedField K] : EntityIn K where
  Base := sampleEntity.Base
  Health := 10
  AP := 3
  pos := (2, 2)
  prev_pos := (2, 2)
  path := [(3, 3)]
  visible := ∅

/-! ## Lemmas on `bresenham` -/

theorem appendCell_eq (steep : Bool) (ret : List Point) (a b : Int) :
    appendCell steep ret a b = ret ++ [orient steep (a, b)] := by
  cases steep <;> simp [appendCell, orient]

theorem orient_injective (steep : Bool) : Function.Injective (orient steep) := by
  intro p q h
  cases steep
  · simpa [orient] using h
  · simp only [orient, if_true, Prod.mk.injEq] at h
    exact Prod.ext h.2 h.1

/-- The loop, run with exactly as many iterations as major steps remain,
leaves through `cx = x2`, and its result followed by the closing `append` is
the accumulator followed by `lineCells`. -/
theorem bresenhamLoop_eq (steep : Bool) (dx dy x2 xstep ystep : Int) (hstep : xstep ≠ 0) :
    ∀ (n : Nat) (cx cy err : Int) (ret : List Point), x2 = cx + n * xstep →
      ∃ cyf r, bresenhamLoop steep dx dy x2 xstep ystep n cx cy err ret = some (cyf, r) ∧
        appendCell steep r x2 cyf
          = ret ++ (lineCells dx dy xstep ystep n cx cy err).map (orient steep) := by
  intro n
  induction n with
  | zero =>
    intro cx cy err ret h
    have hx : cx = x2 := by simp at h; exact h.symm
    refine ⟨cy, ret, ?_, ?_⟩
    · unfold bresenhamLoop; simp [hx]
    · simp [appendCell_eq, lineCells, hx]
  | succ n ih =>
    intro cx cy err ret h
    have hne : cx ≠ x2 := by
      intro hc
      have h0 : ((n : Int) + 1) * xstep = 0 := by
        have := h; push_cast at this; rw [hc] at this; linarith
      rcases mul_eq_zero.mp h0 with h1 | h1
      · omega
      · exact hstep h1
    have hnext : x2 = (cx + xstep) + n * xstep := by
      rw [h]; push_cast; ring
    unfold bresenhamLoop
    simp only [hne, if_false]
    by_cases herr : err - dy < 0
    · obtain ⟨cyf, r, h1, h2⟩ :=
        ih (cx + xstep) (cy + ystep) (err - dy + dx) (appendCell steep ret cx cy) hnext
      refine ⟨cyf, r, ?_, ?_⟩
      · simp only [herr, if_true]; exact h1
      · rw [h2, appendCell_eq]; simp [lineCells, herr]
    · obtain ⟨cyf, r, h1, h2⟩ :=
        ih (cx + xstep) cy (err - dy) (appendCell steep ret cx cy) hnext
      refine ⟨cyf, r, ?_, ?_⟩
      · simp only [herr, if_false]; exact h1
      · rw [h2, appendCell_eq]; simp [lineCells, herr]

/-- The body of `bresenham` in terms of `lineCells`, when `dx` is the distance
between `x` and `x2`. -/
theorem bresenhamBody_eq (steep : Bool) (x y x2 y2 dx dy : Int)
    (hdx : dx = |x2 - x|) :
    bresenhamBody steep x y x2 y2 dx dy
      = (lineCells dx dy (if x2 < x then -1 else 1) (if y2 < y then -1 else 1)
          dx.toNat x y (dx >>> (1 : Nat))).map (orient steep) := by
  have hstep : (if x2 < x then (-1 : Int) else 1) ≠ 0 := by split <;> decide
  have hx2 : x2 = x + (dx.toNat : Int) * (if x2 < x then (-1 : Int) else 1) := by
    have h0 : 0 ≤ dx := hdx ▸ abs_nonneg _
    rw [Int.toNat_of_nonneg h0, hdx]
    split
    · rw [abs_of_neg (by omega)]; ring
    · rw [abs_of_nonneg (by omega)]; ring
  obtain ⟨cyf, r, h1, h2⟩ := bresenhamLoop_eq steep dx dy x2 _ (if y2 < y then -1 else 1)
    hstep dx.toNat x y (dx >>> (1 : Nat)) [] hx2
  unfold bresenhamBody
  simp only [h1, h2, List.nil_append]

theorem lineCells_length (dx dy xstep ystep : Int) :
    ∀ (n : Nat) (cx cy err : Int), (lineCells dx dy xstep ystep n cx cy err).length = n + 1 := by
  intro n
  induction n with
  | zero => intro cx cy err; simp [lineCells]
  | succ n ih =>
    intro cx cy err
    by_cases herr : err - dy < 0 <;> simp [lineCells, herr, ih]

theorem lineCells_head (dx dy xstep ystep : Int) (n : Nat) (cx cy err : Int) :
    (lineCells dx dy xstep ystep n cx cy err)[0]? = some (cx, cy) := by
  cases n <;> simp [lineCells]

/-- The cell at index `i` has major coordinate `cx + i * xstep`. -/
theorem lineCells_major (dx dy xstep ystep : Int) :
    ∀ (n : Nat) (cx cy err : Int) (i : Nat) (p : Point),
      (lineCells dx dy xstep ystep n cx cy err)[i]? = some p →
        p.1 = cx + i * xstep ∧ i ≤ n := by
  intro n
  induction n with
  | zero =>
    intro cx cy err i p h
    cases i with
    | zero => simp [lineCells] at h; subst h; simp
    | succ i => simp [lineCells] at h
  | succ n ih =>
    intro cx cy err i p h
    cases i with
    | zero => simp [lineCells] at h; subst h; simp
    | succ i =>
      by_cases herr : err - dy < 0
      · simp only [lineCells, herr, if_true, List.getElem?_cons_succ] at h
        obtain ⟨h1, h2⟩ := ih _ _ _ i p h
        refine ⟨?_, by omega⟩
        rw [h1]; push_cast; ring
      · simp only [lineCells, herr, if_false, List.getElem?_cons_succ] at h
        obtain ⟨h1, h2⟩ := ih _ _ _ i p h
        refine ⟨?_, by omega⟩
        rw [h1]; push_cast; ring

/-- Two consecutive cells differ by `0` or by `ystep` in the minor coordinate. -/
theorem lineCells_minor (dx dy xstep ystep : Int) :
    ∀ (n : Nat) (cx cy err : Int) (i : Nat) (p q : Point),
      (lineCells dx dy xstep ystep n cx cy err)[i]? = some p →
      (lineCells dx dy xstep ystep n cx cy err)[i + 1]? = some q →
        q.2 = p.2 ∨ q.2 = p.2 + ystep := by
  intro n
  induction n with
  | zero =>
    intro cx cy err i p q _ hq
    simp [lineCells] at hq
  | succ n ih =>
    intro cx cy err i p q hp hq
    by_cases herr : err - dy < 0
    · simp only [lineCells, herr, if_true, List.getElem?_cons_succ] at hp hq
      cases i with
      | zero =>
        simp only [List.getElem?_cons_zero, Option.some.injEq] at hp
        rw [lineCells_head] at hq
        simp only [Option.some.injEq] at hq
        subst hp; subst hq; right; rfl
      | succ i =>
        simp only [List.getElem?_cons_succ] at hp
        exact ih _ _ _ i p q hp hq
    · simp only [lineCells, herr, if_false, List.getElem?_cons_succ] at hp hq
      cases i with
      | zero =>
        simp only [List.getElem?_cons_zero, Option.some.injEq] at hp
        rw [lineCells_head] at hq
        simp only [Option.some.injEq] at hq
        subst hp; subst hq; left; rfl
      | succ i =>
        simp only [List.getElem?_cons_succ] at hp
        exact ih _ _ _ i p q hp hq

theorem lineCells_nodup (dx dy xstep ystep : Int) (hstep : xstep ≠ 0)
    (n : Nat) (cx cy err : Int) : (lineCells dx dy xstep ystep n cx cy err).Nodup := by
  rw [List.nodup_iff_getElem?_ne_getElem?]
  intro i j hij hj heq
  rw [lineCells_length] at hj
  have hi : i < (lineCells dx dy xstep ystep n cx cy err).length := by
    rw [lineCells_length]; omega
  have hj2 : j < (lineCells dx dy xstep ystep n cx cy err).length := by
    rw [lineCells_length]; omega
  have e1 := List.getElem?_eq_getElem hi
  have e2 := List.getElem?_eq_getElem hj2
  obtain ⟨a1, _⟩ := lineCells_major dx dy xstep ystep n cx cy err i _ e1
  obtain ⟨a2, _⟩ := lineCells_major dx dy xstep ystep n cx cy err j _ e2
  rw [e1, e2, Option.some.injEq] at heq
  rw [heq, a2] at a1
  have h0 : ((j : Int) - i) * xstep = 0 := by linarith
  rcases mul_eq_zero.mp h0 with h1 | h1
  · omega
  · exact hstep h1

/-- The function `bresenham` in terms of `lineCells`. -/
theorem bresenham_eq (x y x2 y2 : Int) :
    bresenham x y x2 y2 =
      if |y2 - y| > |x2 - x| then
        (lineCells |y2 - y| |x2 - x| (if y2 < y then -1 else 1) (if x2 < x then -1 else 1)
          |y2 - y|.toNat y x (|y2 - y| >>> (1 : Nat))).map (orient true)
      else
        (lineCells |x2 - x| |y2 - y| (if x2 < x then -1 else 1) (if y2 < y then -1 else 1)
          |x2 - x|.toNat x y (|x2 - x| >>> (1 : Nat))).map (orient false) := by
  have hx : (if x2 - x < 0 then -(x2 - x) else x2 - x) = |x2 - x| := by
    split
    · rw [abs_of_neg (by omega)]
    · rw [abs_of_nonneg (by omega)]
  have hy : (if y2 - y < 0 then -(y2 - y) else y2 - y) = |y2 - y| := by
    split
    · rw [abs_of_neg (by omega)]
    · rw [abs_of_nonneg (by omega)]
  unfold bresenham
  simp only [hx, hy]
  by_cases hs : |y2 - y| > |x2 - x|
  · simp only [hs, decide_True, if_true]
    exact bresenhamBody_eq true y x y2 x2 _ _ rfl
  · simp only [hs, decide_False, if_false]
    simpa using bresenhamBody_eq false x y x2 y2 _ _ rfl

/-- The number of cells of `bresenham(x, y, x2, y2)`. -/
theorem bresenham_length (x y x2 y2 : Int) :
    (bresenham x y x2 y2).length = (max |x2 - x| |y2 - y|).toNat + 1 := by
  rw [bresenham_eq]
  by_cases hs : |y2 - y| > |x2 - x|
  · simp only [hs, if_true]
    rw [List.length_map, lineCells_length, max_eq_right (by omega)]
  · simp only [hs, if_false]
    rw [List.length_map, lineCells_length, max_eq_left (by omega)]

/-- Consecutive cells of a line in loop coordinates: one step toward the
target on the major axis, at most one on the minor axis. -/
theorem lineCells_consecutive (a b a2 b2 dy err : Int) (i : Nat) (p q : Point)
    (hp : (lineCells |a2 - a| dy (if a2 < a then -1 else 1) (if b2 < b then -1 else 1)
      |a2 - a|.toNat a b err)[i]? = some p)
    (hq : (lineCells |a2 - a| dy (if a2 < a then -1 else 1) (if b2 < b then -1 else 1)
      |a2 - a|.toNat a b err)[i + 1]? = some q) :
    q.1 = p.1 + Int.sign (a2 - a) ∧ (q.1 - p.1).natAbs = 1 ∧ (q.2 - p.2).natAbs ≤ 1 := by
  obtain ⟨hp1, _⟩ := lineCells_major _ _ _ _ _ _ _ _ i p hp
  obtain ⟨hq1, hn⟩ := lineCells_major _ _ _ _ _ _ _ _ (i + 1) q hq
  have hmin := lineCells_minor _ _ _ _ _ _ _ _ i p q hp hq
  have hne : a2 ≠ a := by
    intro h
    rw [h] at hn
    simp at hn
  have hdiff : q.1 - p.1 = (if a2 < a then (-1 : Int) else 1) := by
    rw [hp1, hq1]; push_cast; ring
  have hsign : (if a2 < a then (-1 : Int) else 1) = Int.sign (a2 - a) := by
    split
    · rw [Int.sign_eq_neg_one_of_neg (by omega)]
    · rw [Int.sign_eq_one_of_pos (by omega)]
  refine ⟨by rw [← hsign]; omega, ?_, ?_⟩
  · rw [hdiff]; split <;> decide
  · rcases hmin with h | h
    · rw [h]; simp
    · rw [h]; split <;> simp

/-- C1: `bresenham(x, y, x2, y2)` returns exactly `max(|x2-x|, |y2-y|) + 1`
cells without repetition, and two consecutive cells differ by exactly one step
toward the target in the major-axis coordinate (x when `|y2-y| <= |x2-x|`,
otherwise y) and by at most one in the minor-axis coordinate. -/
theorem bresenham_one_cell_per_major_step (x y x2 y2 : Int) :
    (bresenham x y x2 y2).length = (max |x2 - x| |y2 - y|).toNat + 1 ∧
    (bresenham x y x2 y2).Nodup ∧
    ∀ (i : Nat) (p q : Point),
      (bresenham x y x2 y2)[i]? = some p → (bresenham x y x2 y2)[i + 1]? = some q →
        if |y2 - y| ≤ |x2 - x| then
          q.1 = p.1 + Int.sign (x2 - x) ∧ (q.1 - p.1).natAbs = 1 ∧ (q.2 - p.2).natAbs ≤ 1
        else
          q.2 = p.2 + Int.sign (y2 - y) ∧ (q.2 - p.2).natAbs = 1 ∧ (q.1 - p.1).natAbs ≤ 1 := by
  have hxs : (if x2 < x then (-1 : Int) else 1) ≠ 0 := by split <;> decide
  have hys : (if y2 < y then (-1 : Int) else 1) ≠ 0 := by split <;> decide
  rw [bresenham_eq]
  by_cases hs : |y2 - y| > |x2 - x|
  · have hle : ¬ |y2 - y| ≤ |x2 - x| := by omega
    simp only [hs, if_true, hle, if_false]
    refine ⟨?_, ?_, ?_⟩
    · rw [List.length_map, lineCells_length, max_eq_right (by omega)]
    · exact (lineCells_nodup _ _ _ _ hys _ _ _ _).map (orient_injective true)
    · intro i p q hp hq
      rw [List.getElem?_map] at hp hq
      obtain ⟨p', hp', rfl⟩ := Option.map_eq_some'.mp hp
      obtain ⟨q', hq', rfl⟩ := Option.map_eq_some'.mp hq
      simpa [orient] using lineCells_consecutive y x y2 x2 _ _ i p' q' hp' hq'
  · have hle : |y2 - y| ≤ |x2 - x| := by omega
    simp only [hs, if_false, hle, if_true]
    refine ⟨?_, ?_, ?_⟩
    · rw [List.length_map, lineCells_length, max_eq_left hle]
    · exact (lineCells_nodup _ _ _ _ hxs _ _ _ _).map (orient_injective false)
    · intro i p q hp hq
      rw [List.getElem?_map] at hp hq
      obtain ⟨p', hp', rfl⟩ := Option.map_eq_some'.mp hp
      obtain ⟨q', hq', rfl⟩ := Option.map_eq_some'.mp hq
      simpa [orient] using lineCells_consecutive x y x2 y2 _ _ i p' q' hp' hq'

theorem lineCells_getLast_cons (dx dy xstep ystep : Int) (n : Nat) (cx cy err : Int)
    (p : Point) :
    (p :: lineCells dx dy xstep ystep n cx cy err).getLast?
      = (lineCells dx dy xstep ystep n cx cy err).getLast? := by
  cases n <;> simp [lineCells, List.getLast?_cons_cons]

/-- The error term decides the minor steps: if `m` minor steps remain for the
`n` remaining major steps (the quantity `err - n * dy + m * dx` lies in
`[0, dx)`), then `m` is not negative, every cell is reached by at most `n`
major and at most `m` minor steps, and the closing cell by exactly `n` and `m`. -/
theorem lineCells_bounds (dx dy xstep ystep : Int) (hdy : 0 ≤ dy) (hle : dy ≤ dx) :
    ∀ (n : Nat) (cx cy err m : Int), 0 ≤ err → err < dx →
      0 ≤ err - n * dy + m * dx → err - n * dy + m * dx < dx →
        0 ≤ m ∧
        (∀ p ∈ lineCells dx dy xstep ystep n cx cy err,
          ∃ (i : Nat) (j : Int), i ≤ n ∧ 0 ≤ j ∧ j ≤ m ∧ p = (cx + i * xstep, cy + j * ystep)) ∧
        (lineCells dx dy xstep ystep n cx cy err).getLast? = some (cx + n * xstep, cy + m * ystep) := by
  intro n
  induction n with
  | zero =>
    intro cx cy err m h0 h1 h2 h3
    simp only [Nat.cast_zero, zero_mul, sub_zero] at h2 h3
    have hm : m = 0 := by
      rcases lt_trichotomy m 0 with h | h | h
      · have : m * dx ≤ -1 * dx := mul_le_mul_of_nonneg_right (by omega) (by omega)
        omega
      · exact h
      · have : 1 * dx ≤ m * dx := mul_le_mul_of_nonneg_right (by omega) (by omega)
        omega
    subst hm
    refine ⟨le_refl _, ?_, ?_⟩
    · intro p hp
      simp only [lineCells, List.mem_singleton] at hp
      exact ⟨0, 0, le_refl _, le_refl _, le_refl _, by simp [hp]⟩
    · simp [lineCells]
  | succ n ih =>
    intro cx cy err m h0 h1 h2 h3
    have hcast : ((n + 1 : Nat) : Int) * dy = n * dy + dy := by push_cast; ring
    rw [hcast] at h2 h3
    by_cases herr : err - dy < 0
    · have hq : err - dy + dx - n * dy + (m - 1) * dx = err - (n * dy + dy) + m * dx := by ring
      obtain ⟨hm, hcells, hlast⟩ := ih (cx + xstep) (cy + ystep) (err - dy + dx) (m - 1)
        (by omega) (by omega) (by rw [hq]; exact h2) (by rw [hq]; exact h3)
      refine ⟨by omega, ?_, ?_⟩
      · intro p hp
        simp only [lineCells, herr, if_true, List.mem_cons] at hp
        rcases hp with hp | hp
        · exact ⟨0, 0, by omega, le_refl _, by omega, by simp [hp]⟩
        · obtain ⟨i, j, hi, hj0, hj, rfl⟩ := hcells p hp
          refine ⟨i + 1, j + 1, by omega, by omega, by omega, ?_⟩
          push_cast
          exact Prod.ext (by simp; ring) (by simp; ring)
      · simp only [lineCells, herr, if_true]
        rw [lineCells_getLast_cons, hlast]
        push_cast
        exact congrArg some (Prod.ext (by simp; ring) (by simp; ring))
    · have hq : err - dy - n * dy + m * dx = err - (n * dy + dy) + m * dx := by ring
      obtain ⟨hm, hcells, hlast⟩ := ih (cx + xstep) cy (err - dy) m
        (by omega) (by omega) (by rw [hq]; exact h2) (by rw [hq]; exact h3)
      refine ⟨hm, ?_, ?_⟩
      · intro p hp
        simp only [lineCells, herr, if_false, List.mem_cons] at hp
        rcases hp with hp | hp
        · exact ⟨0, 0, by omega, le_refl _, hm, by simp [hp]⟩
        · obtain ⟨i, j, hi, hj0, hj, rfl⟩ := hcells p hp
          refine ⟨i + 1, j, by omega, hj0, hj, ?_⟩
          push_cast
          exact Prod.ext (by simp; ring) rfl
      · simp only [lineCells, herr, if_false]
        rw [lineCells_getLast_cons, hlast]
        push_cast
        exact congrArg some (Prod.ext (by simp; ring) rfl)

/-- In loop coordinates, every cell of a line lies in the rectangle spanned by
its two end points. -/
theorem lineCells_mem_rect (a b a2 b2 : Int) (hle : |b2 - b| ≤ |a2 - a|) (p : Point)
    (hp : p ∈ lineCells |a2 - a| |b2 - b| (if a2 < a then -1 else 1) (if b2 < b then -1 else 1)
      |a2 - a|.toNat a b (|a2 - a| >>> (1 : Nat))) :
    min a a2 ≤ p.1 ∧ p.1 ≤ max a a2 ∧ min b b2 ≤ p.2 ∧ p.2 ≤ max b b2 := by
  have hdx : (a2 < a → |a2 - a| = a - a2) ∧ (¬ a2 < a → |a2 - a| = a2 - a) :=
    ⟨fun h => by rw [abs_of_neg (by omega)]; ring, fun h => abs_of_nonneg (by omega)⟩
  have hdy : (b2 < b → |b2 - b| = b - b2) ∧ (¬ b2 < b → |b2 - b| = b2 - b) :=
    ⟨fun h => by rw [abs_of_neg (by omega)]; ring, fun h => abs_of_nonneg (by omega)⟩
  have hdy0 : 0 ≤ |b2 - b| := abs_nonneg _
  have hdx0 : 0 ≤ |a2 - a| := abs_nonneg _
  revert hp hle hdx hdy hdy0 hdx0
  generalize |a2 - a| = dx
  generalize |b2 - b| = dy
  intro hle hp hdx hdy hdy0 hdx0
  rcases eq_or_lt_of_le hdx0 with h0 | hpos
  · subst h0
    have hdy' : dy = 0 := by omega
    simp only [Int.toNat_zero, lineCells, List.mem_singleton] at hp
    subst hp
    simp only [min_le_iff, le_max_iff]
    by_cases ha : a2 < a <;> by_cases hb : b2 < b <;>
      have := hdx.1 <;> have := hdx.2 <;> have := hdy.1 <;> have := hdy.2 <;> omega
  · have herr : dx >>> (1 : Nat) = dx / 2 := by
      rw [Int.shiftRight_eq_div_pow]; norm_num
    have hn : ((dx.toNat : Nat) : Int) = dx := Int.toNat_of_nonneg hdx0
    have hq : dx >>> (1 : Nat) - (dx.toNat : Int) * dy + dy * dx = dx >>> (1 : Nat) := by rw [hn]; ring
    obtain ⟨_, hcells, _⟩ := lineCells_bounds dx dy (if a2 < a then -1 else 1)
      (if b2 < b then -1 else 1) hdy0 hle dx.toNat a b (dx >>> (1 : Nat)) dy
      (by rw [herr]; omega) (by rw [herr]; omega) (by rw [hq, herr]; omega)
      (by rw [hq, herr]; omega)
    obtain ⟨i, j, hi, hj0, hj, rfl⟩ := hcells p hp
    have hi' : (i : Int) ≤ dx := by omega
    simp only [min_le_iff, le_max_iff]
    by_cases ha : a2 < a <;> by_cases hb : b2 < b <;>
      simp only [ha, hb, if_true, if_false] <;>
      have := hdx.1 <;> have := hdx.2 <;> have := hdy.1 <;> have := hdy.2 <;> omega

/-- Every cell of `bresenham(x, y, x2, y2)` lies in the axis-aligned rectangle
spanned by `(x, y)` and `(x2, y2)`. -/
theorem bresenham_mem_rect (x y x2 y2 : Int) (p : Point) (hp : p ∈ bresenham x y x2 y2) :
    min x x2 ≤ p.1 ∧ p.1 ≤ max x x2 ∧ min y y2 ≤ p.2 ∧ p.2 ≤ max y y2 := by
  rw [bresenham_eq] at hp
  by_cases hs : |y2 - y| > |x2 - x|
  · simp only [hs, if_true, List.mem_map] at hp
    obtain ⟨q, hq, rfl⟩ := hp
    have := lineCells_mem_rect y x y2 x2 (by omega) q hq
    simp only [orient, if_true]
    tauto
  · simp only [hs, if_false, List.mem_map] at hp
    obtain ⟨q, hq, rfl⟩ := hp
    have := lineCells_mem_rect x y x2 y2 (by omega) q hq
    simpa [orient] using this

/-- The line `bresenham(x, y, x2, y2)` is never empty: the slice `[1:]` taken
of it in `figureVisibility` cannot panic. -/
theorem bresenham_sliceFrom1 (x y x2 y2 : Int) :
    ∃ line, sliceFrom1 (bresenham x y x2 y2) = some line ∧
      ∀ p ∈ line, p ∈ bresenham x y x2 y2 := by
  have hlen := bresenham_length x y x2 y2
  cases hb : bresenham x y x2 y2 with
  | nil => rw [hb] at hlen; simp at hlen
  | cons c rest => exact ⟨rest, rfl, fun p hp => List.mem_cons_of_mem _ hp⟩

/-! ## Lemmas on `addVisibleAlongLine` -/

theorem vertices_nil (l : Level) : vertices l [] = ∅ := by simp [vertices]

theorem vertices_cons (l : Level) (c : Point) (cells : List Point) :
    vertices l (c :: cells) = insert (l.toVertex c.1 c.2) (vertices l cells) := by
  simp [vertices]

theorem mem_vertices (l : Level) (cells : List Point) (v : Int) :
    v ∈ vertices l cells ↔ ∃ c ∈ cells, l.toVertex c.1 c.2 = v := by
  simp [vertices]

/-- A call only adds vertices of cells of its line, and removes nothing. -/
theorem addVisibleAlongLine_between (att : Attributes) (l : Level) :
    ∀ (line : List Point) (vision : Int) (visible r : Finset Int),
      addVisibleAlongLine att l vision line visible = some r →
        visible ⊆ r ∧ r ⊆ visible ∪ vertices l line := by
  intro line
  induction line with
  | nil =>
    intro vision visible r h
    simp only [addVisibleAlongLine, Option.some.injEq] at h
    subst h
    simp
  | cons c rest ih =>
    intro vision visible r h
    have hins : insert (l.toVertex c.1 c.2) visible ⊆ visible ∪ vertices l (c :: rest) := by
      rw [vertices_cons]
      intro v hv
      simp only [Finset.mem_insert, Finset.mem_union] at hv ⊢
      tauto
    cases hcell : l.cellAt c.1 c.2 with
    | none => simp [addVisibleAlongLine, hcell] at h
    | some cell =>
      cases hlos : att.LosMods cell.Terrain with
      | none =>
        simp only [addVisibleAlongLine, hcell, hlos, Option.some.injEq] at h
        subst h
        exact ⟨Finset.subset_insert _ _, hins⟩
      | some k =>
        simp only [addVisibleAlongLine, hcell, hlos] at h
        split at h
        · simp only [Option.some.injEq] at h
          subst h
          exact ⟨Finset.subset_insert _ _, hins⟩
        · split at h
          · simp only [Option.some.injEq] at h
            subst h
            exact ⟨Finset.subset_insert _ _, hins⟩
          · obtain ⟨h1, h2⟩ := ih _ _ _ h
            refine ⟨(Finset.subset_insert _ _).trans h1, h2.trans ?_⟩
            rw [vertices_cons]
            intro v hv
            simp only [Finset.mem_insert, Finset.mem_union] at hv ⊢
            tauto

/-- A call on a line whose cells all lie in the grid does not panic. -/
theorem addVisibleAlongLine_isSome (att : Attributes) (l : Level) :
    ∀ (line : List Point) (vision : Int) (visible : Finset Int),
      (∀ c ∈ line, ∃ cell, l.cellAt c.1 c.2 = some cell) →
        ∃ r, addVisibleAlongLine att l vision line visible = some r := by
  intro line
  induction line with
  | nil => intro vision visible _; exact ⟨visible, rfl⟩
  | cons c rest ih =>
    intro vision visible hin
    obtain ⟨cell, hcell⟩ := hin c (List.mem_cons_self _ _)
    cases hlos : att.LosMods cell.Terrain with
    | none => simp only [addVisibleAlongLine, hcell, hlos]; exact ⟨_, rfl⟩
    | some k =>
      simp only [addVisibleAlongLine, hcell, hlos]
      split
      · exact ⟨_, rfl⟩
      · split
        · exact ⟨_, rfl⟩
        · exact ih _ _ fun d hd => hin d (List.mem_cons_of_mem _ hd)

/-- The loop of `addVisibleAlongLine` does not go past an opaque cell. -/
theorem addVisibleAlongLine_take (att : Attributes) (l : Level) :
    ∀ (line : List Point) (i : Nat) (c : Point) (vision : Int) (visible : Finset Int),
      (line)[i]? = some c → Opaque att l c →
        addVisibleAlongLine att l vision line visible
          = addVisibleAlongLine att l vision (line.take (i + 1)) visible := by
  intro line
  induction line with
  | nil => intro i c vision visible h; simp at h
  | cons d rest ih =>
    intro i c vision visible h hop
    cases i with
    | zero =>
      simp only [List.getElem?_cons_zero, Option.some.injEq] at h
      subst h
      obtain ⟨cell, hcell, hneg⟩ := hop
      cases hlos : att.LosMods cell.Terrain with
      | none => simp [addVisibleAlongLine, hcell, hlos]
      | some k =>
        have hk := hneg k hlos
        simp [addVisibleAlongLine, hcell, hlos, hk]
    | succ i =>
      simp only [List.getElem?_cons_succ] at h
      simp only [List.take_succ_cons]
      cases hcell : l.cellAt d.1 d.2 with
      | none => simp [addVisibleAlongLine, hcell]
      | some cell =>
        cases hlos : att.LosMods cell.Terrain with
        | none => simp [addVisibleAlongLine, hcell, hlos]
        | some k =>
          simp only [addVisibleAlongLine, hcell, hlos]
          split
          · rfl
          · split
            · rfl
            · exact ih i c _ _ h hop

/-- C2: if the cell at index `i` of the line is opaque, the call behaves as on
the line cut after index `i`; whatever it adds to the visible set is the vertex
of a cell at an index `<= i`, so no cell beyond the opaque one is added. -/
theorem addVisibleAlongLine_stops_at_opaque (att : Attributes) (l : Level)
    (line : List Point) (i : Nat) (c : Point) (vision : Int) (visible : Finset Int)
    (hc : (line)[i]? = some c) (hop : Opaque att l c) :
    addVisibleAlongLine att l vision line visible
      = addVisibleAlongLine att l vision (line.take (i + 1)) visible ∧
    ∀ r, addVisibleAlongLine att l vision line visible = some r →
      r ⊆ visible ∪ vertices l (line.take (i + 1)) := by
  have h := addVisibleAlongLine_take att l line i c vision visible hc hop
  refine ⟨h, fun r hr => ?_⟩
  rw [h] at hr
  exact (addVisibleAlongLine_between att l _ _ _ _ hr).2

theorem spent_cons (att : Attributes) (l : Level) (c : Point) (rest : List Point) (n : Nat) :
    spent att l (c :: rest) (n + 1) = concealment att l c + 1 + spent att l rest n := by
  simp [spent]

theorem spent_zero (att : Attributes) (l : Level) (line : List Point) :
    spent att l line 0 = 0 := by
  simp [spent]

/-- On a line of clear cells the loop marks the cells up to and including the
first index at which the accumulated cost reaches the budget. -/
theorem addVisibleAlongLine_clear (att : Attributes) (l : Level) :
    ∀ (line : List Point) (vision : Int) (visible : Finset Int) (k : Nat),
      (∀ c ∈ line, Clear att l c) → k < line.length →
      (∀ j, j < k → spent att l line (j + 1) < vision) →
      (vision ≤ spent att l line (k + 1) ∨ k + 1 = line.length) →
        addVisibleAlongLine att l vision line visible
          = some (visible ∪ vertices l (line.take (k + 1))) := by
  intro line
  induction line with
  | nil => intro vision visible k _ hk; simp at hk
  | cons c rest ih =>
    intro vision visible k hclear hk hbelow hstop
    obtain ⟨cell, conc, hcell, hlos, hconc⟩ := hclear c (List.mem_cons_self _ _)
    have hcv : concealment att l c = conc := by simp [concealment, hcell, hlos]
    have hnot : ¬ conc < 0 := by omega
    simp only [addVisibleAlongLine, hcell, hlos, hnot, if_false]
    cases k with
    | zero =>
      have hgoal : insert (l.toVertex c.1 c.2) visible
          = visible ∪ vertices l ((c :: rest).take (0 + 1)) := by
        simp only [zero_add, List.take_succ_cons, List.take_zero, vertices_cons, vertices_nil]
        ext v
        simp only [Finset.mem_insert, Finset.mem_union, Finset.not_mem_empty, or_false]
        tauto
      rcases hstop with hstop | hstop
      · rw [spent_cons, spent_zero, hcv] at hstop
        have : vision - (conc + 1) ≤ 0 := by omega
        simp only [this, if_true, hgoal]
      · have hrest : rest = [] := by
          simp only [zero_add, List.length_cons] at hstop
          exact List.eq_nil_of_length_eq_zero (by omega)
        subst hrest
        split
        · rw [hgoal]
        · simp only [addVisibleAlongLine, hgoal]
    | succ k =>
      have h0 := hbelow 0 (by omega)
      rw [spent_cons, spent_zero, hcv] at h0
      have hgo : ¬ vision - (conc + 1) ≤ 0 := by omega
      simp only [hgo, if_false]
      rw [ih (vision - (conc + 1)) _ k
        (fun d hd => hclear d (List.mem_cons_of_mem _ hd))
        (by simpa using hk)
        (fun j hj => by
          have := hbelow (j + 1) (by omega)
          rw [spent_cons, hcv] at this
          omega)
        (by
          rcases hstop with hstop | hstop
          · left
            rw [spent_cons, hcv] at hstop
            omega
          · right
            simpa using hstop)]
      congr 1
      simp only [List.take_succ_cons, vertices_cons]
      ext v
      simp only [Finset.mem_insert, Finset.mem_union]
      tauto

/-- C3: on a non-empty line of clear cells, for every budget,
`addVisibleAlongLine` adds exactly the vertices of the cells `line[0..k]`,
where `k` is the least index at which the accumulated sum of `concealment + 1`
reaches the budget, or the last index when it never does; the first cell is
marked whatever the budget, and what was visible stays visible. -/
theorem addVisibleAlongLine_marks_prefix (att : Attributes) (l : Level)
    (line : List Point) (vision : Int) (visible : Finset Int) (k : Nat)
    (hclear : ∀ c ∈ line, Clear att l c) (hk : k < line.length)
    (hbelow : ∀ j, j < k → spent att l line (j + 1) < vision)
    (hstop : vision ≤ spent att l line (k + 1) ∨ k + 1 = line.length) :
    ∃ r, addVisibleAlongLine att l vision line visible = some r ∧
      r = visible ∪ vertices l (line.take (k + 1)) ∧
      visible ⊆ r ∧
      ∀ c, line.head? = some c → l.toVertex c.1 c.2 ∈ r := by
  refine ⟨_, addVisibleAlongLine_clear att l line vision visible k hclear hk hbelow hstop,
    rfl, Finset.subset_union_left, ?_⟩
  intro c hc
  cases line with
  | nil => simp at hc
  | cons d rest =>
    simp only [List.head?_cons, Option.some.injEq] at hc
    subst hc
    simp [List.take_succ_cons, vertices_cons]

/-! ## Lemmas on `figureVisibility` -/

/-- Two folds in `Option` that keep a relation between their states both
return, in related states. -/
theorem foldlM_rel {σ ι : Type} (R : σ → σ → Prop) (f g : σ → ι → Option σ) :
    ∀ (xs : List ι),
      (∀ i ∈ xs, ∀ a b, R a b → ∃ a' b', f a i = some a' ∧ g b i = some b' ∧ R a' b') →
      ∀ a b, R a b → ∃ a' b', xs.foldlM f a = some a' ∧ xs.foldlM g b = some b' ∧ R a' b' := by
  intro xs
  induction xs with
  | nil => intro _ a b hab; exact ⟨a, b, rfl, rfl, hab⟩
  | cons i rest ih =>
    intro hstep a b hab
    obtain ⟨a1, b1, ha1, hb1, hab1⟩ := hstep i (List.mem_cons_self _ _) a b hab
    obtain ⟨a2, b2, ha2, hb2, hab2⟩ :=
      ih (fun j hj => hstep j (List.mem_cons_of_mem _ hj)) a1 b1 hab1
    refine ⟨a2, b2, ?_, ?_, hab2⟩
    · simp only [List.foldlM_cons, ha1]; exact ha2
    · simp only [List.foldlM_cons, hb1]; exact hb2

/-- Two counted loops over the same range whose bodies keep a relation between
their states both return, in related states. -/
theorem forRange_rel {σ : Type} (R : σ → σ → Prop) (lo hi : Int)
    (f g : Int → σ → Option σ)
    (hstep : ∀ c, lo ≤ c → c ≤ hi → ∀ a b, R a b →
      ∃ a' b', f c a = some a' ∧ g c b = some b' ∧ R a' b')
    (a b : σ) (hab : R a b) :
    ∃ a' b', forRange lo hi f a = some a' ∧ forRange lo hi g b = some b' ∧ R a' b' := by
  unfold forRange
  refine foldlM_rel R _ _ _ ?_ a b hab
  intro i hi' a b hab
  rw [List.mem_range] at hi'
  exact hstep (lo + i) (by omega) (by omega) a b hab

/-- In a rectangular grid every coordinate pair inside it is a cell. -/
theorem cellAt_of_inside (l : Level) (w h : Nat) (hrect : l.Rect w h) (a b : Int)
    (ha : 0 ≤ a ∧ a < w) (hb : 0 ≤ b ∧ b < h) : ∃ cell, l.cellAt a b = some cell := by
  obtain ⟨hw, hcols⟩ := hrect
  have hlt : a.toNat < l.grid.length := by omega
  have hcol : l.grid.get? a.toNat = some (l.grid[a.toNat]) := by
    rw [List.get?_eq_getElem?]; exact List.getElem?_eq_getElem hlt
  have hlen : (l.grid[a.toNat]).length = h := hcols _ (List.getElem_mem _)
  have hlt2 : b.toNat < (l.grid[a.toNat]).length := by omega
  refine ⟨(l.grid[a.toNat])[b.toNat], ?_⟩
  have hneg : ¬ (a < 0 ∨ b < 0) := by omega
  simp only [Level.cellAt, hneg, if_false, hcol]
  rw [List.get?_eq_getElem?]; exact List.getElem?_eq_getElem hlt2

/-- The bounding box of `figureVisibility` on a rectangular, non-empty grid. -/
theorem visionBox_of_rect (l : Level) (w h : Nat) (hrect : l.Rect w h) (hw : 0 < w)
    (vision ex ey : Int) :
    visionBox l vision ex ey = some
      (if ex - vision < 0 then 0 else ex - vision,
       if ey - vision < 0 then 0 else ey - vision,
       if ex + vision ≥ (w : Int) then (w : Int) - 1 else ex + vision,
       if ey + vision ≥ (h : Int) then (h : Int) - 1 else ey + vision) := by
  obtain ⟨hlen, hcols⟩ := hrect
  cases hg : l.grid with
  | nil => rw [hg] at hlen; simp at hlen; omega
  | cons col rest =>
    have hcol : col.length = h := hcols col (by rw [hg]; exact List.mem_cons_self _ _)
    have hlen' : (col :: rest).length = w := by rw [← hg]; exact hlen
    simp only [visionBox, hg, List.get?_cons_zero, hcol, hlen']

/-- Raising the budget of one ray, on a larger visible set, gives a larger
visible set. -/
theorem addVisibleAlongLine_mono (att att' : Attributes) (l : Level)
    (hlos : att.LosMods = att'.LosMods) :
    ∀ (line : List Point) (v v' : Int) (vis vis' r r' : Finset Int),
      v ≤ v' → vis ⊆ vis' →
      addVisibleAlongLine att l v line vis = some r →
      addVisibleAlongLine att' l v' line vis' = some r' → r ⊆ r' := by
  intro line
  induction line with
  | nil =>
    intro v v' vis vis' r r' _ hsub h h'
    simp only [addVisibleAlongLine, Option.some.injEq] at h h'
    subst h; subst h'; exact hsub
  | cons c rest ih =>
    intro v v' vis vis' r r' hv hsub h h'
    have hins : insert (l.toVertex c.1 c.2) vis ⊆ insert (l.toVertex c.1 c.2) vis' :=
      Finset.insert_subset_insert _ hsub
    cases hcell : l.cellAt c.1 c.2 with
    | none => simp [addVisibleAlongLine, hcell] at h
    | some cell =>
      cases hk : att.LosMods cell.Terrain with
      | none =>
        have hk' : att'.LosMods cell.Terrain = none := by rw [← hlos]; exact hk
        simp only [addVisibleAlongLine, hcell, hk, hk', Option.some.injEq] at h h'
        subst h; subst h'; exact hins
      | some k =>
        have hk' : att'.LosMods cell.Terrain = some k := by rw [← hlos]; exact hk
        simp only [addVisibleAlongLine, hcell, hk, hk'] at h h'
        by_cases hneg : k < 0
        · simp only [hneg, if_true, Option.some.injEq] at h h'
          subst h; subst h'; exact hins
        · simp only [hneg, if_false] at h h'
          by_cases hstop : v - (k + 1) ≤ 0
          · simp only [hstop, if_true, Option.some.injEq] at h
            subst h
            split at h'
            · simp only [Option.some.injEq] at h'
              subst h'; exact hins
            · exact hins.trans (addVisibleAlongLine_between att' l _ _ _ _ h').1
          · have hgo : ¬ v' - (k + 1) ≤ 0 := by omega
            simp only [hstop, hgo, if_false] at h h'
            exact ih _ _ _ _ _ _ (by omega) hins h h'

/-- One ray toward a target inside the grid, from an origin inside the grid:
the call does not panic, keeps what was visible, and is monotone in the budget
and in the visible set it starts from. -/
theorem castRay_rel (att att' : Attributes) (l : Level) (w h : Nat)
    (hlos : att.LosMods = att'.LosMods) (hrect : l.Rect w h) (ex ey tx ty : Int)
    (hex : 0 ≤ ex ∧ ex < w) (hey : 0 ≤ ey ∧ ey < h)
    (htx : 0 ≤ tx ∧ tx < w) (hty : 0 ≤ ty ∧ ty < h)
    (v v' : Int) (hv : v ≤ v') (vis vis' : Finset Int) (hsub : vis ⊆ vis') :
    ∃ r r', castRay att l v ex ey tx ty vis = some r ∧
      castRay att' l v' ex ey tx ty vis' = some r' ∧ r ⊆ r' ∧ vis ⊆ r := by
  obtain ⟨line, hline, hmem⟩ := bresenham_sliceFrom1 ex ey tx ty
  have hin : ∀ c ∈ line, ∃ cell, l.cellAt c.1 c.2 = some cell := by
    intro c hc
    have hb := bresenham_mem_rect ex ey tx ty c (hmem c hc)
    simp only [min_le_iff, le_max_iff] at hb
    exact cellAt_of_inside l w h hrect c.1 c.2 (by omega) (by omega)
  obtain ⟨r, hr⟩ := addVisibleAlongLine_isSome att l line v vis hin
  obtain ⟨r', hr'⟩ := addVisibleAlongLine_isSome att' l line v' vis' hin
  refine ⟨r, r', ?_, ?_, ?_, ?_⟩
  · simp only [castRay, hline, hr]
  · simp only [castRay, hline, hr']
  · exact addVisibleAlongLine_mono att att' l hlos line v v' vis vis' r r' hv hsub hr hr'
  · exact (addVisibleAlongLine_between att l line v vis r hr).1

/-- The whole of `figureVisibility`, for two budgets `v <= v'` that give the
same bounding box on a rectangular grid, from an origin inside the grid: both
runs return, the first visible set is contained in the second, and contains the
vertex of the origin. -/
theorem figureVisibilityAt_rel (att att' : Attributes) (l : Level) (w h : Nat)
    (hlos : att.LosMods = att'.LosMods) (hrect : l.Rect w h) (ex ey : Int)
    (hex : 0 ≤ ex ∧ ex < w) (hey : 0 ≤ ey ∧ ey < h)
    (hv : att.LosDistance ≤ att'.LosDistance)
    (hbox : visionBox l att.LosDistance ex ey = visionBox l att'.LosDistance ex ey) :
    ∃ s s', figureVisibilityAt att l ex ey = some s ∧
      figureVisibilityAt att' l ex ey = some s' ∧ s ⊆ s' ∧ l.toVertex ex ey ∈ s := by
  have hw : 0 < w := by omega
  have hb := visionBox_of_rect l w h hrect hw att.LosDistance ex ey
  have hb' : visionBox l att'.LosDistance ex ey = _ := hbox ▸ hb
  unfold figureVisibilityAt
  simp only [hb, hb', Option.some_bind]
  have hgrid : ∀ c d : Int,
      ((if ex - att.LosDistance < 0 then 0 else ex - att.LosDistance) ≤ c ∧
        c ≤ (if ex + att.LosDistance ≥ (w : Int) then (w : Int) - 1
              else ex + att.LosDistance)) ∨
      ((if ey - att.LosDistance < 0 then 0 else ey - att.LosDistance) ≤ d ∧
        d ≤ (if ey + att.LosDistance ≥ (h : Int) then (h : Int) - 1
              else ey + att.LosDistance)) →
      0 ≤ att.LosDistance := by
    intro c d hcd
    split_ifs at hcd <;> omega
  obtain ⟨a1, b1, h1, h1', hsub1, horigin1⟩ :=
    forRange_rel (fun a b : Finset Int => a ⊆ b ∧ l.toVertex ex ey ∈ a)
      (if ex - att.LosDistance < 0 then 0 else ex - att.LosDistance)
      (if ex + att.LosDistance ≥ (w : Int) then (w : Int) - 1 else ex + att.LosDistance)
      (fun cx visible =>
        (castRay att l att.LosDistance ex ey cx
          (if ey - att.LosDistance < 0 then 0 else ey - att.LosDistance) visible).bind
          fun visible => castRay att l att.LosDistance ex ey cx
            (if ey + att.LosDistance ≥ (h : Int) then (h : Int) - 1
              else ey + att.LosDistance) visible)
      (fun cx visible =>
        (castRay att' l att'.LosDistance ex ey cx
          (if ey - att.LosDistance < 0 then 0 else ey - att.LosDistance) visible).bind
          fun visible => castRay att' l att'.LosDistance ex ey cx
            (if ey + att.LosDistance ≥ (h : Int) then (h : Int) - 1
              else ey + att.LosDistance) visible)
      (by
        intro c hc1 hc2 a b hab
        have hv0 := hgrid c 0 (Or.inl ⟨hc1, hc2⟩)
        have hcw : 0 ≤ c ∧ c < w := by split_ifs at hc1 hc2 <;> omega
        obtain ⟨r, r', hr, hr', hrr, har⟩ := castRay_rel att att' l w h hlos hrect ex ey c
          (if ey - att.LosDistance < 0 then 0 else ey - att.LosDistance) hex hey hcw
          (by split_ifs <;> omega) att.LosDistance att'.LosDistance hv a b hab.1
        obtain ⟨t, t', ht, ht', htt, hrt⟩ := castRay_rel att att' l w h hlos hrect ex ey c
          (if ey + att.LosDistance ≥ (h : Int) then (h : Int) - 1 else ey + att.LosDistance)
          hex hey hcw (by split_ifs <;> omega) att.LosDistance att'.LosDistance hv r r' hrr
        refine ⟨t, t', ?_, ?_, htt, hrt (har hab.2)⟩
        · simp only [hr, Option.some_bind, ht]
        · simp only [hr', Option.some_bind, ht'])
      {l.toVertex ex ey} {l.toVertex ex ey}
      ⟨Finset.Subset.refl _, Finset.mem_singleton_self _⟩
  obtain ⟨a2, b2, h2, h2', hsub2, horigin2⟩ :=
    forRange_rel (fun a b : Finset Int => a ⊆ b ∧ l.toVertex ex ey ∈ a)
      (if ey - att.LosDistance < 0 then 0 else ey - att.LosDistance)
      (if ey + att.LosDistance ≥ (h : Int) then (h : Int) - 1 else ey + att.LosDistance)
      (fun cy visible =>
        (castRay att l att.LosDistance ex ey
          (if ex - att.LosDistance < 0 then 0 else ex - att.LosDistance) cy visible).bind
          fun visible => castRay att l att.LosDistance ex ey
            (if ex + att.LosDistance ≥ (w : Int) then (w : Int) - 1
              else ex + att.LosDistance) cy visible)
      (fun cy visible =>
        (castRay att' l att'.LosDistance ex ey
          (if ex - att.LosDistance < 0 then 0 else ex - att.LosDistance) cy visible).bind
          fun visible => castRay att' l att'.LosDistance ex ey
            (if ex + att.LosDistance ≥ (w : Int) then (w : Int) - 1
              else ex + att.LosDistance) cy visible)
      (by
        intro c hc1 hc2 a b hab
        have hv0 := hgrid 0 c (Or.inr ⟨hc1, hc2⟩)
        have hch : 0 ≤ c ∧ c < h := by split_ifs at hc1 hc2 <;> omega
        obtain ⟨r, r', hr, hr', hrr, har⟩ := castRay_rel att att' l w h hlos hrect ex ey
          (if ex - att.LosDistance < 0 then 0 else ex - att.LosDistance) c hex hey
          (by split_ifs <;> omega) hch att.LosDistance att'.LosDistance hv a b hab.1
        obtain ⟨t, t', ht, ht', htt, hrt⟩ := castRay_rel att att' l w h hlos hrect ex ey
          (if ex + att.LosDistance ≥ (w : Int) then (w : Int) - 1 else ex + att.LosDistance) c
          hex hey (by split_ifs <;> omega) hch att.LosDistance att'.LosDistance hv r r' hrr
        refine ⟨t, t', ?_, ?_, htt, hrt (har hab.2)⟩
        · simp only [hr, Option.some_bind, ht]
        · simp only [hr', Option.some_bind, ht'])
      a1 b1 ⟨hsub1, horigin1⟩
  refine ⟨a2, b2, ?_, ?_, hsub2, horigin2⟩
  · rw [h1, Option.some_bind]; exact h2
  · rw [h1', Option.some_bind]; exact h2'

theorem eq_some_of_get {α : Type} (o : Option α) (a : α) (h : o.isSome = true)
    (h2 : o.get h = a) : o = some a := by
  cases o with
  | none => simp at h
  | some b => simp only [Option.get_some] at h2; rw [h2]

theorem exists_of_get {α : Type} (o : Option α) (P : α → Prop) (h : o.isSome = true)
    (hp : P (o.get h)) : ∃ s, o = some s ∧ P s :=
  ⟨o.get h, (Option.some_get h).symm, hp⟩

theorem terrainLevel_rect (w h : Nat) (terrainOf : Nat → Nat → Terrain) :
    (terrainLevel w h terrainOf).Rect w h := by
  simp [Level.Rect, terrainLevel]

/-- C7: on a rectangular grid, for every concealment table, every vision budget
(zero and negative ones included) and every origin inside the grid,
`figureVisibility` returns and the vertex of the origin is in the visible set. -/
theorem figureVisibility_origin_visible (att : Attributes) (l : Level) (w h : Nat)
    (ex ey : Int) (hrect : l.Rect w h) (hex : 0 ≤ ex ∧ ex < w) (hey : 0 ≤ ey ∧ ey < h) :
    ∃ s, figureVisibilityAt att l ex ey = some s ∧ l.toVertex ex ey ∈ s := by
  obtain ⟨s, _, hs, _, _, horigin⟩ :=
    figureVisibilityAt_rel att att l w h rfl hrect ex ey hex hey (le_refl _) rfl
  exact ⟨s, hs, horigin⟩

/-- C4, as amended: on a rectangular grid, from an origin inside the grid, for
budgets `v <= v'` whose clamped bounding boxes coincide, both runs of
`figureVisibility` return and the visible set for `v` is contained in the
visible set for `v'`. -/
theorem figureVisibility_mono_same_box (att : Attributes) (l : Level) (w h : Nat)
    (ex ey v v' : Int) (hrect : l.Rect w h) (hex : 0 ≤ ex ∧ ex < w) (hey : 0 ≤ ey ∧ ey < h)
    (hv : v ≤ v') (hbox : visionBox l v ex ey = visionBox l v' ex ey) :
    ∃ s s', figureVisibilityAt { att with LosDistance := v } l ex ey = some s ∧
      figureVisibilityAt { att with LosDistance := v' } l ex ey = some s' ∧ s ⊆ s' := by
  obtain ⟨s, s', hs, hs', hsub, _⟩ :=
    figureVisibilityAt_rel { att with LosDistance := v } { att with LosDistance := v' }
      l w h rfl hrect ex ey hex hey hv hbox
  exact ⟨s, s', hs, hs', hsub⟩

/-! ## End-to-end checks on concrete levels -/

set_option maxRecDepth 100000

/-- C5: on a 5x5 grid whose every terrain has concealment 0, with `LosDistance`
3 and the entity at (2,2), `figureVisibility` produces exactly the vertices of
all 25 cells. -/
theorem figureVisibility_open_5x5 :
    figureVisibilityAt (sightAttributes 3 none) (terrainLevel 5 5 fun _ _ => 0) 2 2
      = some (allVertices 5 5) :=
  eq_some_of_get _ _ (by decide) (by decide)

/-- C6: on a 5x5 grid with `LosDistance` 3, the entity at (2,2) and concealment
0 everywhere except that the cell (3,2) is opaque (no entry, or a negative
entry), `figureVisibility` produces exactly the 25 cells minus (4,1), (4,2) and
(4,3); the opaque cell (3,2) itself is visible. -/
theorem figureVisibility_blocked_5x5 :
    figureVisibilityAt (sightAttributes 3 none)
        (terrainLevel 5 5 fun x y => if x = 3 ∧ y = 2 then 1 else 0) 2 2
      = some (allVertices 5 5 \ {rowMajor 5 4 1, rowMajor 5 4 2, rowMajor 5 4 3}) ∧
    figureVisibilityAt (sightAttributes 3 (some (-1)))
        (terrainLevel 5 5 fun x y => if x = 3 ∧ y = 2 then 1 else 0) 2 2
      = some (allVertices 5 5 \ {rowMajor 5 4 1, rowMajor 5 4 2, rowMajor 5 4 3}) ∧
    rowMajor 5 3 2 ∈ allVertices 5 5 \ {rowMajor 5 4 1, rowMajor 5 4 2, rowMajor 5 4 3} :=
  ⟨eq_some_of_get _ _ (by decide) (by decide), eq_some_of_get _ _ (by decide) (by decide),
    by decide⟩

/-- C4 fails as stated: on the 3x7 grid whose only opaque cell is (0,3), from
the origin (0,0), the cell (1,5) is visible with budget 5 and not visible with
budget 6. -/
theorem figureVisibility_not_monotone :
    ∃ s s',
      (terrainLevel 3 7 fun x y => if x = 0 ∧ y = 3 then 1 else 0).Rect 3 7 ∧
      (5 : Int) ≤ 6 ∧
      figureVisibilityAt { sightAttributes 0 none with LosDistance := 5 }
        (terrainLevel 3 7 fun x y => if x = 0 ∧ y = 3 then 1 else 0) 0 0 = some s ∧
      figureVisibilityAt { sightAttributes 0 none with LosDistance := 6 }
        (terrainLevel 3 7 fun x y => if x = 0 ∧ y = 3 then 1 else 0) 0 0 = some s' ∧
      rowMajor 3 1 5 ∈ s ∧ rowMajor 3 1 5 ∉ s' ∧ ¬ s ⊆ s' := by
  obtain ⟨s, hs, hin⟩ := exists_of_get
    (figureVisibilityAt { sightAttributes 0 none with LosDistance := 5 }
      (terrainLevel 3 7 fun x y => if x = 0 ∧ y = 3 then 1 else 0) 0 0)
    (fun s => rowMajor 3 1 5 ∈ s) (by decide) (by decide)
  obtain ⟨s', hs', hout⟩ := exists_of_get
    (figureVisibilityAt { sightAttributes 0 none with LosDistance := 6 }
      (terrainLevel 3 7 fun x y => if x = 0 ∧ y = 3 then 1 else 0) 0 0)
    (fun s => rowMajor 3 1 5 ∉ s) (by decide) (by decide)
  exact ⟨s, s', terrainLevel_rect _ _ _, by decide, hs, hs', hin, hout,
    fun hsub => hout (hsub hin)⟩

/-! ## Action points -/

/-- Recomputing visibility changes the visible set only. -/
theorem Entity.figureVisibility_frame (l : Level) (e e' : Entity)
    (h : e.figureVisibility l = some e') :
    e'.Base = e.Base ∧ e'.Health = e.Health ∧ e'.AP = e.AP ∧ e'.pos = e.pos ∧
      e'.prev_pos = e.prev_pos ∧ e'.path = e.path := by
  unfold Entity.figureVisibility at h
  split at h
  · simp at h
  · simp only [Option.some.injEq] at h
    subst h
    exact ⟨rfl, rfl, rfl, rfl, rfl, rfl⟩

/-- Recomputing visibility returns when the entity stands inside a
rectangular grid. -/
theorem Entity.figureVisibility_isSome (l : Level) (w h : Nat) (e : Entity)
    (hrect : l.Rect w h) (hx : 0 ≤ goInt e.pos.1 ∧ goInt e.pos.1 < w)
    (hy : 0 ≤ goInt e.pos.2 ∧ goInt e.pos.2 < h) :
    ∃ e', e.figureVisibility l = some e' := by
  obtain ⟨s, _, hs, _, _, _⟩ :=
    figureVisibilityAt_rel e.Base.attributes e.Base.attributes l w h rfl hrect _ _ hx hy
      (le_refl _) rfl
  simp only [Entity.figureVisibility, hs]
  exact ⟨_, rfl⟩

/-- One call leaves the base statistics and the position alone, and leaves a
non-negative AP when the base AP is non-negative. -/
theorem Entity.call_inv (costToMove : CostToMove) (l : Level) (e e' : Entity)
    (c : EntityCall) (h : e.call costToMove l c = some e') :
    e'.Base = e.Base ∧ e'.pos = e.pos ∧ (0 ≤ e.Base.AP → 0 ≤ e'.AP) := by
  cases c with
  | OnSetup =>
    simp only [Entity.call, Entity.OnSetup] at h
    obtain ⟨h1, _, h3, h4, _, _⟩ := Entity.figureVisibility_frame l _ e' h
    exact ⟨h1, h4, fun hb => by rw [h3]; exact hb⟩
  | OnRound =>
    simp only [Entity.call, Entity.OnRound, Option.some.injEq] at h
    subst h
    exact ⟨rfl, rfl, fun hb => hb⟩
  | enterCell x y =>
    simp only [Entity.call, Entity.enterCell] at h
    obtain ⟨h1, _, h3, h4, _, _⟩ := Entity.figureVisibility_frame l _ e' h
    refine ⟨?_, ?_, fun _ => ?_⟩
    · rw [h1]; split <;> rfl
    · rw [h4]; split <;> rfl
    · rw [h3]; split
      · exact le_refl _
      · simp only at *; omega

/-- One call returns when the entity stands inside a rectangular grid. -/
theorem Entity.call_isSome (costToMove : CostToMove) (l : Level) (w h : Nat) (e : Entity)
    (c : EntityCall) (hrect : l.Rect w h) (hx : 0 ≤ goInt e.pos.1 ∧ goInt e.pos.1 < w)
    (hy : 0 ≤ goInt e.pos.2 ∧ goInt e.pos.2 < h) :
    ∃ e', e.call costToMove l c = some e' := by
  cases c with
  | OnSetup =>
    exact Entity.figureVisibility_isSome l w h _ hrect hx hy
  | OnRound => exact ⟨_, rfl⟩
  | enterCell x y =>
    simp only [Entity.call, Entity.enterCell]
    apply Entity.figureVisibility_isSome l w h _ hrect
    · split <;> exact hx
    · split <;> exact hy

/-- A sequence of calls that starts from a non-negative AP ends in one. -/
theorem Entity.run_inv (costToMove : CostToMove) (l : Level) :
    ∀ (calls : List EntityCall) (e e' : Entity), 0 ≤ e.Base.AP → 0 ≤ e.AP →
      e.run costToMove l calls = some e' → 0 ≤ e'.AP := by
  intro calls
  induction calls with
  | nil =>
    intro e e' _ hap h
    simp only [Entity.run, List.foldlM_nil] at h
    cases h
    exact hap
  | cons c rest ih =>
    intro e e' hbase _ h
    simp only [Entity.run, List.foldlM_cons] at h
    cases hc : e.call costToMove l c with
    | none => rw [hc] at h; simp at h
    | some e1 =>
      rw [hc] at h
      obtain ⟨h1, _, h3⟩ := Entity.call_inv costToMove l e e1 c hc
      exact ih e1 e' (by rw [h1]; exact hbase) (h3 hbase) h

/-- A sequence of calls returns when the entity stands inside a rectangular
grid. -/
theorem Entity.run_isSome (costToMove : CostToMove) (l : Level) (w h : Nat)
    (hrect : l.Rect w h) :
    ∀ (calls : List EntityCall) (e : Entity), (0 ≤ goInt e.pos.1 ∧ goInt e.pos.1 < w) →
      (0 ≤ goInt e.pos.2 ∧ goInt e.pos.2 < h) →
      ∃ e', e.run costToMove l calls = some e' := by
  intro calls
  induction calls with
  | nil => intro e _ _; exact ⟨e, rfl⟩
  | cons c rest ih =>
    intro e hx hy
    obtain ⟨e1, hc⟩ := Entity.call_isSome costToMove l w h e c hrect hx hy
    obtain ⟨_, h2, _⟩ := Entity.call_inv costToMove l e e1 c hc
    obtain ⟨e2, hr⟩ := ih e1 (by rw [h2]; exact hx) (by rw [h2]; exact hy)
    refine ⟨e2, ?_⟩
    simp only [Entity.run, List.foldlM_cons, hc]
    exact hr

/-- C8: for every entity whose base AP is not negative, after any sequence of
`OnSetup`, `OnRound` and `enterCell` calls, with arbitrary cells and arbitrary
movement costs, the AP is not negative (for the empty sequence: if it was not
negative before); and the sequence returns whenever the entity stands inside a
rectangular grid. -/
theorem AP_never_negative (costToMove : CostToMove) (l : Level) (e : Entity)
    (calls : List EntityCall) (hbase : 0 ≤ e.Base.AP) (hstart : calls ≠ [] ∨ 0 ≤ e.AP) :
    (∀ e', e.run costToMove l calls = some e' → 0 ≤ e'.AP) ∧
    (∀ w h : Nat, l.Rect w h → (0 ≤ goInt e.pos.1 ∧ goInt e.pos.1 < w) →
      (0 ≤ goInt e.pos.2 ∧ goInt e.pos.2 < h) →
      ∃ e', e.run costToMove l calls = some e') := by
  refine ⟨?_, fun w h hrect hx hy => Entity.run_isSome costToMove l w h hrect calls e hx hy⟩
  intro e' h
  cases calls with
  | nil =>
    rcases hstart with hne | hap
    · exact absurd rfl hne
    · exact Entity.run_inv costToMove l [] e e' hbase hap h
  | cons c rest =>
    simp only [Entity.run, List.foldlM_cons] at h
    cases hc : e.call costToMove l c with
    | none => rw [hc] at h; simp at h
    | some e1 =>
      rw [hc] at h
      obtain ⟨h1, _, h3⟩ := Entity.call_inv costToMove l e e1 c hc
      exact Entity.run_inv costToMove l rest e1 e' (by rw [h1]; exact hbase) (h3 hbase) h

/-- C9: whenever `enterCell(x, y)` returns, the AP is `max(0, AP - c)` for the
integer-truncated cost `c` of the move from the checkpoint cell to `(x, y)`,
the checkpoint is `(x, y)`, and the position and the path are unchanged; and it
returns whenever the entity stands inside a rectangular grid. -/
theorem enterCell_charges (costToMove : CostToMove) (l : Level) (e : Entity) (x y : Int) :
    (∀ e', e.enterCell costToMove l x y = some e' →
      e'.AP = max 0 (e.AP - goInt (costToMove l e.Base.attributes.MoveMods
        (l.toVertex (goInt e.prev_pos.1) (goInt e.prev_pos.2)) (l.toVertex x y))) ∧
      e'.prev_pos = ((x : ℚ), (y : ℚ)) ∧ e'.pos = e.pos ∧ e'.path = e.path) ∧
    (∀ w h : Nat, l.Rect w h → (0 ≤ goInt e.pos.1 ∧ goInt e.pos.1 < w) →
      (0 ≤ goInt e.pos.2 ∧ goInt e.pos.2 < h) →
      ∃ e', e.enterCell costToMove l x y = some e') := by
  constructor
  · intro e' h
    simp only [Entity.enterCell] at h
    obtain ⟨_, _, h3, h4, h5, h6⟩ := Entity.figureVisibility_frame l _ e' h
    refine ⟨?_, ?_, ?_, ?_⟩
    · rw [h3]; split
      · rename_i hneg
        exact (max_eq_left (le_of_lt hneg)).symm
      · rename_i hneg
        exact (max_eq_right (not_lt.mp hneg)).symm
    · rw [h5]; split <;> rfl
    · rw [h4]; split <;> rfl
    · rw [h6]; split <;> rfl
  · intro w h hrect hx hy
    exact Entity.call_isSome costToMove l w h e (EntityCall.enterCell x y) hrect hx hy

/-! ## The move action -/

theorem goInt_intCast (n : Int) : goInt (n : ℚ) = n := by
  unfold goInt
  split
  · exact Int.floor_intCast n
  · exact Int.ceil_intCast n

/-- A position lies in the integer cell of a click exactly when `IntEquals`
says so. -/
theorem IntEquals_click (bx «by» : ℚ) (v : BoardPos) :
    BoardPos.IntEquals (MakeBoardPos (goInt bx) (goInt «by»)) v = true
      ↔ (goInt v.1, goInt v.2) = (goInt bx, goInt «by») := by
  simp only [BoardPos.IntEquals, MakeBoardPos, goInt_intCast, Bool.and_eq_true,
    decide_eq_true_eq, Prod.mk.injEq]
  constructor
  · rintro ⟨h1, h2⟩; exact ⟨h1.symm, h2.symm⟩
  · rintro ⟨h1, h2⟩; exact ⟨h1.symm, h2.symm⟩

/-- C10: a click whose integer cell is the cell of no position of the stored
reachable set returns `NoAction` and changes nothing: the level (every cell's
highlight) and the action (reachable set, path, entity and its AP) are as
before, whatever the shortest-path routine would have answered. -/
theorem MouseClick_outside_reachable (env : MoveEnv) (l : Level) (a : ActionMove)
    (bx «by» : ℚ)
    (hout : ∀ v ∈ a.reachable, (goInt v.1, goInt v.2) ≠ (goInt bx, goInt «by»)) :
    a.MouseClick env l bx «by» = some (ActionCommit.NoAction, l, a) := by
  have hfound : (a.reachable.any fun v =>
      BoardPos.IntEquals (MakeBoardPos (goInt bx) (goInt «by»)) v) = false := by
    rw [List.any_eq_false]
    intro v hv hc
    exact hout v hv ((IntEquals_click bx «by» v).mp hc)
  simp only [ActionMove.MouseClick, hfound, Bool.not_false, if_true]

/-! ## Instances of the theorems that have hypotheses -/

theorem goInt_two : goInt (2 : ℚ) = 2 := by
  exact_mod_cast goInt_intCast 2

theorem addVisibleAlongLine_stops_at_opaque_witness :
    addVisibleAlongLine (sightAttributes 3 none)
        (terrainLevel 5 5 fun x y => if x = 3 ∧ y = 2 then 1 else 0) 3
        [(3, 2), (4, 2)] {12}
      = addVisibleAlongLine (sightAttributes 3 none)
        (terrainLevel 5 5 fun x y => if x = 3 ∧ y = 2 then 1 else 0) 3
        (List.take (0 + 1) [(3, 2), (4, 2)]) {12} ∧
    ∀ r, addVisibleAlongLine (sightAttributes 3 none)
        (terrainLevel 5 5 fun x y => if x = 3 ∧ y = 2 then 1 else 0) 3
        [(3, 2), (4, 2)] {12} = some r →
      r ⊆ {12} ∪ vertices (terrainLevel 5 5 fun x y => if x = 3 ∧ y = 2 then 1 else 0)
        (List.take (0 + 1) [(3, 2), (4, 2)]) :=
  addVisibleAlongLine_stops_at_opaque (sightAttributes 3 none)
    (terrainLevel 5 5 fun x y => if x = 3 ∧ y = 2 then 1 else 0)
    [(3, 2), (4, 2)] 0 (3, 2) 3 {12} rfl
    ⟨{ Terrain := 1, highlight := 0 }, rfl, fun k hk => by simp [sightAttributes] at hk⟩

theorem addVisibleAlongLine_marks_prefix_witness :
    ∃ r, addVisibleAlongLine (sightAttributes 3 none) (terrainLevel 5 5 fun _ _ => 0) 3
        [(2, 3), (2, 4)] {12} = some r ∧
      r = {12} ∪ vertices (terrainLevel 5 5 fun _ _ => 0) (List.take (1 + 1) [(2, 3), (2, 4)]) ∧
      {12} ⊆ r ∧
      ∀ c, List.head? [((2 : Int), (3 : Int)), (2, 4)] = some c →
        (terrainLevel 5 5 fun _ _ => 0).toVertex c.1 c.2 ∈ r :=
  addVisibleAlongLine_marks_prefix (sightAttributes 3 none) (terrainLevel 5 5 fun _ _ => 0)
    [(2, 3), (2, 4)] 3 {12} 1
    (by
      intro c hc
      simp only [List.mem_cons, List.mem_singleton, List.not_mem_nil, or_false] at hc
      rcases hc with rfl | rfl
      · exact ⟨{ Terrain := 0, highlight := 0 }, 0, rfl, rfl, le_refl _⟩
      · exact ⟨{ Terrain := 0, highlight := 0 }, 0, rfl, rfl, le_refl _⟩)
    (by decide)
    (by
      intro j hj
      have hj0 : j = 0 := by omega
      subst hj0
      decide)
    (Or.inr rfl)

theorem figureVisibility_mono_same_box_witness :
    ∃ s s', figureVisibilityAt { sightAttributes 0 none with LosDistance := 3 }
        (terrainLevel 5 5 fun x y => if x = 3 ∧ y = 2 then 1 else 0) 2 2 = some s ∧
      figureVisibilityAt { sightAttributes 0 none with LosDistance := 4 }
        (terrainLevel 5 5 fun x y => if x = 3 ∧ y = 2 then 1 else 0) 2 2 = some s' ∧
      s ⊆ s' :=
  figureVisibility_mono_same_box (sightAttributes 0 none)
    (terrainLevel 5 5 fun x y => if x = 3 ∧ y = 2 then 1 else 0) 5 5 2 2 3 4
    (terrainLevel_rect _ _ _) (by decide) (by decide) (by decide) (by decide)

theorem figureVisibility_origin_visible_witness :
    ∃ s, figureVisibilityAt (sightAttributes (-2) none)
        (terrainLevel 5 5 fun x y => if x = 3 ∧ y = 2 then 1 else 0) 2 2 = some s ∧
      (terrainLevel 5 5 fun x y => if x = 3 ∧ y = 2 then 1 else 0).toVertex 2 2 ∈ s :=
  figureVisibility_origin_visible (sightAttributes (-2) none)
    (terrainLevel 5 5 fun x y => if x = 3 ∧ y = 2 then 1 else 0) 5 5 2 2
    (terrainLevel_rect _ _ _) (by decide) (by decide)

theorem AP_never_negative_witness :
    (∀ e', sampleEntity.run sampleCost (terrainLevel 5 5 fun _ _ => 0)
        [EntityCall.enterCell 3 2, EntityCall.OnRound, EntityCall.enterCell 3 3,
          EntityCall.enterCell 4 3] = some e' → 0 ≤ e'.AP) ∧
    (∀ w h : Nat, (terrainLevel 5 5 fun _ _ => 0).Rect w h →
      (0 ≤ goInt sampleEntity.pos.1 ∧ goInt sampleEntity.pos.1 < w) →
      (0 ≤ goInt sampleEntity.pos.2 ∧ goInt sampleEntity.pos.2 < h) →
      ∃ e', sampleEntity.run sampleCost (terrainLevel 5 5 fun _ _ => 0)
        [EntityCall.enterCell 3 2, EntityCall.OnRound, EntityCall.enterCell 3 3,
          EntityCall.enterCell 4 3] = some e') :=
  AP_never_negative sampleCost (terrainLevel 5 5 fun _ _ => 0) sampleEntity
    [EntityCall.enterCell 3 2, EntityCall.OnRound, EntityCall.enterCell 3 3,
      EntityCall.enterCell 4 3]
    (by decide) (Or.inl (by simp))

theorem MouseClick_outside_reachable_witness :
    sampleAction.MouseClick sampleEnv (terrainLevel 5 5 fun _ _ => 0) 2 2
      = some (ActionCommit.NoAction, terrainLevel 5 5 fun _ _ => 0, sampleAction) :=
  MouseClick_outside_reachable sampleEnv (terrainLevel 5 5 fun _ _ => 0) sampleAction 2 2
    (by
      intro v hv
      simp only [sampleAction, List.mem_cons, List.mem_singleton, List.not_mem_nil,
        or_false] at hv
      rcases hv with rfl | rfl
      · simp only [MakeBoardPos, goInt_intCast, goInt_two]; decide
      · simp only [MakeBoardPos, goInt_intCast, goInt_two]; decide)

/-! ## The end points of a line -/

/-- In loop coordinates, a line starts on its origin and closes on its target. -/
theorem lineCells_endpoints (a b a2 b2 : Int) (hle : |b2 - b| ≤ |a2 - a|) :
    (lineCells |a2 - a| |b2 - b| (if a2 < a then -1 else 1) (if b2 < b then -1 else 1)
      |a2 - a|.toNat a b (|a2 - a| >>> (1 : Nat))).head? = some (a, b) ∧
    (lineCells |a2 - a| |b2 - b| (if a2 < a then -1 else 1) (if b2 < b then -1 else 1)
      |a2 - a|.toNat a b (|a2 - a| >>> (1 : Nat))).getLast? = some (a2, b2) := by
  have hdx : (a2 < a → |a2 - a| = a - a2) ∧ (¬ a2 < a → |a2 - a| = a2 - a) :=
    ⟨fun h => by rw [abs_of_neg (by omega)]; ring, fun h => abs_of_nonneg (by omega)⟩
  have hdy : (b2 < b → |b2 - b| = b - b2) ∧ (¬ b2 < b → |b2 - b| = b2 - b) :=
    ⟨fun h => by rw [abs_of_neg (by omega)]; ring, fun h => abs_of_nonneg (by omega)⟩
  have hdy0 : 0 ≤ |b2 - b| := abs_nonneg _
  have hdx0 : 0 ≤ |a2 - a| := abs_nonneg _
  revert hle hdx hdy hdy0 hdx0
  generalize |a2 - a| = dx
  generalize |b2 - b| = dy
  intro hle hdx hdy hdy0 hdx0
  constructor
  · rw [List.head?_eq_getElem?]; exact lineCells_head _ _ _ _ _ _ _ _
  · rcases eq_or_lt_of_le hdx0 with h0 | hpos
    · subst h0
      have hdy' : dy = 0 := by omega
      have ha : a2 = a := by
        by_cases h : a2 < a
        · have := hdx.1 h; omega
        · have := hdx.2 h; omega
      have hb : b2 = b := by
        by_cases h : b2 < b
        · have := hdy.1 h; omega
        · have := hdy.2 h; omega
      simp [lineCells, ha, hb]
    · have herr : dx >>> (1 : Nat) = dx / 2 := by
        rw [Int.shiftRight_eq_div_pow]; norm_num
      have hn : ((dx.toNat : Nat) : Int) = dx := Int.toNat_of_nonneg hdx0
      have hq : dx >>> (1 : Nat) - (dx.toNat : Int) * dy + dy * dx = dx >>> (1 : Nat) := by
        rw [hn]; ring
      obtain ⟨_, _, hlast⟩ := lineCells_bounds dx dy (if a2 < a then -1 else 1)
        (if b2 < b then -1 else 1) hdy0 hle dx.toNat a b (dx >>> (1 : Nat)) dy
        (by rw [herr]; omega) (by rw [herr]; omega) (by rw [hq, herr]; omega)
        (by rw [hq, herr]; omega)
      rw [hlast, hn]
      refine congrArg some (Prod.ext ?_ ?_)
      · by_cases ha : a2 < a
        · simp only [ha, if_true]; have := hdx.1 ha; rw [this]; ring
        · simp only [ha, if_false]; have := hdx.2 ha; rw [this]; ring
      · by_cases hb : b2 < b
        · simp only [hb, if_true]; have := hdy.1 hb; rw [this]; ring
        · simp only [hb, if_false]; have := hdy.2 hb; rw [this]; ring

/-- C19: the first cell of `bresenham(x, y, x2, y2)` is the origin `(x, y)` and
the last cell is the target `(x2, y2)`; when origin and target coincide the
line is that single cell; so the slice `[1:]` taken in `figureVisibility`
drops exactly the origin and keeps a ray that ends on its target. -/
theorem bresenham_endpoints (x y x2 y2 : Int) :
    (bresenham x y x2 y2).head? = some (x, y) ∧
    (bresenham x y x2 y2).getLast? = some (x2, y2) ∧
    bresenham x y x y = [(x, y)] ∧
    ∃ rest, bresenham x y x2 y2 = (x, y) :: rest ∧
      sliceFrom1 (bresenham x y x2 y2) = some rest ∧
      (rest ≠ [] → rest.getLast? = some (x2, y2)) := by
  have hends : (bresenham x y x2 y2).head? = some (x, y) ∧
      (bresenham x y x2 y2).getLast? = some (x2, y2) := by
    rw [bresenham_eq]
    by_cases hs : |y2 - y| > |x2 - x|
    · obtain ⟨h1, h2⟩ := lineCells_endpoints y x y2 x2 (by omega)
      simp only [hs, if_true, List.head?_map, List.getLast?_map, h1, h2]
      simp [orient]
    · obtain ⟨h1, h2⟩ := lineCells_endpoints x y x2 y2 (by omega)
      simp only [hs, if_false, List.head?_map, List.getLast?_map, h1, h2]
      simp [orient]
  refine ⟨hends.1, hends.2, ?_, ?_⟩
  · rw [bresenham_eq]
    simp [lineCells, orient]
  · cases hb : bresenham x y x2 y2 with
    | nil => rw [hb] at hends; simp at hends
    | cons c rest =>
      rw [hb] at hends
      simp only [List.head?_cons, Option.some.injEq] at hends
      obtain ⟨hc, hlast⟩ := hends
      subst hc
      refine ⟨rest, rfl, rfl, fun hne => ?_⟩
      cases rest with
      | nil => exact absurd rfl hne
      | cons d rest' => rw [← hlast, List.getLast?_cons_cons]

/-! ## Cell highlights -/

theorem or_and_self_mask (h m : Nat) : (h ||| m) &&& m = m := by
  apply Nat.eq_of_testBit_eq
  intro i
  simp only [Nat.testBit_and, Nat.testBit_or]
  cases h.testBit i <;> cases m.testBit i <;> rfl

theorem cleared_and_mask (h m : Nat) : (h ^^^ (h &&& m)) &&& m = 0 := by
  apply Nat.eq_of_testBit_eq
  intro i
  simp only [Nat.testBit_and, Nat.testBit_xor, Nat.zero_testBit]
  cases h.testBit i <;> cases m.testBit i <;> rfl

theorem or_or_mask (h m : Nat) : (h ||| m) ||| m = h ||| m := by
  apply Nat.eq_of_testBit_eq
  intro i
  simp only [Nat.testBit_or]
  cases h.testBit i <;> cases m.testBit i <;> rfl

/-- Reading a cell, in terms of list indexing. -/
theorem cellAt_eq (l : Level) (x y : Int) :
    l.cellAt x y = if x < 0 ∨ y < 0 then none
      else (l.grid[x.toNat]?).bind fun col => col[y.toNat]? := by
  unfold Level.cellAt
  split
  · rfl
  · rw [List.get?_eq_getElem?]
    cases l.grid[x.toNat]? with
    | none => rfl
    | some col => simp [List.get?_eq_getElem?]

/-- Clearing a mask on the level clears it in every cell and moves no cell. -/
theorem cellAt_clearCache (l : Level) (mask : Nat) (x y : Int) :
    (l.clearCache mask).cellAt x y = (l.cellAt x y).map fun c =>
      { c with highlight := c.highlight ^^^ (c.highlight &&& mask) } := by
  rw [cellAt_eq, cellAt_eq]
  split
  · rfl
  · simp only [Level.clearCache, List.getElem?_map]
    cases l.grid[x.toNat]? with
    | none => rfl
    | some col =>
      simp only [Option.map_some', Option.some_bind, List.getElem?_map]

/-- One `highlight |= mask` statement changes the addressed cell and no other. -/
theorem cellAt_orHighlight (l l' : Level) (v : BoardPos) (mask : Nat)
    (h : l.orHighlight v mask = some l') (x y : Int) :
    l'.toVertex = l.toVertex ∧
    l'.cellAt x y =
      if (goInt v.1, goInt v.2) = (x, y) then
        (l.cellAt x y).map fun c => { c with highlight := c.highlight ||| mask }
      else l.cellAt x y := by
  unfold Level.orHighlight at h
  cases hc : l.cellAt (goInt v.1) (goInt v.2) with
  | none => rw [hc] at h; simp at h
  | some c =>
    rw [hc] at h
    simp only [Option.some.injEq] at h
    subst h
    refine ⟨rfl, ?_⟩
    have hc' := hc
    rw [cellAt_eq] at hc'
    have hv : ¬ (goInt v.1 < 0 ∨ goInt v.2 < 0) := by
      intro hneg; rw [if_pos hneg] at hc'; simp at hc'
    rw [if_neg hv] at hc'
    rw [cellAt_eq, cellAt_eq]
    by_cases hxy : x < 0 ∨ y < 0
    · simp only [hxy, if_true]
      split <;> rfl
    · simp only [hxy, if_false]
      by_cases hx : (goInt v.1).toNat = x.toNat
      · have hxe : goInt v.1 = x := by omega
        rw [hx] at hc'
        simp only [hx, List.getElem?_modify_eq]
        cases hcol : l.grid[x.toNat]? with
        | none => rw [hcol] at hc'; simp at hc'
        | some col =>
          rw [hcol] at hc'
          simp only [Option.some_bind] at hc'
          simp only [Option.map_eq_map, Option.map_some', Option.some_bind]
          by_cases hy : (goInt v.2).toNat = y.toNat
          · have hye : goInt v.2 = y := by omega
            have hlt : y.toNat < col.length := by
              rw [hy] at hc'
              by_contra hge
              rw [List.getElem?_eq_none (by omega)] at hc'
              simp at hc'
            rw [hy] at hc'
            simp only [hy, hxe, hye, if_true, List.getElem?_set, hlt, hc', Option.map_some']
          · have hne : ¬ (goInt v.1, goInt v.2) = (x, y) := by
              intro heq
              simp only [Prod.mk.injEq] at heq
              omega
            simp only [hne, if_false, List.getElem?_set_ne hy]
      · have hne : ¬ (goInt v.1, goInt v.2) = (x, y) := by
          intro heq
          simp only [Prod.mk.injEq] at heq
          omega
        simp only [hne, if_false, List.getElem?_modify_ne _ _ hx]

theorem onCells_cons (p : BoardPos) (ps : List BoardPos) (x y : Int) :
    onCells (p :: ps) x y ↔ (goInt p.1, goInt p.2) = (x, y) ∨ onCells ps x y := by
  simp [onCells]

/-- The loop `for _, v := range ps { GetCellAtPos(v).highlight |= mask }`: the
cells of the positions get the flags of `mask`, every other cell is untouched,
and the vertex codec is the same. -/
theorem cellAt_orHighlight_fold (mask : Nat) :
    ∀ (ps : List BoardPos) (l l' : Level),
      ps.foldlM (fun l v => l.orHighlight v mask) l = some l' →
        l'.toVertex = l.toVertex ∧
        ∀ x y : Int,
          (onCells ps x y → l'.cellAt x y = (l.cellAt x y).map fun c =>
            { c with highlight := c.highlight ||| mask }) ∧
          (¬ onCells ps x y → l'.cellAt x y = l.cellAt x y) := by
  intro ps
  induction ps with
  | nil =>
    intro l l' h
    simp only [List.foldlM_nil] at h
    cases h
    exact ⟨rfl, fun x y => ⟨fun hon => by simp [onCells] at hon, fun _ => rfl⟩⟩
  | cons p rest ih =>
    intro l l' h
    simp only [List.foldlM_cons] at h
    cases h1 : l.orHighlight p mask with
    | none => rw [h1] at h; simp at h
    | some l1 =>
      rw [h1] at h
      obtain ⟨hv, hcells⟩ := ih l1 l' h
      refine ⟨hv.trans (cellAt_orHighlight l l1 p mask h1 0 0).1, fun x y => ?_⟩
      have hstep := (cellAt_orHighlight l l1 p mask h1 x y).2
      obtain ⟨hon, hoff⟩ := hcells x y
      rw [onCells_cons]
      by_cases hrest : onCells rest x y
      · refine ⟨fun _ => ?_, fun hnot => absurd (Or.inr hrest) hnot⟩
        rw [hon hrest, hstep]
        split
        · cases l.cellAt x y with
          | none => rfl
          | some c => simp [or_or_mask]
        · rfl
      · refine ⟨fun hor => ?_, fun hnot => ?_⟩
        · have hp : (goInt p.1, goInt p.2) = (x, y) := hor.resolve_right hrest
          rw [hoff hrest, hstep, if_pos hp]
        · have hp : ¬ (goInt p.1, goInt p.2) = (x, y) := fun hp => hnot (Or.inl hp)
          rw [hoff hrest, hstep, if_neg hp]

/-- The highlighting loop does not panic when every position lies in the grid. -/
theorem orHighlight_fold_isSome (mask : Nat) :
    ∀ (ps : List BoardPos) (l : Level),
      (∀ p ∈ ps, ∃ c, l.cellAt (goInt p.1) (goInt p.2) = some c) →
        ∃ l', ps.foldlM (fun l v => l.orHighlight v mask) l = some l' := by
  intro ps
  induction ps with
  | nil => intro l _; exact ⟨l, rfl⟩
  | cons p rest ih =>
    intro l hin
    obtain ⟨c, hc⟩ := hin p (List.mem_cons_self _ _)
    have h1 : ∃ l1, l.orHighlight p mask = some l1 := by
      simp only [Level.orHighlight, hc]
      exact ⟨_, rfl⟩
    obtain ⟨l1, h1⟩ := h1
    obtain ⟨l', h'⟩ := ih l1 (by
      intro q hq
      obtain ⟨d, hd⟩ := hin q (List.mem_cons_of_mem _ hq)
      rw [(cellAt_orHighlight l l1 p mask h1 _ _).2, hd]
      split
      · exact ⟨_, rfl⟩
      · exact ⟨_, rfl⟩)
    refine ⟨l', ?_⟩
    simp only [List.foldlM_cons, h1]
    exact h'

/-! ## The move action: clicks on a reachable destination -/

theorem found_of_reachable (a : ActionMove) (bx «by» : ℚ)
    (hin : ∃ v ∈ a.reachable, (goInt v.1, goInt v.2) = (goInt bx, goInt «by»)) :
    (a.reachable.any fun v =>
      BoardPos.IntEquals (MakeBoardPos (goInt bx) (goInt «by»)) v) = true := by
  obtain ⟨v, hv, hcell⟩ := hin
  rw [List.any_eq_true]
  exact ⟨v, hv, (IntEquals_click bx «by» v).mpr hcell⟩

/-- A click on a reachable destination whose path passes the guard: the path
is stored, the highlights are redone, and the payment decides the signal. -/
theorem MouseClick_past_guard (env : MoveEnv) (l l2 : Level) (a : ActionMove) (bx «by» : ℚ)
    (first : BoardPos) (rest : List BoardPos)
    (hin : ∃ v ∈ a.reachable, (goInt v.1, goInt v.2) = (goInt bx, goInt «by»))
    (hlen : ¬ (env.Dijkstra l a.Ent [BoardPos.Vertex a.Ent.pos l]
      [BoardPos.Vertex (MakeBoardPos (goInt bx) (goInt «by»)) l]).2.length ≤ 1)
    (hap : ¬ goInt (env.Dijkstra l a.Ent [BoardPos.Vertex a.Ent.pos l]
      [BoardPos.Vertex (MakeBoardPos (goInt bx) (goInt «by»)) l]).1 > a.Ent.CurAp)
    (hpath : ((env.Dijkstra l a.Ent [BoardPos.Vertex a.Ent.pos l]
      [BoardPos.Vertex (MakeBoardPos (goInt bx) (goInt «by»)) l]).2.drop 1).map
        (env.MakeBoardPosFromVertex l) = first :: rest)
    (hmark : (first :: rest).foldlM (fun l v => l.orHighlight v env.Reachable)
      (l.clearCache env.Reachable) = some l2) :
    a.MouseClick env l bx «by» =
      if (env.payForMove l2 a.Ent first).1 then
        some (ActionCommit.StandardAction, l2,
          { Ent := (env.payForMove l2 a.Ent first).2, reachable := [], path := first :: rest })
      else
        some (ActionCommit.NoAction, l2,
          { Ent := (env.payForMove l2 a.Ent first).2, reachable := [], path := [] }) := by
  have hfound := found_of_reachable a bx «by» hin
  have hguard : ¬ ((env.Dijkstra l a.Ent [BoardPos.Vertex a.Ent.pos l]
      [BoardPos.Vertex (MakeBoardPos (goInt bx) (goInt «by»)) l]).2.length ≤ 1 ∨
      goInt (env.Dijkstra l a.Ent [BoardPos.Vertex a.Ent.pos l]
        [BoardPos.Vertex (MakeBoardPos (goInt bx) (goInt «by»)) l]).1 > a.Ent.CurAp) := by
    intro h; rcases h with h | h
    · exact hlen h
    · exact hap h
  unfold ActionMove.MouseClick
  simp only [hfound, Bool.not_true, Bool.false_eq_true, if_false, hguard, hpath, hmark]
  cases hpay : (env.payForMove l2 a.Ent first).1 <;> simp [hpay]

/-- What a click that returned `StandardAction` has done. -/
theorem MouseClick_standard_inv (env : MoveEnv) (l l' : Level) (a a' : ActionMove)
    (bx «by» : ℚ)
    (h : a.MouseClick env l bx «by» = some (ActionCommit.StandardAction, l', a')) :
    a'.path = ((env.Dijkstra l a.Ent [BoardPos.Vertex a.Ent.pos l]
      [BoardPos.Vertex (MakeBoardPos (goInt bx) (goInt «by»)) l]).2.drop 1).map
        (env.MakeBoardPosFromVertex l) ∧
    a'.reachable = [] ∧
    a'.path.foldlM (fun l v => l.orHighlight v env.Reachable) (l.clearCache env.Reachable)
      = some l' := by
  unfold ActionMove.MouseClick at h
  simp only at h
  split at h
  · simp at h
  · split at h
    · simp at h
    · split at h
      · simp at h
      · rename_i l2 hl2
        split at h
        · simp at h
        · rename_i first rest hfirst
          split at h
          · simp at h
          · simp only [Option.some.injEq, Prod.mk.injEq, true_and] at h
            obtain ⟨h1, h2⟩ := h
            subst h1; subst h2
            exact ⟨rfl, rfl, hl2⟩

theorem goInt_three : goInt (3 : ℚ) = 3 := by
  exact_mod_cast goInt_intCast 3

theorem sample_click_reachable :
    ∃ v ∈ sampleAction.reachable, (goInt v.1, goInt v.2) = (goInt 3, goInt 2) :=
  ⟨MakeBoardPos 3 2, by simp [sampleAction], by
    simp only [MakeBoardPos, goInt_intCast, goInt_two, goInt_three]⟩

/-- On a 5 by 5 level the highlighting of the single cell (3,2) does not panic,
and afterwards that cell carries the mask. -/
theorem sample_mark (mask : Nat) (terrainOf : Nat → Nat → Terrain) :
    ∃ l2, [MakeBoardPos 3 2].foldlM (fun l v => l.orHighlight v mask)
        ((terrainLevel 5 5 terrainOf).clearCache mask) = some l2 ∧
      l2.cellAt 3 2 = some { Terrain := terrainOf 3 2, highlight := mask } := by
  have hcell : (terrainLevel 5 5 terrainOf).cellAt 3 2
      = some { Terrain := terrainOf 3 2, highlight := 0 } := rfl
  have hclear : ((terrainLevel 5 5 terrainOf).clearCache mask).cellAt 3 2
      = some { Terrain := terrainOf 3 2, highlight := 0 } := by
    rw [cellAt_clearCache, hcell]; simp
  obtain ⟨l2, h2⟩ := orHighlight_fold_isSome mask [MakeBoardPos 3 2]
    ((terrainLevel 5 5 terrainOf).clearCache mask) (by
      intro p hp
      simp only [List.mem_singleton] at hp
      subst hp
      simp only [MakeBoardPos, goInt_intCast]
      exact ⟨_, hclear⟩)
  refine ⟨l2, h2, ?_⟩
  have hon : onCells [MakeBoardPos 3 2] 3 2 :=
    ⟨MakeBoardPos 3 2, List.mem_singleton_self _, by simp only [MakeBoardPos, goInt_intCast]⟩
  rw [((cellAt_orHighlight_fold mask _ _ _ h2).2 3 2).1 hon, hclear]
  simp

/-- C11, as amended: a click on a reachable destination whose shortest path has
fewer than two vertices, or whose cost truncated to an integer exceeds the
entity's current AP, returns `NoAction` and leaves the action (its path
included) and the level as they were. -/
theorem MouseClick_rejects_truncated_cost (env : MoveEnv) (l : Level) (a : ActionMove)
    (bx «by» : ℚ)
    (hin : ∃ v ∈ a.reachable, (goInt v.1, goInt v.2) = (goInt bx, goInt «by»))
    (hrej : (env.Dijkstra l a.Ent [BoardPos.Vertex a.Ent.pos l]
        [BoardPos.Vertex (MakeBoardPos (goInt bx) (goInt «by»)) l]).2.length < 2 ∨
      goInt (env.Dijkstra l a.Ent [BoardPos.Vertex a.Ent.pos l]
        [BoardPos.Vertex (MakeBoardPos (goInt bx) (goInt «by»)) l]).1 > a.Ent.CurAp) :
    a.MouseClick env l bx «by» = some (ActionCommit.NoAction, l, a) := by
  have hfound := found_of_reachable a bx «by» hin
  have hguard : (env.Dijkstra l a.Ent [BoardPos.Vertex a.Ent.pos l]
      [BoardPos.Vertex (MakeBoardPos (goInt bx) (goInt «by»)) l]).2.length ≤ 1 ∨
      goInt (env.Dijkstra l a.Ent [BoardPos.Vertex a.Ent.pos l]
        [BoardPos.Vertex (MakeBoardPos (goInt bx) (goInt «by»)) l]).1 > a.Ent.CurAp := by
    rcases hrej with h | h
    · left; omega
    · right; exact h
  unfold ActionMove.MouseClick
  simp only [hfound, Bool.not_true, Bool.false_eq_true, if_false, hguard, if_true]

/-- C11 fails as stated: with 3 AP, a click on the reachable cell (3,2) whose
shortest path costs 3.5 is not rejected; it returns `StandardAction` and
commits the path. -/
theorem MouseClick_accepts_fractional_cost :
    (∃ v ∈ sampleAction.reachable, (goInt v.1, goInt v.2) = (goInt 3, goInt 2)) ∧
    fractionalEnv.Dijkstra (terrainLevel 5 5 fun _ _ => 0) sampleAction.Ent
        [BoardPos.Vertex sampleAction.Ent.pos (terrainLevel 5 5 fun _ _ => 0)]
        [BoardPos.Vertex (MakeBoardPos (goInt 3) (goInt 2)) (terrainLevel 5 5 fun _ _ => 0)]
      = (7 / 2, [12, 13]) ∧
    (sampleAction.Ent.CurAp : ℚ) < 7 / 2 ∧
    ∃ l' a', sampleAction.MouseClick fractionalEnv (terrainLevel 5 5 fun _ _ => 0) 3 2
        = some (ActionCommit.StandardAction, l', a') ∧
      a'.path = [MakeBoardPos 3 2] := by
  obtain ⟨l2, hmark, _⟩ := sample_mark 1 fun _ _ => 0
  refine ⟨sample_click_reachable, rfl, by norm_num [sampleAction, sampleEntity, Entity.CurAp],
    l2, { Ent := sampleEntity, reachable := [], path := [MakeBoardPos 3 2] }, ?_, rfl⟩
  rw [MouseClick_past_guard fractionalEnv _ l2 sampleAction 3 2 (MakeBoardPos 3 2) []
    sample_click_reachable (by simp [fractionalEnv])
    (by
      have h : goInt (7 / 2 : ℚ) = 3 := by norm_num [goInt]
      simp [fractionalEnv, h, sampleAction, sampleEntity, Entity.CurAp])
    (by simp [fractionalEnv]) hmark]
  simp [fractionalEnv, sampleAction]

/-- C12: whenever `MouseClick` returns `StandardAction`, the stored path is the
shortest-path vertex sequence without its first vertex, converted to board
positions in the same order; the stored reachable set is empty; and a cell of
the level carries the `Reachable` flag exactly when it lies on that path. -/
theorem MouseClick_commits_path (env : MoveEnv) (l l' : Level) (a a' : ActionMove)
    (bx «by» : ℚ) (hflag : env.Reachable ≠ 0)
    (h : a.MouseClick env l bx «by» = some (ActionCommit.StandardAction, l', a')) :
    a'.path = ((env.Dijkstra l a.Ent [BoardPos.Vertex a.Ent.pos l]
      [BoardPos.Vertex (MakeBoardPos (goInt bx) (goInt «by»)) l]).2.drop 1).map
        (env.MakeBoardPosFromVertex l) ∧
    a'.reachable = [] ∧
    ∀ (x y : Int) (c : Cell), l'.cellAt x y = some c →
      (c.hasFlag env.Reachable ↔ onCells a'.path x y) := by
  obtain ⟨hpath, hreach, hfold⟩ := MouseClick_standard_inv env l l' a a' bx «by» h
  refine ⟨hpath, hreach, fun x y c hc => ?_⟩
  obtain ⟨hon, hoff⟩ := (cellAt_orHighlight_fold env.Reachable _ _ _ hfold).2 x y
  by_cases hcell : onCells a'.path x y
  · rw [hon hcell, cellAt_clearCache] at hc
    cases h0 : l.cellAt x y with
    | none => rw [h0] at hc; simp at hc
    | some c0 =>
      rw [h0] at hc
      simp only [Option.map_some', Option.some.injEq] at hc
      subst hc
      simp only [Cell.hasFlag, or_and_self_mask]
      exact ⟨fun _ => hcell, fun _ => hflag⟩
  · rw [hoff hcell, cellAt_clearCache] at hc
    cases h0 : l.cellAt x y with
    | none => rw [h0] at hc; simp at hc
    | some c0 =>
      rw [h0] at hc
      simp only [Option.map_some', Option.some.injEq] at hc
      subst hc
      simp only [Cell.hasFlag, cleared_and_mask]
      exact ⟨fun hne => absurd rfl hne, fun hon' => absurd hon' hcell⟩

/-- C18 fails on the code: with a payment that is refused, a click on the
reachable cell (3,2) returns `NoAction`, yet the stored reachable set has been
emptied and the highlight of the cell (3,2) has changed. -/
theorem MouseClick_refused_payment_changes_state :
    ∃ l' a', sampleAction.MouseClick refusingEnv (terrainLevel 5 5 fun _ _ => 0) 3 2
        = some (ActionCommit.NoAction, l', a') ∧
      a'.reachable = [] ∧ sampleAction.reachable ≠ [] ∧
      (terrainLevel 5 5 fun _ _ => 0).cellAt 3 2 = some { Terrain := 0, highlight := 0 } ∧
      l'.cellAt 3 2 = some { Terrain := 0, highlight := 1 } := by
  obtain ⟨l2, hmark, hcell⟩ := sample_mark 1 fun _ _ => 0
  refine ⟨l2, { Ent := sampleEntity, reachable := [], path := [] }, ?_, rfl,
    by simp [sampleAction], rfl, hcell⟩
  rw [MouseClick_past_guard refusingEnv _ l2 sampleAction 3 2 (MakeBoardPos 3 2) []
    sample_click_reachable (by simp [refusingEnv])
    (by
      have h : goInt (1 : ℚ) = 1 := by exact_mod_cast goInt_intCast 1
      simp [refusingEnv, h, sampleAction, sampleEntity, Entity.CurAp])
    (by simp [refusingEnv]) hmark]
  simp [refusingEnv, sampleAction]

/-- C20: `Maintain` returns `Complete` exactly when the movement driver reports
the path finished, and then the reachable set and the path are empty and the
`Reachable` flag is cleared on the level; otherwise it returns
`CheckForInterrupts` exactly when the path is strictly shorter than before the
call and `InProgress` in every remaining case, with the driver's entity and
path stored and the level untouched. -/
theorem Maintain_status (advanceEntity : AdvanceEntity) (env : MoveEnv) (l : Level)
    (a : ActionMove) (dt : Int) :
    ((a.Maintain advanceEntity env l dt).1 = MaintenanceStatus.Complete ↔
      (advanceEntity l a.Ent a.path dt).1 = true) ∧
    ((advanceEntity l a.Ent a.path dt).1 = true →
      (a.Maintain advanceEntity env l dt).2.2.reachable = [] ∧
      (a.Maintain advanceEntity env l dt).2.2.path = [] ∧
      (a.Maintain advanceEntity env l dt).2.1 = l.clearCache env.Reachable) ∧
    ((a.Maintain advanceEntity env l dt).1 = MaintenanceStatus.CheckForInterrupts ↔
      (advanceEntity l a.Ent a.path dt).1 = false ∧
      (advanceEntity l a.Ent a.path dt).2.2.length < a.path.length) ∧
    ((a.Maintain advanceEntity env l dt).1 = MaintenanceStatus.InProgress ↔
      (advanceEntity l a.Ent a.path dt).1 = false ∧
      ¬ (advanceEntity l a.Ent a.path dt).2.2.length < a.path.length) ∧
    ((advanceEntity l a.Ent a.path dt).1 = false →
      (a.Maintain advanceEntity env l dt).2.2 =
        { Ent := (advanceEntity l a.Ent a.path dt).2.1, reachable := a.reachable,
          path := (advanceEntity l a.Ent a.path dt).2.2 } ∧
      (a.Maintain advanceEntity env l dt).2.1 = l) := by
  unfold ActionMove.Maintain
  generalize advanceEntity l a.Ent a.path dt = r
  obtain ⟨finished, ent, path⟩ := r
  cases finished
  · by_cases hlt : path.length < a.path.length <;> simp [hlt]
  · simp [ActionMove.Cancel]

/-- C13: `Prep` returns false exactly when the bounded reachability from the
entity's cell with budget `CurAp` is empty, and then nothing is stored and the
level is as it was; otherwise, when it returns, it returns true, the reachable
positions are stored, every reachable cell has the `Reachable` flag added to
its highlight and nothing else changed, and every other cell is as it was; and
it does return when every reachable position lies in the grid. -/
theorem Prep_marks_reachable (reachableWithinLimit : ReachableWithinLimit) (env : MoveEnv)
    (l : Level) (a : ActionMove) :
    (reachableWithinLimit l a.Ent [l.toVertex (goInt a.Ent.pos.1) (goInt a.Ent.pos.2)]
        (a.Ent.CurAp : ℚ) = [] →
      a.Prep reachableWithinLimit env l = some (false, l, a)) ∧
    (reachableWithinLimit l a.Ent [l.toVertex (goInt a.Ent.pos.1) (goInt a.Ent.pos.2)]
        (a.Ent.CurAp : ℚ) ≠ [] →
      (∀ (ok : Bool) (l' : Level) (a' : ActionMove),
        a.Prep reachableWithinLimit env l = some (ok, l', a') →
          ok = true ∧
          a' = { a with reachable :=
            (reachableWithinLimit l a.Ent
              [l.toVertex (goInt a.Ent.pos.1) (goInt a.Ent.pos.2)]
              (a.Ent.CurAp : ℚ)).map (env.MakeBoardPosFromVertex l) } ∧
          ∀ x y : Int,
            (onCells a'.reachable x y → l'.cellAt x y = (l.cellAt x y).map fun c =>
              { c with highlight := c.highlight ||| env.Reachable }) ∧
            (¬ onCells a'.reachable x y → l'.cellAt x y = l.cellAt x y)) ∧
      ((∀ p ∈ (reachableWithinLimit l a.Ent
            [l.toVertex (goInt a.Ent.pos.1) (goInt a.Ent.pos.2)]
            (a.Ent.CurAp : ℚ)).map (env.MakeBoardPosFromVertex l),
          ∃ c, l.cellAt (goInt p.1) (goInt p.2) = some c) →
        ∃ l' a', a.Prep reachableWithinLimit env l = some (true, l', a'))) := by
  generalize hr : reachableWithinLimit l a.Ent
    [l.toVertex (goInt a.Ent.pos.1) (goInt a.Ent.pos.2)] (a.Ent.CurAp : ℚ) = reachable
  refine ⟨?_, fun hne => ⟨?_, ?_⟩⟩
  · intro hnil
    subst hnil
    simp only [ActionMove.Prep, hr, List.length_nil, if_true]
  · intro ok l' a' h
    have hlen : ¬ reachable.length = 0 := fun h0 => hne (List.eq_nil_of_length_eq_zero h0)
    simp only [ActionMove.Prep, hr, hlen, if_false] at h
    split at h
    · simp at h
    · rename_i l2 hl2
      simp only [Option.some.injEq, Prod.mk.injEq] at h
      obtain ⟨h1, h2, h3⟩ := h
      subst h1; subst h2; subst h3
      exact ⟨rfl, rfl, (cellAt_orHighlight_fold env.Reachable _ _ _ hl2).2⟩
  · intro hin
    have hlen : ¬ reachable.length = 0 := fun h0 => hne (List.eq_nil_of_length_eq_zero h0)
    obtain ⟨l2, hl2⟩ := orHighlight_fold_isSome env.Reachable _ l hin
    refine ⟨l2, { a with reachable := reachable.map (env.MakeBoardPosFromVertex l) }, ?_⟩
    simp only [ActionMove.Prep, hr, hlen, if_false, hl2]

/-! ## Derived keys -/

/-- The loop of `binding.CurPressAmt` from index `i`: it does not panic when
`Down` is long enough, and it runs to its end exactly when every remaining
modifier matches its `Down` entry. -/
theorem binding_loop_spec (key_map : KeyMap) (Down : List Bool) :
    ∀ (mods : List KeyId) (i : Nat), i + mods.length ≤ Down.length →
      ∃ r, binding.loop key_map Down mods i = some r ∧
        (r = false ↔ ∀ (j : Nat) (m : KeyId) (d : Bool),
          mods[j]? = some m → Down[i + j]? = some d → decide (key_map m ≠ 0) = d) := by
  intro mods
  induction mods with
  | nil =>
    intro i _
    exact ⟨false, rfl, by simp⟩
  | cons m rest ih =>
    intro i hlen
    simp only [List.length_cons] at hlen
    have hi : i < Down.length := by omega
    have hd : Down.get? i = some Down[i] := by
      rw [List.get?_eq_getElem?]; exact List.getElem?_eq_getElem hi
    simp only [binding.loop, hd]
    by_cases hmatch : decide (key_map m ≠ 0) = Down[i]
    · obtain ⟨r, hr, hiff⟩ := ih (i + 1) (by omega)
      refine ⟨r, ?_, ?_⟩
      · simp only [hmatch, bne_self_eq_false, Bool.false_eq_true, if_false]
        exact hr
      · rw [hiff]
        constructor
        · intro hall j m' d hm hdj
          cases j with
          | zero =>
            simp only [List.getElem?_cons_zero, Option.some.injEq] at hm
            subst hm
            rw [Nat.add_zero, List.getElem?_eq_getElem hi, Option.some.injEq] at hdj
            rw [← hdj]; exact hmatch
          | succ j =>
            simp only [List.getElem?_cons_succ] at hm
            exact hall j m' d hm (by rw [← hdj]; congr 1; omega)
        · intro hall j m' d hm hdj
          exact hall (j + 1) m' d (by simpa using hm) (by rw [← hdj]; congr 1; omega)
    · refine ⟨true, ?_, ?_⟩
      · have hne : (decide (key_map m ≠ 0) != Down[i]) = true := by
          rw [bne_iff_ne]; exact hmatch
        simp only [hne, if_true]
      · constructor
        · intro h; cases h
        · intro hall
          exact absurd (hall 0 m Down[i] (by simp)
            (by rw [Nat.add_zero]; exact List.getElem?_eq_getElem hi)) hmatch

/-- C16: for a binding whose `Down` is at least as long as `Modifiers`, and
every key state, `CurPressAmt` returns; the amount is non-zero exactly when the
primary key's amount is non-zero and every modifier's being pressed agrees
with its `Down` entry; and a non-zero amount is the primary key's amount. -/
theorem binding_CurPressAmt_down (key_map : KeyMap) (b : binding)
    (hlen : b.Modifiers.length ≤ b.Down.length) :
    ∃ r, b.CurPressAmt key_map = some r ∧
      (r ≠ 0 ↔ key_map b.PrimaryKey ≠ 0 ∧
        ∀ (i : Nat) (m : KeyId) (d : Bool),
          b.Modifiers[i]? = some m → b.Down[i]? = some d → decide (key_map m ≠ 0) = d) ∧
      (r ≠ 0 → r = key_map b.PrimaryKey) := by
  obtain ⟨early, hloop, hiff⟩ := binding_loop_spec key_map b.Down b.Modifiers 0 (by omega)
  simp only [Nat.zero_add] at hiff
  cases early with
  | false =>
    refine ⟨key_map b.PrimaryKey, by simp only [binding.CurPressAmt, hloop], ?_, fun _ => rfl⟩
    exact ⟨fun h => ⟨h, hiff.mp rfl⟩, fun h => h.1⟩
  | true =>
    refine ⟨0, by simp only [binding.CurPressAmt, hloop], ?_, fun h => absurd rfl h⟩
    constructor
    · intro h; exact absurd rfl h
    · intro h
      have := hiff.mpr h.2
      cases this

/-- C17 fails on the code: both bindings of `twoBindings` are down (their
amounts are 1 and -1), and the amount of the derived key, their sum, is 0. -/
theorem derivedKey_sum_cancels :
    (∀ b ∈ twoBindings.Bindings, ∃ r, b.CurPressAmt opposedKeys = some r ∧ r ≠ 0) ∧
    twoBindings.CurPressAmt opposedKeys = some 0 := by
  constructor
  · intro b hb
    simp only [twoBindings, List.mem_cons, List.mem_singleton, List.not_mem_nil,
      or_false] at hb
    rcases hb with rfl | rfl
    · exact ⟨1, by simp [binding.CurPressAmt, binding.loop, opposedKeys], by norm_num⟩
    · exact ⟨-1, by simp [binding.CurPressAmt, binding.loop, opposedKeys], by norm_num⟩
  · simp [derivedKey.CurPressAmt, twoBindings, binding.CurPressAmt, binding.loop, opposedKeys]

/-- When no binding is down, the amount of a derived key is zero. -/
theorem derivedKey_CurPressAmt_none_down (key_map : KeyMap) :
    ∀ (bs : List binding) (sum : ℚ),
      (∀ b ∈ bs, b.CurPressAmt key_map = some 0) →
        bs.foldlM (fun sum b => (b.CurPressAmt key_map).map fun amt => sum + amt) sum
          = some sum := by
  intro bs
  induction bs with
  | nil => intro sum _; rfl
  | cons b rest ih =>
    intro sum h
    simp only [List.foldlM_cons, h b (List.mem_cons_self _ _), Option.map_some', add_zero]
    exact ih sum fun c hc => h c (List.mem_cons_of_mem _ hc)

theorem MouseClick_rejects_truncated_cost_witness :
    sampleAction.MouseClick sampleEnv (terrainLevel 5 5 fun _ _ => 0) 3 2
      = some (ActionCommit.NoAction, terrainLevel 5 5 fun _ _ => 0, sampleAction) :=
  MouseClick_rejects_truncated_cost sampleEnv (terrainLevel 5 5 fun _ _ => 0) sampleAction 3 2
    sample_click_reachable (Or.inl (by simp [sampleEnv]))

theorem MouseClick_commits_path_witness :
    ∃ l' a', sampleAction.MouseClick payingEnv (terrainLevel 5 5 fun _ _ => 0) 3 2
        = some (ActionCommit.StandardAction, l', a') ∧
      a'.path = ((payingEnv.Dijkstra (terrainLevel 5 5 fun _ _ => 0) sampleAction.Ent
          [BoardPos.Vertex sampleAction.Ent.pos (terrainLevel 5 5 fun _ _ => 0)]
          [BoardPos.Vertex (MakeBoardPos (goInt 3) (goInt 2))
            (terrainLevel 5 5 fun _ _ => 0)]).2.drop 1).map
        (payingEnv.MakeBoardPosFromVertex (terrainLevel 5 5 fun _ _ => 0)) ∧
      a'.reachable = [] ∧
      ∀ (x y : Int) (c : Cell), l'.cellAt x y = some c →
        (c.hasFlag payingEnv.Reachable ↔ onCells a'.path x y) := by
  obtain ⟨l2, hmark, _⟩ := sample_mark 1 fun _ _ => 0
  have hclick : sampleAction.MouseClick payingEnv (terrainLevel 5 5 fun _ _ => 0) 3 2
      = some (ActionCommit.StandardAction, l2,
          { Ent := sampleEntity, reachable := [], path := [MakeBoardPos 3 2] }) := by
    rw [MouseClick_past_guard payingEnv _ l2 sampleAction 3 2 (MakeBoardPos 3 2) []
      sample_click_reachable (by simp [payingEnv])
      (by
        have h : goInt (1 : ℚ) = 1 := by exact_mod_cast goInt_intCast 1
        simp [payingEnv, h, sampleAction, sampleEntity, Entity.CurAp])
      (by simp [payingEnv]) hmark]
    simp [payingEnv, sampleAction]
  exact ⟨l2, _, hclick,
    MouseClick_commits_path payingEnv _ l2 sampleAction _ 3 2 (by decide) hclick⟩

theorem binding_CurPressAmt_down_witness :
    ∃ r, chordBinding.CurPressAmt opposedKeys = some r ∧
      (r ≠ 0 ↔ opposedKeys chordBinding.PrimaryKey ≠ 0 ∧
        ∀ (i : Nat) (m : KeyId) (d : Bool),
          chordBinding.Modifiers[i]? = some m → chordBinding.Down[i]? = some d →
            decide (opposedKeys m ≠ 0) = d) ∧
      (r ≠ 0 → r = opposedKeys chordBinding.PrimaryKey) :=
  binding_CurPressAmt_down opposedKeys chordBinding (by decide)

/-! ## The movement driver -/

theorem Entity.enterCell_frame (costToMove : CostToMove) (l : Level) (e e' : Entity)
    (x y : Int) (h : e.enterCell costToMove l x y = some e') :
    e'.pos = e.pos ∧ e'.path = e.path := by
  simp only [Entity.enterCell] at h
  obtain ⟨_, _, _, h4, _, h6⟩ := Entity.figureVisibility_frame l _ e' h
  constructor
  · rw [h4]; split <;> rfl
  · rw [h6]; split <;> rfl

theorem Run.plus_ne_outOfFuel {α : Type} (d : ℚ) (r : Run (α × ℚ))
    (h : r ≠ Run.outOfFuel) : r.plus d ≠ Run.outOfFuel := by
  cases r with
  | outOfFuel => exact absurd rfl h
  | panicked => simp [Run.plus]
  | returned a => obtain ⟨a, m⟩ := a; simp [Run.plus]

/-- One call of `advance` on an empty path returns at once. -/
theorem Entity.advance_nil {S : Type} (drv : Driver S) (costToMove : CostToMove) (l : Level)
    (fuel : Nat) (s : S) (e : Entity) (dist : ℚ) (hpath : e.path = []) :
    Entity.advance drv costToMove l (fuel + 1) s e dist
      = Run.returned ((if drv.CurState s ≠ "ready" then drv.Command s "stop" else s, e), 0) := by
  rw [Entity.advance]
  simp only [hpath]

/-- One call of `advance` on a path that starts with the waypoint `w`. -/
theorem Entity.advance_cons {S : Type} (drv : Driver S) (costToMove : CostToMove) (l : Level)
    (fuel : Nat) (s : S) (e : Entity) (dist : ℚ) (w : Point) (rest : List Point)
    (hpath : e.path = w :: rest) :
    Entity.advance drv costToMove l (fuel + 1) s e dist =
      if drv.CurAnim (drv.wake s) ≠ "walk" then Run.returned ((drv.wake s, e), 0)
      else if dist ≤ 0 then Run.returned ((drv.wake s, e), 0)
      else if distTo drv.Length e.pos w ≤ 1 / 100000 then
        match e.enterCell costToMove l w.1 w.2 with
        | none => Run.panicked
        | some e2 =>
          Entity.advance drv costToMove l fuel (drv.wake s) { e2 with path := e2.path.drop 1 }
            (dist - distTo drv.Length e.pos w)
      else
        (Entity.advance drv costToMove l fuel
          (if distTo drv.Length e.pos w > dist then
            Entity.turnToFace drv (drv.wake s) (e.stepToward drv w dist) (waypoint w)
          else drv.wake s)
          (e.stepToward drv w dist)
          (dist - min dist (distTo drv.Length e.pos w))).plus
          (min dist (distTo drv.Length e.pos w)) := by
  have hfd : min dist (distTo drv.Length e.pos w)
      = if dist > distTo drv.Length e.pos w then distTo drv.Length e.pos w else dist := by
    split
    · rw [min_eq_right (by linarith)]
    · rw [min_eq_left (by linarith)]
  rw [Entity.advance]
  simp only [hpath, Entity.stepToward, hfd]
  rfl

/-- One call of `advance` whose sprite is not in its walking animation, or
whose budget is spent, returns at once. -/
theorem Entity.advance_halt {S : Type} (drv : Driver S) (costToMove : CostToMove) (l : Level)
    (fuel : Nat) (s : S) (e : Entity) (dist : ℚ) (w : Point) (rest : List Point)
    (hpath : e.path = w :: rest) (h : drv.CurAnim (drv.wake s) ≠ "walk" ∨ dist ≤ 0) :
    Entity.advance drv costToMove l (fuel + 1) s e dist
      = Run.returned ((drv.wake s, e), 0) := by
  rw [Entity.advance_cons drv costToMove l fuel s e dist w rest hpath]
  by_cases hw : drv.CurAnim (drv.wake s) ≠ "walk"
  · rw [if_pos hw]
  · rw [if_neg hw, if_pos (h.resolve_left hw)]

/-- One call of `advance` within the snap distance of its waypoint enters the
cell, pops the waypoint and goes on with the budget less the distance. -/
theorem Entity.advance_snap {S : Type} (drv : Driver S) (costToMove : CostToMove) (l : Level)
    (fuel : Nat) (s : S) (e : Entity) (dist : ℚ) (w : Point) (rest : List Point)
    (hpath : e.path = w :: rest) (hwalk : drv.CurAnim (drv.wake s) = "walk")
    (hdist : 0 < dist) (hnear : distTo drv.Length e.pos w ≤ 1 / 100000) :
    Entity.advance drv costToMove l (fuel + 1) s e dist =
      match e.enterCell costToMove l w.1 w.2 with
      | none => Run.panicked
      | some e2 =>
        Entity.advance drv costToMove l fuel (drv.wake s) { e2 with path := e2.path.drop 1 }
          (dist - distTo drv.Length e.pos w) := by
  rw [Entity.advance_cons drv costToMove l fuel s e dist w rest hpath,
    if_neg (not_not.mpr hwalk), if_neg (not_le.mpr hdist), if_pos hnear]

/-- One call of `advance` farther than the snap distance from its waypoint
moves toward it by the smaller of the budget and the distance, and goes on
with the rest of the budget; the sprite is turned only when the waypoint is
not reached. -/
theorem Entity.advance_move {S : Type} (drv : Driver S) (costToMove : CostToMove) (l : Level)
    (fuel : Nat) (s : S) (e : Entity) (dist : ℚ) (w : Point) (rest : List Point)
    (hpath : e.path = w :: rest) (hwalk : drv.CurAnim (drv.wake s) = "walk")
    (hdist : 0 < dist) (hfar : ¬ distTo drv.Length e.pos w ≤ 1 / 100000) :
    ∃ s2, (distTo drv.Length e.pos w ≤ dist → s2 = drv.wake s) ∧
      Entity.advance drv costToMove l (fuel + 1) s e dist =
        (Entity.advance drv costToMove l fuel s2 (e.stepToward drv w dist)
          (dist - min dist (distTo drv.Length e.pos w))).plus
          (min dist (distTo drv.Length e.pos w)) := by
  rw [Entity.advance_cons drv costToMove l fuel s e dist w rest hpath,
    if_neg (not_not.mpr hwalk), if_neg (not_le.mpr hdist), if_neg hfar]
  by_cases hturn : distTo drv.Length e.pos w > dist
  · exact ⟨_, fun hle => absurd hle (not_le.mpr hturn), by rw [if_pos hturn]⟩
  · exact ⟨_, fun _ => rfl, by rw [if_neg hturn]⟩

/-- Moving by the whole distance ends on the waypoint. -/
theorem moveToward_arrive (pos : ℚ × ℚ) (w : Point) (moved : ℚ) (hne : moved ≠ 0) :
    moveToward pos w moved moved = waypoint w := by
  unfold moveToward
  refine Prod.ext ?_ ?_
  · simp only; field_simp
  · simp only; field_simp

theorem distTo_waypoint_self (len : ℚ × ℚ → ℚ) (hzero : len (0, 0) = 0) (w : Point) :
    distTo len (waypoint w) w = 0 := by
  simp only [distTo, sub_self]
  exact hzero

/-- A call that halts or snaps at once, on a path of `n + 1` waypoints, makes
at most `2 * n + 2` calls when shorter paths obey the bound. -/
theorem Entity.advance_pop_bound {S : Type} (drv : Driver S) (costToMove : CostToMove)
    (l : Level) (n : Nat)
    (ih : ∀ (fuel : Nat) (s : S) (e : Entity) (dist : ℚ), e.path.length = n →
      2 * n + 1 ≤ fuel → Entity.advance drv costToMove l fuel s e dist ≠ Run.outOfFuel)
    (fuel : Nat) (s : S) (e : Entity) (dist : ℚ) (w : Point) (rest : List Point)
    (hpath : e.path = w :: rest) (hlen : rest.length = n) (hfuel : 2 * n + 1 ≤ fuel)
    (hnext : dist ≤ 0 ∨ distTo drv.Length e.pos w ≤ 1 / 100000) :
    Entity.advance drv costToMove l (fuel + 1) s e dist ≠ Run.outOfFuel := by
  by_cases hhalt : drv.CurAnim (drv.wake s) ≠ "walk" ∨ dist ≤ 0
  · rw [Entity.advance_halt drv costToMove l fuel s e dist w rest hpath hhalt]
    exact fun h => Run.noConfusion h
  · have hwalk : drv.CurAnim (drv.wake s) = "walk" := by
      by_contra hc; exact hhalt (Or.inl hc)
    have hdist : 0 < dist := by
      by_contra hc; exact hhalt (Or.inr (not_lt.mp hc))
    have hnear : distTo drv.Length e.pos w ≤ 1 / 100000 :=
      hnext.resolve_left (not_le.mpr hdist)
    rw [Entity.advance_snap drv costToMove l fuel s e dist w rest hpath hwalk hdist hnear]
    cases hent : e.enterCell costToMove l w.1 w.2 with
    | none => exact fun h => Run.noConfusion h
    | some e2 =>
      have hp := (Entity.enterCell_frame costToMove l e e2 w.1 w.2 hent).2
      exact ih fuel _ _ _ (by simp [hp, hpath, hlen]) hfuel

/-- With `Length (0, 0) = 0`, a call of `advance` on a path of `n` waypoints
makes at most `2 * n + 1` calls. -/
theorem Entity.advance_bound {S : Type} (drv : Driver S) (costToMove : CostToMove) (l : Level)
    (hzero : drv.Length (0, 0) = 0) :
    ∀ (n fuel : Nat) (s : S) (e : Entity) (dist : ℚ), e.path.length = n →
      2 * n + 1 ≤ fuel → Entity.advance drv costToMove l fuel s e dist ≠ Run.outOfFuel := by
  intro n
  induction n with
  | zero =>
    intro fuel s e dist hlen hfuel
    obtain ⟨f, rfl⟩ : ∃ f, fuel = f + 1 := ⟨fuel - 1, by omega⟩
    rw [Entity.advance_nil drv costToMove l f s e dist (List.eq_nil_of_length_eq_zero hlen)]
    exact fun h => Run.noConfusion h
  | succ n ih =>
    intro fuel s e dist hlen hfuel
    obtain ⟨f, rfl⟩ : ∃ f, fuel = f + 1 := ⟨fuel - 1, by omega⟩
    obtain ⟨w, rest, hpath⟩ : ∃ w rest, e.path = w :: rest := by
      cases hp : e.path with
      | nil => rw [hp] at hlen; simp at hlen
      | cons w rest => exact ⟨w, rest, rfl⟩
    have hrest : rest.length = n := by rw [hpath] at hlen; simpa using hlen
    by_cases hnext : dist ≤ 0 ∨ distTo drv.Length e.pos w ≤ 1 / 100000
    · exact Entity.advance_pop_bound drv costToMove l n ih f s e dist w rest hpath hrest
        (by omega) hnext
    · have hdist : 0 < dist := by
        by_contra hc; exact hnext (Or.inl (not_lt.mp hc))
      have hfar : ¬ distTo drv.Length e.pos w ≤ 1 / 100000 := fun hc => hnext (Or.inr hc)
      by_cases hwalk : drv.CurAnim (drv.wake s) = "walk"
      · obtain ⟨s2, _, hmove⟩ :=
          Entity.advance_move drv costToMove l f s e dist w rest hpath hwalk hdist hfar
        rw [hmove]
        apply Run.plus_ne_outOfFuel
        obtain ⟨f', rfl⟩ : ∃ f', f = f' + 1 := ⟨f - 1, by omega⟩
        apply Entity.advance_pop_bound drv costToMove l n ih f' s2 _ _ w rest
          (by simp [Entity.stepToward, hpath]) hrest (by omega)
        by_cases hreach : distTo drv.Length e.pos w ≤ dist
        · right
          have hne : distTo drv.Length e.pos w ≠ 0 := by
            intro h0; rw [h0] at hfar; norm_num at hfar
          simp only [Entity.stepToward, min_eq_right hreach, moveToward_arrive _ _ _ hne,
            distTo_waypoint_self _ hzero]
          norm_num
        · left
          rw [min_eq_left (le_of_lt (not_le.mp hreach))]
          simp
      · rw [Entity.advance_halt drv costToMove l f s e dist w rest hpath (Or.inl hwalk)]
        exact fun h => Run.noConfusion h

/-- A run that has not run out of calls is not changed by one more call. -/
theorem Entity.advance_fuel_succ {S : Type} (drv : Driver S) (costToMove : CostToMove)
    (l : Level) :
    ∀ (fuel : Nat) (s : S) (e : Entity) (dist : ℚ),
      Entity.advance drv costToMove l fuel s e dist ≠ Run.outOfFuel →
      Entity.advance drv costToMove l (fuel + 1) s e dist
        = Entity.advance drv costToMove l fuel s e dist := by
  intro fuel
  induction fuel with
  | zero => intro s e dist h; exact absurd rfl h
  | succ f ih =>
    intro s e dist h
    cases hp : e.path with
    | nil =>
      rw [Entity.advance_nil drv costToMove l (f + 1) s e dist hp,
        Entity.advance_nil drv costToMove l f s e dist hp]
    | cons w rest =>
      rw [Entity.advance_cons drv costToMove l f s e dist w rest hp] at h
      rw [Entity.advance_cons drv costToMove l (f + 1) s e dist w rest hp,
        Entity.advance_cons drv costToMove l f s e dist w rest hp]
      by_cases h1 : drv.CurAnim (drv.wake s) ≠ "walk"
      · rw [if_pos h1, if_pos h1]
      · rw [if_neg h1] at h ⊢
        rw [if_neg h1]
        by_cases h2 : dist ≤ 0
        · rw [if_pos h2, if_pos h2]
        · rw [if_neg h2] at h ⊢
          rw [if_neg h2]
          by_cases h3 : distTo drv.Length e.pos w ≤ 1 / 100000
          · rw [if_pos h3] at h ⊢
            rw [if_pos h3]
            cases hc : e.enterCell costToMove l w.1 w.2 with
            | none => rfl
            | some e2 =>
              rw [hc] at h
              exact ih _ _ _ h
          · rw [if_neg h3] at h ⊢
            rw [if_neg h3]
            rw [ih _ _ _ (fun h0 => h (by rw [h0]; rfl))]

/-- A run that has not run out of calls is not changed by more calls. -/
theorem Entity.advance_fuel_mono {S : Type} (drv : Driver S) (costToMove : CostToMove)
    (l : Level) (fuel : Nat) (s : S) (e : Entity) (dist : ℚ)
    (h : Entity.advance drv costToMove l fuel s e dist ≠ Run.outOfFuel) :
    ∀ k : Nat, Entity.advance drv costToMove l (fuel + k) s e dist
      = Entity.advance drv costToMove l fuel s e dist := by
  intro k
  induction k with
  | zero => rfl
  | succ k ih =>
    rw [← Nat.add_assoc, Entity.advance_fuel_succ drv costToMove l (fuel + k) s e dist
      (by rw [ih]; exact h), ih]

/-! ## The movement driver over an ordered field -/

/-- Recomputing visibility changes the visible set only. -/
theorem EntityIn.visibility_frame {K : Type} [LinearOrderedField K] [FloorRing K]
    (l : Level) (e e' : EntityIn K) (h : e.figureVisibility l = some e') :
    e'.Base = e.Base ∧ e'.Health = e.Health ∧ e'.AP = e.AP ∧ e'.pos = e.pos ∧
      e'.prev_pos = e.prev_pos ∧ e'.path = e.path := by
  unfold EntityIn.figureVisibility at h
  split at h
  · simp at h
  · simp only [Option.some.injEq] at h
    subst h
    exact ⟨rfl, rfl, rfl, rfl, rfl, rfl⟩

/-- Recomputing visibility returns when the entity stands inside a
rectangular grid. -/
theorem EntityIn.visibility_isSome {K : Type} [LinearOrderedField K] [FloorRing K]
    (l : Level) (w h : Nat) (e : EntityIn K) (hrect : l.Rect w h)
    (hx : 0 ≤ goIntIn e.pos.1 ∧ goIntIn e.pos.1 < w)
    (hy : 0 ≤ goIntIn e.pos.2 ∧ goIntIn e.pos.2 < h) :
    ∃ e', e.figureVisibility l = some e' := by
  obtain ⟨s, _, hs, _, _, _⟩ :=
    figureVisibilityAt_rel e.Base.attributes e.Base.attributes l w h rfl hrect _ _ hx hy
      (le_refl _) rfl
  simp only [EntityIn.figureVisibility, hs]
  exact ⟨_, rfl⟩

theorem EntityIn.enterCell_keeps {K : Type} [LinearOrderedField K] [FloorRing K]
    (costToMove : CostToMove) (l : Level) (e e' : EntityIn K) (x y : Int)
    (h : e.enterCell costToMove l x y = some e') : e'.pos = e.pos ∧ e'.path = e.path := by
  simp only [EntityIn.enterCell] at h
  obtain ⟨_, _, _, h4, _, h6⟩ := EntityIn.visibility_frame l _ e' h
  constructor
  · rw [h4]; split <;> rfl
  · rw [h6]; split <;> rfl

/-- Entering a cell returns when the entity stands inside a rectangular grid. -/
theorem EntityIn.enterCell_isSome {K : Type} [LinearOrderedField K] [FloorRing K]
    (costToMove : CostToMove) (l : Level) (w h : Nat) (e : EntityIn K) (x y : Int)
    (hrect : l.Rect w h) (hx : 0 ≤ goIntIn e.pos.1 ∧ goIntIn e.pos.1 < w)
    (hy : 0 ≤ goIntIn e.pos.2 ∧ goIntIn e.pos.2 < h) :
    ∃ e', e.enterCell costToMove l x y = some e' := by
  simp only [EntityIn.enterCell]
  apply EntityIn.visibility_isSome l w h _ hrect
  · split <;> exact hx
  · split <;> exact hy

/-- One call of `advance` on an empty path returns at once. -/
theorem EntityIn.advance_empty {K : Type} [LinearOrderedField K] [FloorRing K] {S : Type}
    (drv : DriverIn K S) (costToMove : CostToMove) (l : Level)
    (fuel : Nat) (s : S) (e : EntityIn K) (dist : K) (hpath : e.path = []) :
    EntityIn.advance drv costToMove l (fuel + 1) s e dist
      = Run.returned (if drv.CurState s ≠ "ready" then drv.Command s "stop" else s, e) := by
  rw [EntityIn.advance]
  simp only [hpath]

/-- One call of `advance` on a path that starts with the waypoint `w`. -/
theorem EntityIn.advance_step {K : Type} [LinearOrderedField K] [FloorRing K] {S : Type}
    (drv : DriverIn K S) (costToMove : CostToMove) (l : Level)
    (fuel : Nat) (s : S) (e : EntityIn K) (dist : K) (w : Point) (rest : List Point)
    (hpath : e.path = w :: rest) :
    EntityIn.advance drv costToMove l (fuel + 1) s e dist =
      if drv.CurAnim (drv.wake s) ≠ "walk" then Run.returned (drv.wake s, e)
      else if dist ≤ 0 then Run.returned (drv.wake s, e)
      else if distToIn drv.Length e.pos w ≤ 1 / 100000 then
        match e.enterCell costToMove l w.1 w.2 with
        | none => Run.panicked
        | some e2 =>
          EntityIn.advance drv costToMove l fuel (drv.wake s) { e2 with path := e2.path.drop 1 }
            (dist - distToIn drv.Length e.pos w)
      else
        EntityIn.advance drv costToMove l fuel
          (if distToIn drv.Length e.pos w > dist then
            EntityIn.turnToFace drv (drv.wake s) (e.stepToward drv w dist) (waypointIn w)
          else drv.wake s)
          (e.stepToward drv w dist)
          (dist - min dist (distToIn drv.Length e.pos w)) := by
  have hfd : min dist (distToIn drv.Length e.pos w)
      = if dist > distToIn drv.Length e.pos w then distToIn drv.Length e.pos w else dist := by
    split
    · rw [min_eq_right (by linarith)]
    · rw [min_eq_left (by linarith)]
  rw [EntityIn.advance]
  simp only [hpath, EntityIn.stepToward, hfd]
  rfl

/-- One call of `advance` whose sprite is not in its walking animation, or
whose budget is spent, returns at once. -/
theorem EntityIn.advance_stop {K : Type} [LinearOrderedField K] [FloorRing K] {S : Type}
    (drv : DriverIn K S) (costToMove : CostToMove) (l : Level)
    (fuel : Nat) (s : S) (e : EntityIn K) (dist : K) (w : Point) (rest : List Point)
    (hpath : e.path = w :: rest) (h : drv.CurAnim (drv.wake s) ≠ "walk" ∨ dist ≤ 0) :
    EntityIn.advance drv costToMove l (fuel + 1) s e dist = Run.returned (drv.wake s, e) := by
  rw [EntityIn.advance_step drv costToMove l fuel s e dist w rest hpath]
  by_cases hw : drv.CurAnim (drv.wake s) ≠ "walk"
  · rw [if_pos hw]
  · rw [if_neg hw, if_pos (h.resolve_left hw)]

/-- One call of `advance` within the snap distance of its waypoint enters the
cell, pops the waypoint and goes on with the budget less the distance. -/
theorem EntityIn.advance_enter {K : Type} [LinearOrderedField K] [FloorRing K] {S : Type}
    (drv : DriverIn K S) (costToMove : CostToMove) (l : Level)
    (fuel : Nat) (s : S) (e : EntityIn K) (dist : K) (w : Point) (rest : List Point)
    (hpath : e.path = w :: rest) (hwalk : drv.CurAnim (drv.wake s) = "walk")
    (hdist : 0 < dist) (hnear : distToIn drv.Length e.pos w ≤ 1 / 100000) :
    EntityIn.advance drv costToMove l (fuel + 1) s e dist =
      match e.enterCell costToMove l w.1 w.2 with
      | none => Run.panicked
      | some e2 =>
        EntityIn.advance drv costToMove l fuel (drv.wake s) { e2 with path := e2.path.drop 1 }
          (dist - distToIn drv.Length e.pos w) := by
  rw [EntityIn.advance_step drv costToMove l fuel s e dist w rest hpath,
    if_neg (not_not.mpr hwalk), if_neg (not_le.mpr hdist), if_pos hnear]

/-- One call of `advance` farther than the snap distance from its waypoint
moves toward it by the smaller of the budget and the distance, and goes on
with the rest of the budget; the sprite is turned only when the waypoint is
not reached. -/
theorem EntityIn.advance_toward {K : Type} [LinearOrderedField K] [FloorRing K] {S : Type}
    (drv : DriverIn K S) (costToMove : CostToMove) (l : Level)
    (fuel : Nat) (s : S) (e : EntityIn K) (dist : K) (w : Point) (rest : List Point)
    (hpath : e.path = w :: rest) (hwalk : drv.CurAnim (drv.wake s) = "walk")
    (hdist : 0 < dist) (hfar : ¬ distToIn drv.Length e.pos w ≤ 1 / 100000) :
    ∃ s2, (distToIn drv.Length e.pos w ≤ dist → s2 = drv.wake s) ∧
      EntityIn.advance drv costToMove l (fuel + 1) s e dist =
        EntityIn.advance drv costToMove l fuel s2 (e.stepToward drv w dist)
          (dist - min dist (distToIn drv.Length e.pos w)) := by
  rw [EntityIn.advance_step drv costToMove l fuel s e dist w rest hpath,
    if_neg (not_not.mpr hwalk), if_neg (not_le.mpr hdist), if_neg hfar]
  by_cases hturn : distToIn drv.Length e.pos w > dist
  · exact ⟨_, fun hle => absurd hle (not_le.mpr hturn), by rw [if_pos hturn]⟩
  · exact ⟨_, fun _ => rfl, by rw [if_neg hturn]⟩

/-- Moving by the whole distance ends on the waypoint. -/
theorem moveTowardIn_arrive {K : Type} [LinearOrderedField K] (pos : K × K) (w : Point)
    (moved : K) (hne : moved ≠ 0) : moveTowardIn pos w moved moved = waypointIn w := by
  unfold moveTowardIn
  refine Prod.ext ?_ ?_
  · simp only; field_simp
  · simp only; field_simp

theorem distToIn_waypoint_self {K : Type} [LinearOrderedField K] (len : K × K → K)
    (hzero : len (0, 0) = 0) (w : Point) : distToIn len (waypointIn w) w = 0 := by
  simp only [distToIn, sub_self]
  exact hzero

/-- Recomputing visibility, with the positions read in the field of the
rationals. -/
theorem Entity.figureVisibility_toIn (l : Level) (e : Entity) :
    (e.figureVisibility l).map Entity.toIn = e.toIn.figureVisibility l := by
  have key : ∀ o : Option (Finset Int),
      (match o with
        | none => none
        | some visible => some { e with visible := visible }).map Entity.toIn
      = (match o with
        | none => none
        | some visible => some { e.toIn with visible := visible }) := by
    intro o
    cases o <;> rfl
  exact key _

/-- Entering a cell, with the positions read in the field of the rationals. -/
theorem Entity.enterCell_toIn (costToMove : CostToMove) (l : Level) (e : Entity) (x y : Int) :
    (e.enterCell costToMove l x y).map Entity.toIn = e.toIn.enterCell costToMove l x y := by
  have hg : ∀ q : ℚ, goIntIn q = goInt q := fun q => rfl
  simp only [Entity.enterCell, EntityIn.enterCell, Entity.toIn, hg]
  split_ifs with hneg
  · exact Entity.figureVisibility_toIn l _
  · exact Entity.figureVisibility_toIn l _

/-- At the rationals the run of `EntityIn.advance` is the run of
`Entity.advance` without the distance that the latter reports. -/
theorem Entity.advance_state {S : Type} (drv : Driver S) (costToMove : CostToMove) (l : Level) :
    ∀ (fuel : Nat) (s : S) (e : Entity) (dist : ℚ),
      (Entity.advance drv costToMove l fuel s e dist).state
        = EntityIn.advance drv.toIn costToMove l fuel s e.toIn dist := by
  intro fuel
  induction fuel with
  | zero => intro s e dist; rfl
  | succ f ih =>
    intro s e dist
    cases hp : e.path with
    | nil =>
      rw [Entity.advance_nil drv costToMove l f s e dist hp,
        EntityIn.advance_empty drv.toIn costToMove l f s e.toIn dist hp]
      rfl
    | cons w rest =>
      rw [Entity.advance_cons drv costToMove l f s e dist w rest hp,
        EntityIn.advance_step drv.toIn costToMove l f s e.toIn dist w rest hp]
      have hwake : drv.toIn.wake s = drv.wake s := rfl
      have hdist : distToIn drv.toIn.Length e.toIn.pos w = distTo drv.Length e.pos w := rfl
      have hanim : drv.toIn.CurAnim = drv.CurAnim := rfl
      rw [hwake, hdist, hanim]
      by_cases h1 : drv.CurAnim (drv.wake s) ≠ "walk"
      · rw [if_pos h1, if_pos h1]; rfl
      · rw [if_neg h1, if_neg h1]
        by_cases h2 : dist ≤ 0
        · rw [if_pos h2, if_pos h2]; rfl
        · rw [if_neg h2, if_neg h2]
          by_cases h3 : distTo drv.Length e.pos w ≤ 1 / 100000
          · rw [if_pos h3, if_pos h3]
            have hent := Entity.enterCell_toIn costToMove l e w.1 w.2
            cases hc : e.enterCell costToMove l w.1 w.2 with
            | none =>
              rw [hc] at hent
              simp only [Option.map_none'] at hent
              rw [← hent]
              rfl
            | some e2 =>
              rw [hc] at hent
              simp only [Option.map_some'] at hent
              rw [← hent]
              exact ih _ _ _
          · rw [if_neg h3, if_neg h3]
            have hstep : (e.stepToward drv w dist).toIn = e.toIn.stepToward drv.toIn w dist := rfl
            rw [← hstep]
            have hturn : EntityIn.turnToFace drv.toIn (drv.wake s) (e.stepToward drv w dist).toIn
                (waypointIn w) = Entity.turnToFace drv (drv.wake s) (e.stepToward drv w dist)
                  (waypoint w) := rfl
            rw [hturn, ← ih]
            cases Entity.advance drv costToMove l f
              (if distTo drv.Length e.pos w > dist then
                Entity.turnToFace drv (drv.wake s) (e.stepToward drv w dist) (waypoint w)
              else drv.wake s) (e.stepToward drv w dist)
              (dist - min dist (distTo drv.Length e.pos w)) with
            | outOfFuel => rfl
            | panicked => rfl
            | returned a => obtain ⟨⟨s1, e1⟩, m⟩ := a; rfl

/-! ## Lengths -/

theorem LengthLawsIn.zero {K : Type} [LinearOrderedField K] {len : K × K → K}
    (h : LengthLawsIn len) : len (0, 0) = 0 := by
  have := h.scale 0 (0, 0)
  simpa using this

theorem LengthLawsIn.nonneg {K : Type} [LinearOrderedField K] {len : K × K → K}
    (h : LengthLawsIn len) (v : K × K) : 0 ≤ len v :=
  le_trans (abs_nonneg _) (h.coord v).1

theorem LengthLawsIn.neg {K : Type} [LinearOrderedField K] {len : K × K → K}
    (h : LengthLawsIn len) (a b : K) : len (-a, -b) = len (a, b) := by
  have := h.scale (-1) (a, b)
  simpa using this

theorem distToIn_nonneg {K : Type} [LinearOrderedField K] {len : K × K → K}
    (h : LengthLawsIn len) (pos : K × K) (w : Point) : 0 ≤ distToIn len pos w := h.nonneg _

theorem pathLengthIn_nonneg {K : Type} [LinearOrderedField K] {len : K × K → K}
    (h : LengthLawsIn len) :
    ∀ (path : List Point) (pos : K × K), 0 ≤ pathLengthIn len pos path := by
  intro path
  induction path with
  | nil => intro pos; simp [pathLengthIn]
  | cons w rest ih =>
    intro pos
    simp only [pathLengthIn]
    exact add_nonneg (h.nonneg _) (ih _)

theorem pathLengthIn_cons {K : Type} [LinearOrderedField K] (len : K × K → K) (pos : K × K)
    (w : Point) (rest : List Point) :
    pathLengthIn len pos (w :: rest)
      = distToIn len pos w + pathLengthIn len (waypointIn w) rest := rfl

/-- The distances from two positions to one waypoint differ by at most the
distance between the positions. -/
theorem distToIn_le_add {K : Type} [LinearOrderedField K] {len : K × K → K}
    (h : LengthLawsIn len) (p q : K × K) (w : Point) :
    distToIn len p w ≤ distToIn len q w + len (q.1 - p.1, q.2 - p.2) := by
  have := h.triangle ((waypointIn w : K × K).1 - q.1, (waypointIn w : K × K).2 - q.2)
    (q.1 - p.1, q.2 - p.2)
  simpa [distToIn] using this

/-- The distance between a waypoint and a position, read in either direction. -/
theorem distToIn_symm {K : Type} [LinearOrderedField K] {len : K × K → K}
    (h : LengthLawsIn len) (p : K × K) (w : Point) :
    len (p.1 - (waypointIn w : K × K).1, p.2 - (waypointIn w : K × K).2) = distToIn len p w := by
  have := h.neg ((waypointIn w : K × K).1 - p.1) ((waypointIn w : K × K).2 - p.2)
  simpa [distToIn] using this

/-- Two different integer waypoints are at least 1 apart. -/
theorem one_le_distToIn_of_ne {K : Type} [LinearOrderedField K] {len : K × K → K}
    (h : LengthLawsIn len) (w0 w : Point) (hne : w ≠ w0) :
    1 ≤ distToIn len (waypointIn w0) w := by
  have hc := h.coord ((waypointIn w : K × K).1 - (waypointIn w0 : K × K).1,
    (waypointIn w : K × K).2 - (waypointIn w0 : K × K).2)
  simp only [waypointIn] at hc
  by_cases h1 : w.1 = w0.1
  · have h2 : w.2 ≠ w0.2 := fun h2 => hne (Prod.ext h1 h2)
    have : (1 : K) ≤ |(w.2 : K) - (w0.2 : K)| := by
      have hz : (1 : Int) ≤ |w.2 - w0.2| := Int.one_le_abs (sub_ne_zero.mpr h2)
      exact_mod_cast hz
    exact le_trans this hc.2
  · have : (1 : K) ≤ |(w.1 : K) - (w0.1 : K)| := by
      have hz : (1 : Int) ≤ |w.1 - w0.1| := Int.one_le_abs (sub_ne_zero.mpr h1)
      exact_mod_cast hz
    exact le_trans this hc.1

/-- A position within the snap distance of a waypoint of the grid lies in a
cell of the grid. -/
theorem goIntIn_near_waypoint {K : Type} [LinearOrderedField K] [FloorRing K]
    {len : K × K → K} (h : LengthLawsIn len) (pos : K × K) (w : Point)
    (W H : Nat) (hnear : distToIn len pos w ≤ 1 / 100000)
    (hw : (0 ≤ w.1 ∧ w.1 < W) ∧ (0 ≤ w.2 ∧ w.2 < H)) :
    (0 ≤ goIntIn pos.1 ∧ goIntIn pos.1 < W) ∧ (0 ≤ goIntIn pos.2 ∧ goIntIn pos.2 < H) := by
  have hc := h.coord ((waypointIn w : K × K).1 - pos.1, (waypointIn w : K × K).2 - pos.2)
  simp only [waypointIn] at hc
  have key : ∀ (q : K) (z : Int) (N : Nat), |(z : K) - q| ≤ 1 / 100000 → 0 ≤ z → z < N →
      0 ≤ goIntIn q ∧ goIntIn q < N := by
    intro q z N hq hz0 hzN
    rw [abs_le] at hq
    obtain ⟨hq1, hq2⟩ := hq
    unfold goIntIn
    split
    · rename_i hq0
      refine ⟨Int.floor_nonneg.mpr hq0, ?_⟩
      have hlt : ⌊q⌋ < z + 1 := by
        rw [Int.floor_lt]; push_cast; linarith
      omega
    · rename_i hq0
      have hz : z = 0 := by
        have : (z : K) < 1 := by linarith
        have : z < 1 := by exact_mod_cast this
        omega
      subst hz
      have hceil : ⌈q⌉ = 0 := by
        rw [Int.ceil_eq_iff]
        push_cast
        constructor <;> linarith
      rw [hceil]
      exact ⟨le_refl _, hzN⟩
  exact ⟨key pos.1 w.1 W (le_trans hc.1 (by simpa [distToIn, waypointIn] using hnear)) hw.1.1 hw.1.2,
    key pos.2 w.2 H (le_trans hc.2 (by simpa [distToIn, waypointIn] using hnear)) hw.2.1 hw.2.2⟩

/-- A move toward a waypoint by `d` displaces the position by exactly `d`. -/
theorem moveTowardIn_displacement {K : Type} [LinearOrderedField K] {len : K × K → K}
    (h : LengthLawsIn len) (p : K × K) (w : Point) (d : K) (hd : 0 ≤ d)
    (hne : distToIn len p w ≠ 0) :
    len ((moveTowardIn p w (distToIn len p w) d).1 - p.1,
        (moveTowardIn p w (distToIn len p w) d).2 - p.2) = d := by
  have hm0 := distToIn_nonneg h p w
  have hc : 0 ≤ d / distToIn len p w := div_nonneg hd hm0
  have hs := h.scale (d / distToIn len p w)
    ((waypointIn w : K × K).1 - p.1, (waypointIn w : K × K).2 - p.2)
  rw [abs_of_nonneg hc] at hs
  have hv : len ((waypointIn w : K × K).1 - p.1, (waypointIn w : K × K).2 - p.2)
      = distToIn len p w := rfl
  rw [hv, div_mul_cancel₀ _ hne] at hs
  refine Eq.trans (congrArg len ?_) hs
  simp only [moveTowardIn]
  refine Prod.ext ?_ ?_
  · simp only; field_simp; ring
  · simp only; field_simp; ring

/-- A move toward a waypoint by `d` brings the position closer to it by
exactly `d`. -/
theorem distToIn_moveTowardIn {K : Type} [LinearOrderedField K] {len : K × K → K}
    (h : LengthLawsIn len) (p : K × K) (w : Point) (d : K)
    (hd : d ≤ distToIn len p w) (hne : distToIn len p w ≠ 0) :
    distToIn len (moveTowardIn p w (distToIn len p w) d) w = distToIn len p w - d := by
  have hm0 := distToIn_nonneg h p w
  have hmpos : 0 < distToIn len p w := lt_of_le_of_ne hm0 (Ne.symm hne)
  have hc : 0 ≤ 1 - d / distToIn len p w := by
    rw [sub_nonneg, div_le_one hmpos]
    exact hd
  have hs := h.scale (1 - d / distToIn len p w)
    ((waypointIn w : K × K).1 - p.1, (waypointIn w : K × K).2 - p.2)
  rw [abs_of_nonneg hc] at hs
  have hv : len ((waypointIn w : K × K).1 - p.1, (waypointIn w : K × K).2 - p.2)
      = distToIn len p w := rfl
  rw [hv] at hs
  have hr : (1 - d / distToIn len p w) * distToIn len p w = distToIn len p w - d := by
    field_simp
  rw [hr] at hs
  refine Eq.trans (congrArg len ?_) hs
  simp only [moveTowardIn]
  refine Prod.ext ?_ ?_
  · simp only; field_simp; ring
  · simp only; field_simp; ring

/-! ## Moves along the path -/

/-- Moves along a path leave the waypoints that were not popped. -/
theorem MovesAlong.path_eq {K : Type} [LinearOrderedField K] {len : K × K → K}
    {p p' : K × K} {path path' : List Point} {M : K} {k : Nat}
    (h : MovesAlong len p path p' path' M k) : path' = path.drop k ∧ k ≤ path.length := by
  induction h with
  | stay p path => exact ⟨rfl, Nat.zero_le _⟩
  | move p w rest d p' path' M k _ _ _ _ ih => exact ih
  | pop p w rest p' path' M k _ _ ih =>
    exact ⟨by rw [ih.1]; rfl, by simp only [List.length_cons]; omega⟩

/-- The total length of the moves along a path is the length by which the
remaining path has become shorter, up to twice the snap distance for each
waypoint popped. -/
theorem MovesAlong.remaining {K : Type} [LinearOrderedField K] {len : K × K → K}
    (hlaws : LengthLawsIn len) {p p' : K × K} {path path' : List Point} {M : K} {k : Nat}
    (h : MovesAlong len p path p' path' M k) :
    0 ≤ M ∧ M ≤ pathLengthIn len p path - pathLengthIn len p' path' ∧
      pathLengthIn len p path - pathLengthIn len p' path' ≤ M + 2 * (1 / 100000) * k := by
  induction h with
  | stay p path => simp
  | move p w rest d p' path' M k hd0 hd hne _ ih =>
    have hstep := distToIn_moveTowardIn hlaws p w d hd hne
    rw [pathLengthIn_cons] at ih ⊢
    rw [hstep] at ih
    obtain ⟨h1, h2, h3⟩ := ih
    exact ⟨by linarith, by linarith, by linarith⟩
  | pop p w rest p' path' M k hnear _ ih =>
    obtain ⟨h1, h2, h3⟩ := ih
    have hm0 := distToIn_nonneg hlaws p w
    have hdrop : 0 ≤ pathLengthIn len p (w :: rest) - pathLengthIn len p rest ∧
        pathLengthIn len p (w :: rest) - pathLengthIn len p rest ≤ 2 * (1 / 100000) := by
      cases rest with
      | nil =>
        simp only [pathLengthIn, add_zero, sub_zero]
        exact ⟨hm0, by linarith⟩
      | cons w2 r =>
        simp only [pathLengthIn]
        have hup : distToIn len p w2 ≤ distToIn len (waypointIn w) w2 + distToIn len p w := by
          have := distToIn_le_add hlaws p (waypointIn w) w2
          exact this
        have hdown : distToIn len (waypointIn w) w2 ≤ distToIn len p w2 + distToIn len p w := by
          have := distToIn_le_add hlaws (waypointIn w) p w2
          rwa [distToIn_symm hlaws p w] at this
        exact ⟨by linarith, by linarith⟩
    refine ⟨h1, by linarith, ?_⟩
    push_cast
    linarith

/-! ## The distance advanced -/

theorem DriverIn.wake_of_walking {K : Type} {S : Type} (drv : DriverIn K S) (s : S)
    (h : drv.Walking s) : drv.wake s = s := by
  simp [DriverIn.wake, h.1]

/-- A call with a spent budget returns at once, the entity untouched. -/
theorem EntityIn.advance_spent {K : Type} [LinearOrderedField K] [FloorRing K] {S : Type}
    (drv : DriverIn K S) (costToMove : CostToMove) (l : Level)
    (fuel : Nat) (s : S) (e : EntityIn K) (dist : K) (hd : dist ≤ 0) :
    ∃ s', EntityIn.advance drv costToMove l (fuel + 1) s e dist = Run.returned (s', e) := by
  cases hp : e.path with
  | nil => exact ⟨_, EntityIn.advance_empty drv costToMove l fuel s e dist hp⟩
  | cons w rest =>
    exact ⟨_, EntityIn.advance_stop drv costToMove l fuel s e dist w rest hp (Or.inr hd)⟩

/-- A walking entity within the snap distance of a waypoint of the grid enters
the cell without panic, keeps its position, pops the waypoint and goes on. -/
theorem EntityIn.advance_pop {K : Type} [LinearOrderedField K] [FloorRing K] {S : Type}
    (drv : DriverIn K S) (costToMove : CostToMove) (l : Level)
    (W H : Nat) (hlaws : LengthLawsIn drv.Length) (hrect : l.Rect W H)
    (fuel : Nat) (s : S) (e : EntityIn K) (dist : K) (w : Point) (rest : List Point)
    (hpath : e.path = w :: rest) (hwalk : drv.Walking s) (hdist : 0 < dist)
    (hnear : distToIn drv.Length e.pos w ≤ 1 / 100000)
    (hw : (0 ≤ w.1 ∧ w.1 < W) ∧ (0 ≤ w.2 ∧ w.2 < H)) :
    ∃ e2, e2.pos = e.pos ∧ e2.path = rest ∧
      EntityIn.advance drv costToMove l (fuel + 1) s e dist
        = EntityIn.advance drv costToMove l fuel s e2 (dist - distToIn drv.Length e.pos w) := by
  have hwake := drv.wake_of_walking s hwalk
  have hanim : drv.CurAnim (drv.wake s) = "walk" := by rw [hwake]; exact hwalk.2
  obtain ⟨hx, hy⟩ := goIntIn_near_waypoint hlaws e.pos w W H hnear hw
  obtain ⟨e1, he1⟩ := EntityIn.enterCell_isSome costToMove l W H e w.1 w.2 hrect hx hy
  obtain ⟨hpos, hp⟩ := EntityIn.enterCell_keeps costToMove l e e1 w.1 w.2 he1
  refine ⟨{ e1 with path := e1.path.drop 1 }, hpos, by simp [hp, hpath], ?_⟩
  rw [EntityIn.advance_enter drv costToMove l fuel s e dist w rest hpath hanim hdist hnear, he1,
    hwake]

/-- A walking entity farther than the snap distance from its waypoint: with a
budget of at most the distance it moves toward the waypoint by the budget and
keeps its path; with a larger budget it moves onto the waypoint, pops it and
goes on from there, as the continuation `hcont` says. -/
theorem EntityIn.advance_reach {K : Type} [LinearOrderedField K] [FloorRing K] {S : Type}
    (drv : DriverIn K S) (costToMove : CostToMove) (l : Level)
    (W H : Nat) (hlaws : LengthLawsIn drv.Length) (hrect : l.Rect W H)
    (fuel : Nat) (s : S) (e : EntityIn K) (dist : K) (w : Point) (rest : List Point)
    (hpath : e.path = w :: rest) (hwalk : drv.Walking s) (hdist : 0 < dist)
    (hfar : ¬ distToIn drv.Length e.pos w ≤ 1 / 100000)
    (hw : (0 ≤ w.1 ∧ w.1 < W) ∧ (0 ≤ w.2 ∧ w.2 < H))
    (hfuel : 2 * rest.length + 3 ≤ fuel)
    (hcont : ∀ (fuel' : Nat) (e3 : EntityIn K) (dist' : K), e3.path = rest →
      e3.pos = waypointIn w → 0 ≤ dist' → 2 * rest.length + 1 ≤ fuel' →
      ∃ s' e' M k, EntityIn.advance drv costToMove l fuel' s e3 dist' = Run.returned (s', e') ∧
        MovesAlong drv.Length (waypointIn w) rest e'.pos e'.path M k ∧
        M = min dist' (pathLengthIn drv.Length (waypointIn w) rest)) :
    ∃ s' e' M k, EntityIn.advance drv costToMove l fuel s e dist = Run.returned (s', e') ∧
      MovesAlong drv.Length e.pos (w :: rest) e'.pos e'.path M k ∧
      M = min dist (pathLengthIn drv.Length e.pos (w :: rest)) ∧
      (dist ≤ distToIn drv.Length e.pos w → k = 0) ∧
      (distToIn drv.Length e.pos w < dist → 1 ≤ k) := by
  have hwake := drv.wake_of_walking s hwalk
  have hanim : drv.CurAnim (drv.wake s) = "walk" := by rw [hwake]; exact hwalk.2
  have hL := pathLengthIn_nonneg hlaws rest (waypointIn w)
  have hne : distToIn drv.Length e.pos w ≠ 0 := by
    intro h0; rw [h0] at hfar; norm_num at hfar
  obtain ⟨f, rfl⟩ : ∃ f, fuel = f + 1 := ⟨fuel - 1, by omega⟩
  obtain ⟨s2, hs2, hmove⟩ :=
    EntityIn.advance_toward drv costToMove l f s e dist w rest hpath hanim hdist hfar
  rw [hmove, pathLengthIn_cons]
  obtain ⟨f1, rfl⟩ : ∃ f1, f = f1 + 1 := ⟨f - 1, by omega⟩
  have hpath1 : (e.stepToward drv w dist).path = w :: rest := by
    simp [EntityIn.stepToward, hpath]
  by_cases hreach : dist ≤ distToIn drv.Length e.pos w
  · rw [min_eq_left hreach, sub_self]
    obtain ⟨s', hs'⟩ := EntityIn.advance_spent drv costToMove l f1 s2 (e.stepToward drv w dist) 0
      (le_refl _)
    have hpos1 : (e.stepToward drv w dist).pos
        = moveTowardIn e.pos w (distToIn drv.Length e.pos w) dist := by
      simp only [EntityIn.stepToward, min_eq_left hreach]
    refine ⟨s', e.stepToward drv w dist, dist + 0, 0, hs', ?_, ?_, fun _ => rfl, ?_⟩
    · rw [hpath1, hpos1]
      exact MovesAlong.move e.pos w rest dist _ _ 0 0 (le_of_lt hdist) hreach hne
        (MovesAlong.stay _ _)
    · rw [add_zero, min_eq_left (by linarith)]
    · intro hlt; exact absurd hreach (not_le.mpr hlt)
  · have hlt : distToIn drv.Length e.pos w < dist := not_le.mp hreach
    have hm0 := distToIn_nonneg hlaws e.pos w
    rw [min_eq_right (le_of_lt hlt), hs2 (le_of_lt hlt), hwake]
    have hpos1 : (e.stepToward drv w dist).pos = waypointIn w := by
      simp only [EntityIn.stepToward, min_eq_right (le_of_lt hlt), moveTowardIn_arrive _ _ _ hne]
    have hself : distToIn drv.Length (waypointIn w) w = 0 :=
      distToIn_waypoint_self _ hlaws.zero w
    have hnear1 : distToIn drv.Length (e.stepToward drv w dist).pos w ≤ 1 / 100000 := by
      rw [hpos1, hself]; norm_num
    obtain ⟨e2, hpos2, hpath2, hpop⟩ := EntityIn.advance_pop drv costToMove l W H hlaws hrect f1
      s (e.stepToward drv w dist) (dist - distToIn drv.Length e.pos w) w rest hpath1 hwalk
      (by linarith) hnear1 hw
    rw [hpos1, hself, sub_zero] at hpop
    obtain ⟨s', e', M, k, hrun, hmoves, hM⟩ := hcont f1 e2 (dist - distToIn drv.Length e.pos w)
      hpath2 (by rw [hpos2, hpos1]) (by linarith) (by omega)
    refine ⟨s', e', distToIn drv.Length e.pos w + M, k + 1, by rw [hpop, hrun], ?_, ?_, ?_,
      fun _ => by omega⟩
    · refine MovesAlong.move e.pos w rest (distToIn drv.Length e.pos w) _ _ M (k + 1) hm0
        (le_refl _) hne ?_
      rw [moveTowardIn_arrive _ _ _ hne]
      exact MovesAlong.pop (waypointIn w) w rest _ _ M k (by rw [hself]; norm_num) hmoves
    · rw [hM, ← min_add_add_left]; congr 1; ring
    · intro hle; exact absurd hle hreach

/-- An entity standing exactly on a cell centre advances by exactly the smaller
of the budget and the length of its path. -/
theorem EntityIn.advance_aligned {K : Type} [LinearOrderedField K] [FloorRing K] {S : Type}
    (drv : DriverIn K S) (costToMove : CostToMove) (l : Level)
    (W H : Nat) (hlaws : LengthLawsIn drv.Length) (hrect : l.Rect W H) (s : S)
    (hwalk : drv.Walking s) :
    ∀ (path : List Point) (fuel : Nat) (e : EntityIn K) (dist : K) (p0 : Point), e.path = path →
      e.pos = waypointIn p0 → InGrid W H path → 0 ≤ dist → 2 * path.length + 1 ≤ fuel →
      ∃ s' e' M k, EntityIn.advance drv costToMove l fuel s e dist = Run.returned (s', e') ∧
        MovesAlong drv.Length e.pos path e'.pos e'.path M k ∧
        M = min dist (pathLengthIn drv.Length e.pos path) := by
  intro path
  induction path with
  | nil =>
    intro fuel e dist p0 hpath _ _ hdist hfuel
    obtain ⟨f, rfl⟩ : ∃ f, fuel = f + 1 := ⟨fuel - 1, by omega⟩
    refine ⟨_, e, 0, 0, EntityIn.advance_empty drv costToMove l f s e dist hpath, ?_, ?_⟩
    · rw [hpath]; exact MovesAlong.stay _ _
    · simp [pathLengthIn, hdist]
  | cons w rest ih =>
    intro fuel e dist p0 hpath hpos hgrid hdist hfuel
    simp only [List.length_cons] at hfuel
    have hw : (0 ≤ w.1 ∧ w.1 < W) ∧ (0 ≤ w.2 ∧ w.2 < H) := hgrid w (List.mem_cons_self _ _)
    have hgrid' : InGrid W H rest := fun p hp => hgrid p (List.mem_cons_of_mem _ hp)
    have hL := pathLengthIn_nonneg hlaws (w :: rest) e.pos
    rcases eq_or_lt_of_le hdist with h0 | hpos'
    · obtain ⟨f, rfl⟩ : ∃ f, fuel = f + 1 := ⟨fuel - 1, by omega⟩
      obtain ⟨s', hs'⟩ := EntityIn.advance_spent drv costToMove l f s e dist (le_of_eq h0.symm)
      refine ⟨s', e, 0, 0, hs', ?_, ?_⟩
      · rw [hpath]; exact MovesAlong.stay _ _
      · rw [← h0, min_eq_left hL]
    · by_cases hnear : distToIn drv.Length e.pos w ≤ 1 / 100000
      · have hwp : w = p0 := by
          by_contra hne
          have := one_le_distToIn_of_ne hlaws p0 w hne
          rw [hpos] at hnear
          have h1 : (1 : K) / 100000 < 1 := by norm_num
          linarith
        have hm : distToIn drv.Length e.pos w = 0 := by
          rw [hpos, hwp]; exact distToIn_waypoint_self _ hlaws.zero p0
        obtain ⟨f, rfl⟩ : ∃ f, fuel = f + 1 := ⟨fuel - 1, by omega⟩
        obtain ⟨e2, hpos2, hpath2, hpop⟩ := EntityIn.advance_pop drv costToMove l W H hlaws hrect
          f s e dist w rest hpath hwalk hpos' hnear hw
        rw [hm, sub_zero] at hpop
        obtain ⟨s', e', M, k, hrun, hmoves, hM⟩ := ih f e2 dist p0 hpath2 (by rw [hpos2, hpos])
          hgrid' hdist (by omega)
        rw [hpos2] at hmoves hM
        refine ⟨s', e', M, k + 1, by rw [hpop, hrun], ?_, ?_⟩
        · exact MovesAlong.pop e.pos w rest _ _ M k hnear hmoves
        · rw [hM, pathLengthIn_cons, hm, zero_add, hpos, hwp]
      · obtain ⟨s', e', M, k, hrun, hmoves, hM, _, _⟩ := EntityIn.advance_reach drv costToMove l
          W H hlaws hrect fuel s e dist w rest hpath hwalk hpos' hnear hw (by omega)
          (fun fuel' e3 dist' hp3 hpos3 hd3 hf3 => by
            obtain ⟨s', e', M, k, hrun, hmoves, hM⟩ := ih fuel' e3 dist' w hp3 hpos3 hgrid' hd3 hf3
            exact ⟨s', e', M, k, hrun, by rw [← hpos3]; exact hmoves, by rw [hM, hpos3]⟩)
        exact ⟨s', e', M, k, hrun, hmoves, hM⟩

/-- The smaller of two numbers moves by no more than the numbers do. -/
theorem min_sub_min_abs_le {K : Type} [LinearOrderedField K] (a b c d r : K)
    (h1 : |a - c| ≤ r) (h2 : |b - d| ≤ r) : |min a b - min c d| ≤ r := by
  rw [abs_le] at *
  obtain ⟨h1l, h1r⟩ := h1
  obtain ⟨h2l, h2r⟩ := h2
  constructor
  · rcases min_cases a b with ⟨e1, _⟩ | ⟨e1, _⟩ <;> rcases min_cases c d with ⟨e2, _⟩ | ⟨e2, _⟩ <;>
      rw [e1, e2] <;> linarith
  · rcases min_cases a b with ⟨e1, _⟩ | ⟨e1, _⟩ <;> rcases min_cases c d with ⟨e2, _⟩ | ⟨e2, _⟩ <;>
      rw [e1, e2] <;> linarith

/-- An entity within the snap distance `m` of the cell centre `w0`, which has
already given up `j * m` of its budget to snaps: the distance advanced differs
from the smaller of the restored budget and the length of the path through
`w0` by at most the snap distance for each snap, past and new. -/
theorem EntityIn.advance_near {K : Type} [LinearOrderedField K] [FloorRing K] {S : Type}
    (drv : DriverIn K S) (costToMove : CostToMove) (l : Level)
    (W H : Nat) (hlaws : LengthLawsIn drv.Length) (hrect : l.Rect W H) (s : S)
    (hwalk : drv.Walking s) :
    ∀ (path : List Point) (j fuel : Nat) (e : EntityIn K) (dist : K) (w0 : Point),
      e.path = path →
      distToIn drv.Length e.pos w0 ≤ 1 / 100000 → InGrid W H path → 1 ≤ j →
      0 ≤ dist + j * distToIn drv.Length e.pos w0 → 2 * path.length + 1 ≤ fuel →
      ∃ (s' : S) (e' : EntityIn K) (M : K) (popped : Nat),
        EntityIn.advance drv costToMove l fuel s e dist = Run.returned (s', e') ∧
        MovesAlong drv.Length e.pos path e'.pos e'.path M popped ∧
        |M - min (dist + j * distToIn drv.Length e.pos w0)
            (distToIn drv.Length e.pos w0 + pathLengthIn drv.Length (waypointIn w0) path)|
          ≤ 1 / 100000 * (j + popped) := by
  intro path
  induction path with
  | nil =>
    intro j fuel e dist w0 hpath hnear _ hj hbudget hfuel
    obtain ⟨f, rfl⟩ : ∃ f, fuel = f + 1 := ⟨fuel - 1, by omega⟩
    have hm0 := distToIn_nonneg hlaws e.pos w0
    have hj1 : (1 : K) ≤ j := by exact_mod_cast hj
    have hj0 : (0 : K) ≤ j := le_trans zero_le_one hj1
    have hjm : (j : K) * distToIn drv.Length e.pos w0 ≤ 1 / 100000 * j := by
      rw [mul_comm (1 / 100000 : K)]
      exact mul_le_mul_of_nonneg_left hnear hj0
    have hmjm : distToIn drv.Length e.pos w0 ≤ (j : K) * distToIn drv.Length e.pos w0 := by
      have := mul_le_mul_of_nonneg_right hj1 hm0
      rwa [one_mul] at this
    refine ⟨_, e, 0, 0, EntityIn.advance_empty drv costToMove l f s e dist hpath,
      by rw [hpath]; exact MovesAlong.stay _ _, ?_⟩
    simp only [pathLengthIn, add_zero, Nat.cast_zero, zero_sub, abs_neg]
    rw [abs_le]
    rcases min_cases (dist + j * distToIn drv.Length e.pos w0) (distToIn drv.Length e.pos w0)
      with ⟨e1, h1⟩ | ⟨e1, h1⟩ <;> rw [e1] <;> constructor <;> linarith
  | cons w rest ih =>
    intro j fuel e dist w0 hpath hnear hgrid hj hbudget hfuel
    simp only [List.length_cons] at hfuel
    obtain ⟨f, rfl⟩ : ∃ f, fuel = f + 1 := ⟨fuel - 1, by omega⟩
    have hw : (0 ≤ w.1 ∧ w.1 < W) ∧ (0 ≤ w.2 ∧ w.2 < H) := hgrid w (List.mem_cons_self _ _)
    have hgrid' : InGrid W H rest := fun p hp => hgrid p (List.mem_cons_of_mem _ hp)
    have hm0 := distToIn_nonneg hlaws e.pos w0
    have hj1 : (1 : K) ≤ j := by exact_mod_cast hj
    have hj0 : (0 : K) ≤ j := le_trans zero_le_one hj1
    have hjm0 : 0 ≤ (j : K) * distToIn drv.Length e.pos w0 := mul_nonneg hj0 hm0
    have hjm : (j : K) * distToIn drv.Length e.pos w0 ≤ 1 / 100000 * j := by
      rw [mul_comm (1 / 100000 : K)]
      exact mul_le_mul_of_nonneg_left hnear hj0
    have hmjm : distToIn drv.Length e.pos w0 ≤ (j : K) * distToIn drv.Length e.pos w0 := by
      have := mul_le_mul_of_nonneg_right hj1 hm0
      rwa [one_mul] at this
    have hR := pathLengthIn_nonneg hlaws rest (waypointIn w)
    have hL := pathLengthIn_nonneg hlaws (w :: rest) (waypointIn w0)
    have hup : distToIn drv.Length e.pos w
        ≤ distToIn drv.Length (waypointIn w0) w + distToIn drv.Length e.pos w0 :=
      distToIn_le_add hlaws e.pos (waypointIn w0) w
    have hdown : distToIn drv.Length (waypointIn w0) w
        ≤ distToIn drv.Length e.pos w + distToIn drv.Length e.pos w0 := by
      have := distToIn_le_add hlaws (waypointIn w0) e.pos w
      rwa [distToIn_symm hlaws e.pos w0] at this
    rcases le_or_lt dist 0 with hd | hd
    · obtain ⟨s', hs'⟩ := EntityIn.advance_spent drv costToMove l f s e dist hd
      refine ⟨s', e, 0, 0, hs', by rw [hpath]; exact MovesAlong.stay _ _, ?_⟩
      simp only [Nat.cast_zero, add_zero, zero_sub, abs_neg]
      rw [abs_le]
      rcases min_cases (dist + j * distToIn drv.Length e.pos w0)
        (distToIn drv.Length e.pos w0 + pathLengthIn drv.Length (waypointIn w0) (w :: rest))
        with ⟨e1, h1⟩ | ⟨e1, h1⟩ <;> rw [e1] <;> constructor <;> linarith
    · by_cases hsnap : distToIn drv.Length e.pos w ≤ 1 / 100000
      · have hwp : w = w0 := by
          by_contra hne
          have := one_le_distToIn_of_ne hlaws w0 w hne
          have h1 : (1 : K) / 100000 + 1 / 100000 < 1 := by norm_num
          linarith
        subst hwp
        obtain ⟨e2, hpos2, hpath2, hpop⟩ := EntityIn.advance_pop drv costToMove l W H hlaws hrect
          f s e dist w rest hpath hwalk hd hsnap hw
        have hcast : dist - distToIn drv.Length e.pos w
            + ((j + 1 : Nat) : K) * distToIn drv.Length e.pos w
            = dist + j * distToIn drv.Length e.pos w := by push_cast; ring
        obtain ⟨s', e', M, popped, hrun, hmoves, hM⟩ := ih (j + 1) f e2
          (dist - distToIn drv.Length e.pos w) w hpath2 (by rw [hpos2]; exact hsnap) hgrid'
          (by omega) (by rw [hpos2, hcast]; exact hbudget) (by omega)
        rw [hpos2, hcast] at hM
        rw [hpos2] at hmoves
        refine ⟨s', e', M, popped + 1, by rw [hpop, hrun],
          MovesAlong.pop e.pos w rest _ _ M popped hsnap hmoves, ?_⟩
        rw [pathLengthIn_cons, distToIn_waypoint_self _ hlaws.zero, zero_add]
        have : (1 : K) / 100000 * (((j + 1 : Nat) : K) + popped)
            = 1 / 100000 * ((j : K) + ((popped + 1 : Nat) : K)) := by push_cast; ring
        rw [← this]
        exact hM
      · have hfar : 1 / 100000 < distToIn drv.Length e.pos w := not_le.mp hsnap
        obtain ⟨s', e', M, k, hrun, hmoves, hM, hkeep, hgo⟩ := EntityIn.advance_reach drv
          costToMove l W H hlaws hrect (f + 1) s e dist w rest hpath hwalk hd hsnap hw (by omega)
          (fun fuel' e3 dist' hp3 hpos3 hd3 hf3 => by
            obtain ⟨s', e', M, k, hrun, hmoves, hM⟩ := EntityIn.advance_aligned drv costToMove l
              W H hlaws hrect s hwalk rest fuel' e3 dist' w hp3 hpos3 hgrid' hd3 hf3
            exact ⟨s', e', M, k, hrun, by rw [← hpos3]; exact hmoves, by rw [hM, hpos3]⟩)
        refine ⟨s', e', M, k, hrun, hmoves, ?_⟩
        rw [pathLengthIn_cons] at hM
        rcases le_or_lt dist (distToIn drv.Length e.pos w) with h | h
        · rw [hkeep h, hM, min_eq_left (by linarith), pathLengthIn_cons, Nat.cast_zero, add_zero,
            abs_le]
          rcases min_cases (dist + j * distToIn drv.Length e.pos w0)
            (distToIn drv.Length e.pos w0 + (distToIn drv.Length (waypointIn w0) w
              + pathLengthIn drv.Length (waypointIn w) rest))
            with ⟨e1, h1⟩ | ⟨e1, h1⟩ <;> rw [e1] <;> constructor <;> linarith
        · have hk1 : (1 : K) ≤ k := by exact_mod_cast hgo h
          have hstep : |M - min (dist + j * distToIn drv.Length e.pos w0)
              (distToIn drv.Length e.pos w0
                + pathLengthIn drv.Length (waypointIn w0) (w :: rest))|
              ≤ 1 / 100000 * ((j : K) + 1) := by
            rw [hM, pathLengthIn_cons]
            apply min_sub_min_abs_le
            · rw [abs_le]; constructor <;> linarith
            · rw [abs_le]; constructor <;> linarith
          refine le_trans hstep ?_
          linarith

/-- A walking entity with its last waypoint farther than the snap distance
and within the budget ends exactly on that waypoint, the path empty. -/
theorem EntityIn.advance_arrive {K : Type} [LinearOrderedField K] [FloorRing K] {S : Type}
    (drv : DriverIn K S) (costToMove : CostToMove) (l : Level)
    (W H : Nat) (hlaws : LengthLawsIn drv.Length) (hrect : l.Rect W H)
    (fuel : Nat) (s : S) (e : EntityIn K) (dist : K) (w : Point)
    (hpath : e.path = [w]) (hwalk : drv.Walking s)
    (hfar : ¬ distToIn drv.Length e.pos w ≤ 1 / 100000)
    (hlt : distToIn drv.Length e.pos w < dist)
    (hw : (0 ≤ w.1 ∧ w.1 < W) ∧ (0 ≤ w.2 ∧ w.2 < H)) :
    ∃ s' e', EntityIn.advance drv costToMove l (fuel + 3) s e dist = Run.returned (s', e') ∧
      e'.pos = waypointIn w ∧ e'.path = [] := by
  have hwake := drv.wake_of_walking s hwalk
  have hanim : drv.CurAnim (drv.wake s) = "walk" := by rw [hwake]; exact hwalk.2
  have hm0 := distToIn_nonneg hlaws e.pos w
  have hne : distToIn drv.Length e.pos w ≠ 0 := by
    intro h0; rw [h0] at hfar; norm_num at hfar
  obtain ⟨s2, hs2, hmove⟩ := EntityIn.advance_toward drv costToMove l (fuel + 2) s e dist w []
    hpath hanim (by linarith) hfar
  rw [hmove, min_eq_right (le_of_lt hlt), hs2 (le_of_lt hlt), hwake]
  have hpos1 : (e.stepToward drv w dist).pos = waypointIn w := by
    simp only [EntityIn.stepToward, min_eq_right (le_of_lt hlt), moveTowardIn_arrive _ _ _ hne]
  have hpath1 : (e.stepToward drv w dist).path = [w] := by
    simp [EntityIn.stepToward, hpath]
  have hself : distToIn drv.Length (waypointIn w) w = 0 :=
    distToIn_waypoint_self _ hlaws.zero w
  have hnear1 : distToIn drv.Length (e.stepToward drv w dist).pos w ≤ 1 / 100000 := by
    rw [hpos1, hself]; norm_num
  obtain ⟨e2, hpos2, hpath2, hpop⟩ := EntityIn.advance_pop drv costToMove l W H hlaws hrect
    (fuel + 1) s (e.stepToward drv w dist) (dist - distToIn drv.Length e.pos w) w [] hpath1
    hwalk (by linarith) hnear1 hw
  rw [hpop, EntityIn.advance_empty drv costToMove l fuel s e2 _ hpath2]
  exact ⟨_, e2, rfl, by rw [hpos2, hpos1], hpath2⟩

/-- The Euclidean length of the real plane obeys the laws used of
`DriverIn.Length`. -/
theorem euclidean_laws :
    LengthLawsIn (fun v : ℝ × ℝ => Real.sqrt (v.1 * v.1 + v.2 * v.2)) := by
  have habs : ∀ a b : ℝ, Real.sqrt (a * a + b * b) = Complex.abs ⟨a, b⟩ := by
    intro a b
    rw [Complex.abs_apply, Complex.normSq_mk]
  refine ⟨?_, ?_, ?_⟩
  · intro u v
    simp only [habs]
    have h := Complex.abs.add_le ⟨u.1, u.2⟩ ⟨v.1, v.2⟩
    exact h
  · intro c v
    simp only [habs]
    have h : (⟨c * v.1, c * v.2⟩ : ℂ) = (c : ℂ) * ⟨v.1, v.2⟩ := by
      apply Complex.ext <;> simp
    rw [h, map_mul, Complex.abs_ofReal]
  · intro v
    simp only [habs]
    exact ⟨Complex.abs_re_le_abs ⟨v.1, v.2⟩, Complex.abs_im_le_abs ⟨v.1, v.2⟩⟩

/-- With the Euclidean length of the real plane, a walking entity on the cell
(2,2) with the diagonal step to (3,3) ahead and the budget 3/2, which is more
than the length of the step, ends on (3,3) with its path empty. -/
theorem EntityIn.advance_diagonal :
    ∃ (s' : Unit) (e' : EntityIn ℝ),
      EntityIn.advance (walkingDriverIn fun v : ℝ × ℝ => Real.sqrt (v.1 * v.1 + v.2 * v.2))
          sampleCost (terrainLevel 5 5 fun _ _ => 0) 3 () diagonalEntity (3 / 2)
        = Run.returned (s', e') ∧
      e'.pos = (3, 3) ∧ e'.path = [] := by
  have hlen : distToIn (walkingDriverIn fun v : ℝ × ℝ => Real.sqrt (v.1 * v.1 + v.2 * v.2)).Length
      (diagonalEntity : EntityIn ℝ).pos (3, 3) = Real.sqrt 2 := by
    simp only [distToIn, walkingDriverIn, waypointIn, diagonalEntity]
    norm_num
  have h1 : (1 : ℝ) ≤ Real.sqrt 2 := by
    rw [Real.one_le_sqrt]; norm_num
  have h2 : Real.sqrt 2 < 3 / 2 := by
    rw [Real.sqrt_lt' (by norm_num)]; norm_num
  obtain ⟨s', e', hrun, hpos, hpath⟩ := EntityIn.advance_arrive
    (walkingDriverIn fun v : ℝ × ℝ => Real.sqrt (v.1 * v.1 + v.2 * v.2)) sampleCost
    (terrainLevel 5 5 fun _ _ => 0) 5 5 euclidean_laws (terrainLevel_rect 5 5 _) 0 ()
    diagonalEntity (3 / 2) (3, 3) rfl (by simp [DriverIn.Walking, walkingDriverIn])
    (by rw [hlen]; intro h; linarith) (by rw [hlen]; exact h2) (by decide)
  refine ⟨s', e', hrun, ?_, hpath⟩
  rw [hpos]
  simp [waypointIn]

/-- C14: in exact arithmetic over an ordered field, with a length that obeys
the laws of the Euclidean length (the Euclidean length of the real plane is
one), on a rectangular grid that holds every waypoint, with the sprite in its
walking state and animation and a budget `dist ≥ 0`: one call `advance(dist)`
returns, and the entity it returns is reached from the entity it was given by
moves straight toward the successive waypoints and pops of waypoints within
the snap distance; the path left is the path without the `popped` waypoints;
the total length `M` of the moves differs from
`min(dist, length of the remaining path)` by at most 1e-5 for each waypoint
popped, and is the length by which the remaining path has become shorter, up
to 2e-5 for each waypoint popped. -/
theorem advance_conserves_distance {K : Type} [LinearOrderedField K] [FloorRing K] {S : Type}
    (drv : DriverIn K S) (costToMove : CostToMove) (l : Level) (W H : Nat)
    (hlaws : LengthLawsIn drv.Length) (hrect : l.Rect W H)
    (fuel : Nat) (s : S) (e : EntityIn K) (dist : K) (hwalk : drv.Walking s)
    (hgrid : InGrid W H e.path) (hdist : 0 ≤ dist) (hfuel : 2 * e.path.length + 1 ≤ fuel) :
    ∃ (s' : S) (e' : EntityIn K) (M : K) (popped : Nat),
      EntityIn.advance drv costToMove l fuel s e dist = Run.returned (s', e') ∧
      MovesAlong drv.Length e.pos e.path e'.pos e'.path M popped ∧
      e'.path = e.path.drop popped ∧
      |M - min dist (pathLengthIn drv.Length e.pos e.path)| ≤ 1 / 100000 * popped ∧
      M ≤ pathLengthIn drv.Length e.pos e.path - pathLengthIn drv.Length e'.pos e'.path ∧
      pathLengthIn drv.Length e.pos e.path - pathLengthIn drv.Length e'.pos e'.path
        ≤ M + 2 * (1 / 100000) * popped := by
  have core : ∃ (s' : S) (e' : EntityIn K) (M : K) (popped : Nat),
      EntityIn.advance drv costToMove l fuel s e dist = Run.returned (s', e') ∧
      MovesAlong drv.Length e.pos e.path e'.pos e'.path M popped ∧
      |M - min dist (pathLengthIn drv.Length e.pos e.path)| ≤ 1 / 100000 * popped := by
    cases hp : e.path with
    | nil =>
      obtain ⟨f, rfl⟩ : ∃ f, fuel = f + 1 := ⟨fuel - 1, by omega⟩
      exact ⟨_, e, 0, 0, EntityIn.advance_empty drv costToMove l f s e dist hp,
        by rw [hp]; exact MovesAlong.stay _ _, by simp [pathLengthIn, hdist]⟩
    | cons w rest =>
      rw [hp] at hgrid hfuel
      simp only [List.length_cons] at hfuel
      have hw : (0 ≤ w.1 ∧ w.1 < W) ∧ (0 ≤ w.2 ∧ w.2 < H) := hgrid w (List.mem_cons_self _ _)
      have hgrid' : InGrid W H rest := fun p hp => hgrid p (List.mem_cons_of_mem _ hp)
      have hL := pathLengthIn_nonneg hlaws (w :: rest) e.pos
      obtain ⟨f, rfl⟩ : ∃ f, fuel = f + 1 := ⟨fuel - 1, by omega⟩
      rcases eq_or_lt_of_le hdist with h0 | hpos
      · obtain ⟨s', hs'⟩ := EntityIn.advance_spent drv costToMove l f s e dist (le_of_eq h0.symm)
        refine ⟨s', e, 0, 0, hs', by rw [hp]; exact MovesAlong.stay _ _, ?_⟩
        rw [← h0, min_eq_left hL]
        simp
      · by_cases hsnap : distToIn drv.Length e.pos w ≤ 1 / 100000
        · obtain ⟨e2, hpos2, hpath2, hpop⟩ := EntityIn.advance_pop drv costToMove l W H hlaws
            hrect f s e dist w rest hp hwalk hpos hsnap hw
          obtain ⟨s', e', M, popped, hrun, hmoves, hM⟩ := EntityIn.advance_near drv costToMove l
            W H hlaws hrect s hwalk rest 1 f e2 (dist - distToIn drv.Length e.pos w) w hpath2
            (by rw [hpos2]; exact hsnap) hgrid' (le_refl 1)
            (by rw [hpos2]; push_cast; linarith) (by omega)
          rw [hpos2] at hM hmoves
          refine ⟨s', e', M, popped + 1, by rw [hpop, hrun],
            MovesAlong.pop e.pos w rest _ _ M popped hsnap hmoves, ?_⟩
          rw [pathLengthIn_cons]
          have h1 : dist - distToIn drv.Length e.pos w
              + ((1 : Nat) : K) * distToIn drv.Length e.pos w = dist := by push_cast; ring
          have h2 : (1 : K) / 100000 * (((1 : Nat) : K) + popped)
              = 1 / 100000 * ((popped + 1 : Nat) : K) := by push_cast; ring
          rw [h1, h2] at hM
          exact hM
        · obtain ⟨s', e', M, k, hrun, hmoves, hM, _, _⟩ := EntityIn.advance_reach drv costToMove
            l W H hlaws hrect (f + 1) s e dist w rest hp hwalk hpos hsnap hw (by omega)
            (fun fuel' e3 dist' hp3 hpos3 hd3 hf3 => by
              obtain ⟨s', e', M, k, hrun, hmoves, hM⟩ := EntityIn.advance_aligned drv costToMove
                l W H hlaws hrect s hwalk rest fuel' e3 dist' w hp3 hpos3 hgrid' hd3 hf3
              exact ⟨s', e', M, k, hrun, by rw [← hpos3]; exact hmoves, by rw [hM, hpos3]⟩)
          refine ⟨s', e', M, k, hrun, hmoves, ?_⟩
          rw [hM, sub_self, abs_zero]
          exact mul_nonneg (by norm_num) (Nat.cast_nonneg _)
  obtain ⟨s', e', M, popped, hrun, hmoves, hM⟩ := core
  obtain ⟨_, hlow, hhigh⟩ := hmoves.remaining hlaws
  exact ⟨s', e', M, popped, hrun, hmoves, hmoves.path_eq.1, hM, hlow, hhigh⟩

theorem advance_conserves_distance_witness :
    ∃ (s' : Unit) (e' : EntityIn ℝ) (M : ℝ) (popped : Nat),
      EntityIn.advance (walkingDriverIn fun v : ℝ × ℝ => Real.sqrt (v.1 * v.1 + v.2 * v.2))
          sampleCost (terrainLevel 5 5 fun _ _ => 0) 3 () diagonalEntity (3 / 2)
        = Run.returned (s', e') ∧
      MovesAlong (walkingDriverIn fun v : ℝ × ℝ => Real.sqrt (v.1 * v.1 + v.2 * v.2)).Length
        (diagonalEntity : EntityIn ℝ).pos (diagonalEntity : EntityIn ℝ).path e'.pos e'.path M
        popped ∧
      e'.path = (diagonalEntity : EntityIn ℝ).path.drop popped ∧
      |M - min (3 / 2) (pathLengthIn
          (walkingDriverIn fun v : ℝ × ℝ => Real.sqrt (v.1 * v.1 + v.2 * v.2)).Length
          (diagonalEntity : EntityIn ℝ).pos (diagonalEntity : EntityIn ℝ).path)|
        ≤ 1 / 100000 * popped ∧
      M ≤ pathLengthIn
          (walkingDriverIn fun v : ℝ × ℝ => Real.sqrt (v.1 * v.1 + v.2 * v.2)).Length
          (diagonalEntity : EntityIn ℝ).pos (diagonalEntity : EntityIn ℝ).path
        - pathLengthIn
          (walkingDriverIn fun v : ℝ × ℝ => Real.sqrt (v.1 * v.1 + v.2 * v.2)).Length
          e'.pos e'.path ∧
      pathLengthIn
          (walkingDriverIn fun v : ℝ × ℝ => Real.sqrt (v.1 * v.1 + v.2 * v.2)).Length
          (diagonalEntity : EntityIn ℝ).pos (diagonalEntity : EntityIn ℝ).path
        - pathLengthIn
          (walkingDriverIn fun v : ℝ × ℝ => Real.sqrt (v.1 * v.1 + v.2 * v.2)).Length
          e'.pos e'.path
        ≤ M + 2 * (1 / 100000) * popped :=
  advance_conserves_distance
    (walkingDriverIn fun v : ℝ × ℝ => Real.sqrt (v.1 * v.1 + v.2 * v.2)) sampleCost
    (terrainLevel 5 5 fun _ _ => 0) 5 5 euclidean_laws (terrainLevel_rect 5 5 _) 3 ()
    diagonalEntity (3 / 2) (by simp [DriverIn.Walking, walkingDriverIn])
    (by simp [InGrid, diagonalEntity]) (by norm_num) (by simp [diagonalEntity])

/-- C15: with a length that is 0 on the zero vector, for every sprite, entity,
path and distance budget, `advance` makes at most `2 * len(path) + 1` calls:
with that many calls allowed the run does not run out of them, and allowing
more calls does not change its result. -/
theorem advance_terminates {S : Type} (drv : Driver S) (costToMove : CostToMove) (l : Level)
    (hzero : drv.Length (0, 0) = 0) (fuel : Nat) (s : S) (e : Entity) (dist : ℚ)
    (hfuel : 2 * e.path.length + 1 ≤ fuel) :
    Entity.advance drv costToMove l (2 * e.path.length + 1) s e dist ≠ Run.outOfFuel ∧
      Entity.advance drv costToMove l fuel s e dist
        = Entity.advance drv costToMove l (2 * e.path.length + 1) s e dist := by
  have h := Entity.advance_bound drv costToMove l hzero e.path.length
    (2 * e.path.length + 1) s e dist rfl (le_refl _)
  refine ⟨h, ?_⟩
  obtain ⟨k, rfl⟩ : ∃ k, fuel = 2 * e.path.length + 1 + k := ⟨fuel - (2 * e.path.length + 1),
    by omega⟩
  exact Entity.advance_fuel_mono drv costToMove l _ s e dist h k

theorem advance_terminates_witness :
    Entity.advance walkingDriver sampleCost (terrainLevel 5 5 fun _ _ => 0)
        (2 * walkingEntity.path.length + 1) () walkingEntity (3 / 2) ≠ Run.outOfFuel ∧
      Entity.advance walkingDriver sampleCost (terrainLevel 5 5 fun _ _ => 0) 9 () walkingEntity
          (3 / 2)
        = Entity.advance walkingDriver sampleCost (terrainLevel 5 5 fun _ _ => 0)
          (2 * walkingEntity.path.length + 1) () walkingEntity (3 / 2) :=
  advance_terminates walkingDriver sampleCost (terrainLevel 5 5 fun _ _ => 0)
    (by simp [walkingDriver]) 9 () walkingEntity (3 / 2) (by simp [walkingEntity])

/-! ## The record of cells of `figureVisibility` -/

/-- Dropping the record of cells from `addVisibleAlongLineTraced` gives
`addVisibleAlongLine`. -/
theorem addVisibleAlongLineTraced_erase (att : Attributes) (l : Level) :
    ∀ (line : List Point) (vision : Int) (st : Finset Int × List Point),
      (addVisibleAlongLineTraced att l vision line st).map Prod.fst
        = addVisibleAlongLine att l vision line st.1 := by
  intro line
  induction line with
  | nil => intro vision st; rfl
  | cons v rest ih =>
    intro vision st
    cases hcell : l.cellAt v.1 v.2 with
    | none => simp only [addVisibleAlongLineTraced, addVisibleAlongLine, hcell, Option.map_none']
    | some cell =>
      cases hlos : att.LosMods cell.Terrain with
      | none =>
        simp only [addVisibleAlongLineTraced, addVisibleAlongLine, hcell, hlos, Option.map_some']
      | some k =>
        simp only [addVisibleAlongLineTraced, addVisibleAlongLine, hcell, hlos]
        split
        · rfl
        · split
          · rfl
          · exact ih _ _

theorem castRayTraced_erase (att : Attributes) (l : Level) (vision ex ey tx ty : Int)
    (st : Finset Int × List Point) :
    (castRayTraced att l vision ex ey tx ty st).map Prod.fst
      = castRay att l vision ex ey tx ty st.1 := by
  unfold castRayTraced castRay
  cases sliceFrom1 (bresenham ex ey tx ty) with
  | none => rfl
  | some line => exact addVisibleAlongLineTraced_erase att l line vision st

/-- A fold in `Option` commutes with a projection of the state that its body
commutes with. -/
theorem foldlM_erase {σ τ ι : Type} (π : σ → τ) (f : σ → ι → Option σ)
    (g : τ → ι → Option τ) (h : ∀ s i, (f s i).map π = g (π s) i) :
    ∀ (xs : List ι) (s : σ), (xs.foldlM f s).map π = xs.foldlM g (π s) := by
  intro xs
  induction xs with
  | nil => intro s; rfl
  | cons i rest ih =>
    intro s
    have hi := h s i
    simp only [List.foldlM_cons]
    cases hf : f s i with
    | none =>
      rw [hf] at hi
      simp only [Option.map_none'] at hi
      rw [← hi]
      rfl
    | some s1 =>
      rw [hf] at hi
      simp only [Option.map_some'] at hi
      rw [← hi]
      exact ih s1

theorem forRange_erase {σ τ : Type} (π : σ → τ) (lo hi : Int) (f : Int → σ → Option σ)
    (g : Int → τ → Option τ) (h : ∀ c s, (f c s).map π = g c (π s)) (s : σ) :
    (forRange lo hi f s).map π = forRange lo hi g (π s) := by
  unfold forRange
  exact foldlM_erase π _ _ (fun s i => h _ s) _ s

/-- Two rays in sequence, with and without the record of cells. -/
theorem castRayTraced_pair_erase (att : Attributes) (l : Level)
    (vision ex ey tx ty tx2 ty2 : Int) (st : Finset Int × List Point) :
    ((castRayTraced att l vision ex ey tx ty st).bind fun st =>
        castRayTraced att l vision ex ey tx2 ty2 st).map Prod.fst
      = (castRay att l vision ex ey tx ty st.1).bind fun visible =>
        castRay att l vision ex ey tx2 ty2 visible := by
  have h1 := castRayTraced_erase att l vision ex ey tx ty st
  cases hr : castRayTraced att l vision ex ey tx ty st with
  | none =>
    rw [hr] at h1
    simp only [Option.map_none'] at h1
    rw [← h1]
    rfl
  | some st1 =>
    rw [hr] at h1
    simp only [Option.map_some'] at h1
    rw [← h1]
    exact castRayTraced_erase att l vision ex ey tx2 ty2 st1

/-- Dropping the record of cells from `figureVisibilityTraced` gives
`figureVisibility`, on every level, panics included. -/
theorem figureVisibilityTraced_erase (att : Attributes) (l : Level) (ex ey : Int) :
    (figureVisibilityTraced att l ex ey).map Prod.fst = figureVisibilityAt att l ex ey := by
  simp only [figureVisibilityTraced, figureVisibilityAt]
  cases visionBox l att.LosDistance ex ey with
  | none => rfl
  | some box =>
    simp only [Option.some_bind]
    have h1 := forRange_erase Prod.fst box.1 box.2.2.1
      (fun cx st =>
        (castRayTraced att l att.LosDistance ex ey cx box.2.1 st).bind fun st =>
          castRayTraced att l att.LosDistance ex ey cx box.2.2.2 st)
      (fun cx visible =>
        (castRay att l att.LosDistance ex ey cx box.2.1 visible).bind fun visible =>
          castRay att l att.LosDistance ex ey cx box.2.2.2 visible)
      (fun c s => castRayTraced_pair_erase att l att.LosDistance ex ey c box.2.1 c box.2.2.2 s)
      ({l.toVertex ex ey}, [(ex, ey)])
    cases hr : forRange box.1 box.2.2.1
      (fun cx st =>
        (castRayTraced att l att.LosDistance ex ey cx box.2.1 st).bind fun st =>
          castRayTraced att l att.LosDistance ex ey cx box.2.2.2 st)
      ({l.toVertex ex ey}, [(ex, ey)]) with
    | none =>
      rw [hr] at h1
      simp only [Option.map_none'] at h1
      rw [← h1]
      rfl
    | some st1 =>
      rw [hr] at h1
      simp only [Option.map_some'] at h1
      rw [← h1]
      exact forRange_erase Prod.fst box.2.1 box.2.2.2
        (fun cy st =>
          (castRayTraced att l att.LosDistance ex ey box.1 cy st).bind fun st =>
            castRayTraced att l att.LosDistance ex ey box.2.2.1 cy st)
        (fun cy visible =>
          (castRay att l att.LosDistance ex ey box.1 cy visible).bind fun visible =>
            castRay att l att.LosDistance ex ey box.2.2.1 cy visible)
        (fun c s => castRayTraced_pair_erase att l att.LosDistance ex ey box.1 c box.2.2.1 c s)
        st1

/-- On a line of cells of the grid, `addVisibleAlongLineTraced` returns, and
what it marks and records is a prefix of the line. -/
theorem addVisibleAlongLineTraced_prefix (att : Attributes) (l : Level) :
    ∀ (line : List Point) (vision : Int) (st : Finset Int × List Point),
      (∀ c ∈ line, ∃ cell, l.cellAt c.1 c.2 = some cell) →
        ∃ k, addVisibleAlongLineTraced att l vision line st
          = some (st.1 ∪ vertices l (line.take k), st.2 ++ line.take k) := by
  intro line
  induction line with
  | nil => intro vision st _; exact ⟨0, by simp [addVisibleAlongLineTraced, vertices_nil]⟩
  | cons c rest ih =>
    intro vision st hin
    obtain ⟨cell, hcell⟩ := hin c (List.mem_cons_self _ _)
    have hone : (insert (l.toVertex c.1 c.2) st.1, st.2 ++ [c])
        = (st.1 ∪ vertices l ((c :: rest).take 1), st.2 ++ (c :: rest).take 1) := by
      refine Prod.ext ?_ ?_
      · ext v
        simp only [List.take_succ_cons, List.take_zero, vertices_cons, vertices_nil,
          Finset.mem_union, Finset.mem_insert, Finset.not_mem_empty, or_false]
        tauto
      · simp
    cases hlos : att.LosMods cell.Terrain with
    | none =>
      refine ⟨1, ?_⟩
      simp only [addVisibleAlongLineTraced, hcell, hlos]
      rw [hone]
    | some k =>
      simp only [addVisibleAlongLineTraced, hcell, hlos]
      split
      · exact ⟨1, by rw [hone]⟩
      · split
        · exact ⟨1, by rw [hone]⟩
        · obtain ⟨n, hn⟩ := ih (vision - (k + 1)) (insert (l.toVertex c.1 c.2) st.1, st.2 ++ [c])
            fun d hd => hin d (List.mem_cons_of_mem _ hd)
          refine ⟨n + 1, ?_⟩
          rw [hn]
          refine congrArg some (Prod.ext ?_ ?_)
          · ext v
            simp only [List.take_succ_cons, vertices_cons, Finset.mem_union, Finset.mem_insert]
            tauto
          · simp only [List.take_succ_cons, List.append_assoc, List.singleton_append]

/-- A counted loop whose body keeps an invariant returns, in a state with the
invariant. -/
theorem forRange_inv {σ : Type} (P : σ → Prop) (lo hi : Int) (f : Int → σ → Option σ)
    (hstep : ∀ c, lo ≤ c → c ≤ hi → ∀ a, P a → ∃ a', f c a = some a' ∧ P a')
    (a : σ) (ha : P a) : ∃ a', forRange lo hi f a = some a' ∧ P a' := by
  obtain ⟨a', _, h1, _, h3⟩ := forRange_rel (fun x y : σ => P x ∧ x = y) lo hi f f
    (fun c h1 h2 x y hxy => by
      obtain ⟨x', hx', hP⟩ := hstep c h1 h2 x hxy.1
      exact ⟨x', x', hx', hxy.2 ▸ hx', hP, rfl⟩)
    a a ⟨ha, rfl⟩
  exact ⟨a', h1, h3.1⟩

theorem vertices_append (l : Level) (a b : List Point) :
    vertices l (a ++ b) = vertices l a ∪ vertices l b := by
  simp [vertices, List.toFinset_append]

theorem chebyshev_le_iff (p o : Point) (r : Int) :
    chebyshev p o ≤ r ↔ (o.1 - r ≤ p.1 ∧ p.1 ≤ o.1 + r) ∧ (o.2 - r ≤ p.2 ∧ p.2 ≤ o.2 + r) := by
  simp only [chebyshev, max_le_iff, abs_le]
  constructor
  · rintro ⟨⟨h1, h2⟩, h3, h4⟩
    exact ⟨⟨by omega, by omega⟩, by omega, by omega⟩
  · rintro ⟨⟨h1, h2⟩, h3, h4⟩
    exact ⟨⟨by omega, by omega⟩, by omega, by omega⟩

/-- A counted loop whose upper bound is below its lower bound does not run. -/
theorem forRange_empty {σ : Type} (lo hi : Int) (f : Int → σ → Option σ) (a : σ)
    (h : hi < lo) : forRange lo hi f a = some a := by
  have h0 : (hi + 1 - lo).toNat = 0 := by omega
  simp only [forRange, h0, List.range_zero]
  rfl

/-- One ray from an origin in the grid to a target in the grid within
Chebyshev distance `r`: the call returns, what it marks is what it records,
and every cell it records lies in the grid within distance `r` of the origin. -/
theorem castRayTraced_inv (att : Attributes) (l : Level) (w h : Nat) (hrect : l.Rect w h)
    (ex ey tx ty : Int) (hex : 0 ≤ ex ∧ ex < w) (hey : 0 ≤ ey ∧ ey < h)
    (htx : 0 ≤ tx ∧ tx < w) (hty : 0 ≤ ty ∧ ty < h) (r : Int)
    (hr : chebyshev (tx, ty) (ex, ey) ≤ r) (vision : Int) (st : Finset Int × List Point)
    (hst : st.1 = vertices l st.2 ∧
      ∀ p ∈ st.2, ((0 ≤ p.1 ∧ p.1 < w) ∧ (0 ≤ p.2 ∧ p.2 < h)) ∧ chebyshev p (ex, ey) ≤ r) :
    ∃ st', castRayTraced att l vision ex ey tx ty st = some st' ∧
      st'.1 = vertices l st'.2 ∧
      ∀ p ∈ st'.2, ((0 ≤ p.1 ∧ p.1 < w) ∧ (0 ≤ p.2 ∧ p.2 < h)) ∧ chebyshev p (ex, ey) ≤ r := by
  obtain ⟨line, hline, hmem⟩ := bresenham_sliceFrom1 ex ey tx ty
  rw [chebyshev_le_iff] at hr
  simp only at hr
  have hgood : ∀ c ∈ line,
      ((0 ≤ c.1 ∧ c.1 < w) ∧ (0 ≤ c.2 ∧ c.2 < h)) ∧ chebyshev c (ex, ey) ≤ r := by
    intro c hc
    have hb := bresenham_mem_rect ex ey tx ty c (hmem c hc)
    simp only [min_le_iff, le_max_iff] at hb
    rw [chebyshev_le_iff]
    simp only
    omega
  have hin : ∀ c ∈ line, ∃ cell, l.cellAt c.1 c.2 = some cell := fun c hc =>
    cellAt_of_inside l w h hrect c.1 c.2 (hgood c hc).1.1 (hgood c hc).1.2
  obtain ⟨k, hk⟩ := addVisibleAlongLineTraced_prefix att l line vision st hin
  refine ⟨(st.1 ∪ vertices l (line.take k), st.2 ++ line.take k),
    by simp only [castRayTraced, hline, hk], ?_, ?_⟩
  · simp only [vertices_append, hst.1]
  · intro p hp
    simp only [List.mem_append] at hp
    rcases hp with hp | hp
    · exact hst.2 p hp
    · exact hgood p (List.mem_of_mem_take hp)

/-- On a rectangular grid, from an origin inside it, `figureVisibilityTraced`
returns, what it marks is what it records, and every cell it records lies in
the grid within Chebyshev distance `max(vision, 0)` of the origin. -/
theorem figureVisibilityTraced_inv (att : Attributes) (l : Level) (w h : Nat)
    (hrect : l.Rect w h) (ex ey : Int) (hex : 0 ≤ ex ∧ ex < w) (hey : 0 ≤ ey ∧ ey < h) :
    ∃ st, figureVisibilityTraced att l ex ey = some st ∧ st.1 = vertices l st.2 ∧
      ∀ p ∈ st.2, ((0 ≤ p.1 ∧ p.1 < w) ∧ (0 ≤ p.2 ∧ p.2 < h)) ∧
        chebyshev p (ex, ey) ≤ max att.LosDistance 0 := by
  have hw : 0 < w := by omega
  have hb := visionBox_of_rect l w h hrect hw att.LosDistance ex ey
  simp only [figureVisibilityTraced, hb, Option.some_bind]
  have hstart : ({l.toVertex ex ey} : Finset Int) = vertices l [(ex, ey)] ∧
      ∀ p ∈ [((ex, ey) : Point)],
        ((0 ≤ p.1 ∧ p.1 < w) ∧ (0 ≤ p.2 ∧ p.2 < h)) ∧
          chebyshev p (ex, ey) ≤ max att.LosDistance 0 := by
    refine ⟨by simp [vertices], ?_⟩
    intro p hp
    simp only [List.mem_singleton] at hp
    subst hp
    refine ⟨⟨hex, hey⟩, ?_⟩
    rw [chebyshev_le_iff]
    have := le_max_right att.LosDistance 0
    simp only
    omega
  obtain ⟨st1, h1, hP1⟩ := forRange_inv
    (fun st : Finset Int × List Point => st.1 = vertices l st.2 ∧
      ∀ p ∈ st.2, ((0 ≤ p.1 ∧ p.1 < w) ∧ (0 ≤ p.2 ∧ p.2 < h)) ∧
        chebyshev p (ex, ey) ≤ max att.LosDistance 0)
    (if ex - att.LosDistance < 0 then 0 else ex - att.LosDistance)
    (if ex + att.LosDistance ≥ (w : Int) then (w : Int) - 1 else ex + att.LosDistance)
    (fun cx st =>
      (castRayTraced att l att.LosDistance ex ey cx
        (if ey - att.LosDistance < 0 then 0 else ey - att.LosDistance) st).bind
        fun st => castRayTraced att l att.LosDistance ex ey cx
          (if ey + att.LosDistance ≥ (h : Int) then (h : Int) - 1
            else ey + att.LosDistance) st)
    (by
      intro c hc1 hc2 a ha
      have hv0 : 0 ≤ att.LosDistance := by split_ifs at hc1 hc2 <;> omega
      have hcw : 0 ≤ c ∧ c < w := by split_ifs at hc1 hc2 <;> omega
      have hmax : max att.LosDistance 0 = att.LosDistance := max_eq_left hv0
      obtain ⟨r, hr, hPr⟩ := castRayTraced_inv att l w h hrect ex ey c
        (if ey - att.LosDistance < 0 then 0 else ey - att.LosDistance) hex hey hcw
        (by split_ifs <;> omega) (max att.LosDistance 0)
        (by
          rw [chebyshev_le_iff, hmax]
          simp only
          split_ifs at hc1 hc2 ⊢ <;> omega)
        att.LosDistance a ha
      obtain ⟨t, ht, hPt⟩ := castRayTraced_inv att l w h hrect ex ey c
        (if ey + att.LosDistance ≥ (h : Int) then (h : Int) - 1 else ey + att.LosDistance)
        hex hey hcw (by split_ifs <;> omega) (max att.LosDistance 0)
        (by
          rw [chebyshev_le_iff, hmax]
          simp only
          split_ifs at hc1 hc2 ⊢ <;> omega)
        att.LosDistance r hPr
      exact ⟨t, by simp only [hr, Option.some_bind, ht], hPt⟩)
    ({l.toVertex ex ey}, [(ex, ey)]) hstart
  obtain ⟨st2, h2, hP2⟩ := forRange_inv
    (fun st : Finset Int × List Point => st.1 = vertices l st.2 ∧
      ∀ p ∈ st.2, ((0 ≤ p.1 ∧ p.1 < w) ∧ (0 ≤ p.2 ∧ p.2 < h)) ∧
        chebyshev p (ex, ey) ≤ max att.LosDistance 0)
    (if ey - att.LosDistance < 0 then 0 else ey - att.LosDistance)
    (if ey + att.LosDistance ≥ (h : Int) then (h : Int) - 1 else ey + att.LosDistance)
    (fun cy st =>
      (castRayTraced att l att.LosDistance ex ey
        (if ex - att.LosDistance < 0 then 0 else ex - att.LosDistance) cy st).bind
        fun st => castRayTraced att l att.LosDistance ex ey
          (if ex + att.LosDistance ≥ (w : Int) then (w : Int) - 1
            else ex + att.LosDistance) cy st)
    (by
      intro c hc1 hc2 a ha
      have hv0 : 0 ≤ att.LosDistance := by split_ifs at hc1 hc2 <;> omega
      have hch : 0 ≤ c ∧ c < h := by split_ifs at hc1 hc2 <;> omega
      have hmax : max att.LosDistance 0 = att.LosDistance := max_eq_left hv0
      obtain ⟨r, hr, hPr⟩ := castRayTraced_inv att l w h hrect ex ey
        (if ex - att.LosDistance < 0 then 0 else ex - att.LosDistance) c hex hey
        (by split_ifs <;> omega) hch (max att.LosDistance 0)
        (by
          rw [chebyshev_le_iff, hmax]
          simp only
          split_ifs at hc1 hc2 ⊢ <;> omega)
        att.LosDistance a ha
      obtain ⟨t, ht, hPt⟩ := castRayTraced_inv att l w h hrect ex ey
        (if ex + att.LosDistance ≥ (w : Int) then (w : Int) - 1 else ex + att.LosDistance) c
        hex hey (by split_ifs <;> omega) hch (max att.LosDistance 0)
        (by
          rw [chebyshev_le_iff, hmax]
          simp only
          split_ifs at hc1 hc2 ⊢ <;> omega)
        att.LosDistance r hPr
      exact ⟨t, by simp only [hr, Option.some_bind, ht], hPt⟩)
    st1 hP1
  exact ⟨st2, by rw [h1, Option.some_bind]; exact h2, hP2⟩

/-- With a negative vision budget both loops of `figureVisibility` are empty:
it marks the origin and nothing else, and reads no cell. -/
theorem figureVisibilityTraced_negative (att : Attributes) (l : Level) (w h : Nat)
    (hrect : l.Rect w h) (hw : 0 < w) (ex ey : Int) (hv : att.LosDistance < 0) :
    figureVisibilityTraced att l ex ey = some ({l.toVertex ex ey}, [(ex, ey)]) := by
  have hb := visionBox_of_rect l w h hrect hw att.LosDistance ex ey
  simp only [figureVisibilityTraced, hb, Option.some_bind]
  rw [forRange_empty _ _ _ _ (by split_ifs <;> omega), Option.some_bind,
    forRange_empty _ _ _ _ (by split_ifs <;> omega)]

/-- C21, amended: on a rectangular grid, for every concealment table, every
vision budget and every origin inside the grid, `figureVisibility` returns, so
no grid index is out of range; the cells it marks are the cells of its record;
every cell that it marks or reads is a cell of the grid and lies within
Chebyshev distance `max(vision, 0)` of the origin; with a negative budget the
origin is the only cell marked and no cell is read.  Every cell of
`bresenham(x, y, x2, y2)` lies in the rectangle spanned by `(x, y)` and
`(x2, y2)`. -/
theorem figureVisibility_in_bounds (att : Attributes) (l : Level) (w h : Nat)
    (hrect : l.Rect w h) (ex ey : Int) (hex : 0 ≤ ex ∧ ex < w) (hey : 0 ≤ ey ∧ ey < h) :
    (∀ (x y x2 y2 : Int) (p : Point), p ∈ bresenham x y x2 y2 →
      min x x2 ≤ p.1 ∧ p.1 ≤ max x x2 ∧ min y y2 ≤ p.2 ∧ p.2 ≤ max y y2) ∧
    ∃ (visible : Finset Int) (touched : List Point),
      figureVisibilityTraced att l ex ey = some (visible, touched) ∧
      figureVisibilityAt att l ex ey = some visible ∧
      visible = vertices l touched ∧
      (∀ p ∈ touched, ((0 ≤ p.1 ∧ p.1 < w) ∧ (0 ≤ p.2 ∧ p.2 < h)) ∧
        (∃ cell, l.cellAt p.1 p.2 = some cell) ∧
        chebyshev p (ex, ey) ≤ max att.LosDistance 0) ∧
      (att.LosDistance < 0 → touched = [(ex, ey)]) := by
  refine ⟨fun x y x2 y2 p hp => bresenham_mem_rect x y x2 y2 p hp, ?_⟩
  obtain ⟨st, hst, hmark, hgood⟩ := figureVisibilityTraced_inv att l w h hrect ex ey hex hey
  refine ⟨st.1, st.2, hst, ?_, hmark, ?_, ?_⟩
  · rw [← figureVisibilityTraced_erase, hst]
    rfl
  · intro p hp
    obtain ⟨hin, hdist⟩ := hgood p hp
    exact ⟨hin, cellAt_of_inside l w h hrect p.1 p.2 hin.1 hin.2, hdist⟩
  · intro hv
    have hneg := figureVisibilityTraced_negative att l w h hrect (by omega) ex ey hv
    rw [hst] at hneg
    have := Option.some.inj hneg
    rw [this]

theorem figureVisibility_in_bounds_witness :
    (∀ (x y x2 y2 : Int) (p : Point), p ∈ bresenham x y x2 y2 →
      min x x2 ≤ p.1 ∧ p.1 ≤ max x x2 ∧ min y y2 ≤ p.2 ∧ p.2 ≤ max y y2) ∧
    ∃ (visible : Finset Int) (touched : List Point),
      figureVisibilityTraced (sightAttributes 3 none) (terrainLevel 5 5 fun _ _ => 0) 2 2
        = some (visible, touched) ∧
      figureVisibilityAt (sightAttributes 3 none) (terrainLevel 5 5 fun _ _ => 0) 2 2
        = some visible ∧
      visible = vertices (terrainLevel 5 5 fun _ _ => 0) touched ∧
      (∀ p ∈ touched, ((0 ≤ p.1 ∧ p.1 < (5 : Nat)) ∧ (0 ≤ p.2 ∧ p.2 < (5 : Nat))) ∧
        (∃ cell, (terrainLevel 5 5 fun _ _ => 0).cellAt p.1 p.2 = some cell) ∧
        chebyshev p (2, 2) ≤ max (sightAttributes 3 none).LosDistance 0) ∧
      ((sightAttributes 3 none).LosDistance < 0 → touched = [(2, 2)]) :=
  figureVisibility_in_bounds (sightAttributes 3 none) (terrainLevel 5 5 fun _ _ => 0) 5 5
    (terrainLevel_rect 5 5 _) 2 2 (by decide) (by decide)

/-- C21 as stated fails for a negative vision budget: on the open 5 by 5
level, with vision -1 and the origin (2,2), `figureVisibility` marks the cell
(2,2), and the Chebyshev distance 0 of that cell from the origin is not within
the budget -1. -/
theorem figureVisibility_marks_origin_beyond_negative_budget :
    figureVisibilityTraced (sightAttributes (-1) none) (terrainLevel 5 5 fun _ _ => 0) 2 2
        = some ({rowMajor 5 2 2}, [(2, 2)]) ∧
      figureVisibilityAt (sightAttributes (-1) none) (terrainLevel 5 5 fun _ _ => 0) 2 2
        = some {rowMajor 5 2 2} ∧
      ¬ chebyshev (2, 2) (2, 2) ≤ (sightAttributes (-1) none).LosDistance := by
  have htr : figureVisibilityTraced (sightAttributes (-1) none)
      (terrainLevel 5 5 fun _ _ => 0) 2 2 = some ({rowMajor 5 2 2}, [(2, 2)]) :=
    figureVisibilityTraced_negative (sightAttributes (-1) none) (terrainLevel 5 5 fun _ _ => 0)
      5 5 (terrainLevel_rect 5 5 _) (by decide) 2 2 (by decide)
  refine ⟨htr, ?_, by decide⟩
  rw [← figureVisibilityTraced_erase, htr]
  rfl

end Glop
